import Mathlib

/-! # MacRuby strings (`string.c`): the `rb_str_t` primitives

A shallow embedding of the storage engine of `string.c` and the properties
proved about it.

Conventions of the embedding:

* a C `long` is an `Int` (the arithmetic of the file is far from the 64-bit
  limits for every buffer that fits in memory);
* the buffer `data.bytes` is a `List (Fin 256)`; `data.uchars` is the same
  memory read as 16-bit units in host byte order.  The host is little-endian:
  the non-native branch of `str_update_flags_utf16` assembles a unit as
  `bytes[0] << 8 | bytes[1]`, i.e. non-native means big-endian;
* a read outside the list yields `0`;
* a function that mutates a string returns the new value of that string;
  a function that can `rb_raise` returns an `Except`.
-/

namespace MacRuby

/-! ## Encoding descriptors -/

/-- The classes of encodings that `string.c` tells apart through the macros
`BINARY_ENC`, `NATIVE_UTF16_ENC`, `NON_NATIVE_UTF16_ENC` and `UTF32_ENC`. -/
inductive encoding_family_t where
  | binary
  | utf16_native
  | utf16_non_native
  | utf32
  | other
deriving DecidableEq, Repr

/-- The fields of `rb_encoding_t` read by `string.c`.  Descriptors are shared
and compared by identity in C; here two descriptors are the same encoding when
they are equal. -/
structure rb_encoding_t where
  public_name : String
  min_char_size : Nat
  single_byte_encoding : Bool
  ascii_compatible : Bool
  family : encoding_family_t
deriving DecidableEq, Repr

/-- Modelled from the spec: `encoding.h` is not among the sources.  The binary
("no encoding known") tag. -/
def BINARY_ENC (enc : rb_encoding_t) : Bool := enc.family == .binary

/-- Modelled from the spec: `encoding.h` is not among the sources.  UTF-16 in
host byte order. -/
def NATIVE_UTF16_ENC (enc : rb_encoding_t) : Bool := enc.family == .utf16_native

/-- Modelled from the spec: `encoding.h` is not among the sources.  UTF-16 in
the byte order opposite to the host. -/
def NON_NATIVE_UTF16_ENC (enc : rb_encoding_t) : Bool := enc.family == .utf16_non_native

/-- Modelled from the spec: `encoding.h` is not among the sources.  The UTF-16
family, native or not. -/
def UTF16_ENC (enc : rb_encoding_t) : Bool :=
  NATIVE_UTF16_ENC enc || NON_NATIVE_UTF16_ENC enc

/-- Modelled from the spec: `encoding.h` is not among the sources.  The
fixed-width UTF-32 encodings. -/
def UTF32_ENC (enc : rb_encoding_t) : Bool := enc.family == .utf32

/-! ## Strings -/

/-- The string object `rb_str_t`.  The C `flags` word is kept as its four
components: the storage bit `STRING_STORED_IN_UCHARS` and the three cached
("facultative") properties, each unknown (`none`) or known. -/
structure rb_str_t where
  encoding : rb_encoding_t
  capacity_in_bytes : Int
  length_in_bytes : Int
  data : List (Fin 256)
  stored_in_uchars : Bool
  valid_encoding : Option Bool
  ascii_only : Option Bool
  has_supplementary : Option Bool
deriving DecidableEq, Repr

/-- The result of `str_get_character_boundaries`. -/
structure character_boundaries_t where
  start_offset_in_bytes : Int
  end_offset_in_bytes : Int
deriving DecidableEq, Repr

/-- The Ruby exceptions raised by the primitives. -/
inductive ruby_exception_t where
  | EncCompatError (name1 name2 : String)
  | IndexError (message : String)
deriving DecidableEq, Repr

deriving instance DecidableEq for Except

/-- The per-encoding operation table `encoding->methods`, whose
implementations live outside `string.c`.  They are parameters of the
embedding.  `update_flags` yields the three properties it stores, in the order
valid-encoding, ASCII-only, has-supplementary. -/
structure encoding_methods_t where
  update_flags : rb_str_t → Bool × Bool × Bool
  make_data_binary : rb_str_t → rb_str_t
  try_making_data_uchars : rb_str_t → Bool × rb_str_t
  length : rb_str_t → Bool → Int
  bytesize : rb_str_t → Int
  get_character_boundaries : rb_str_t → Int → Bool → character_boundaries_t
  offset_in_bytes_to_index : rb_str_t → Int → Bool → Int

/-! ## Helpers of `encoding.h` -/

/-- Modelled from the spec: `encoding.h` is not among the sources.
`x & 0x1`. -/
def ODD_NUMBER (x : Int) : Bool := x % 2 == 1

/-- Modelled from the spec: `encoding.h` is not among the sources.  A byte
count as a count of whole 16-bit units. -/
def BYTES_TO_UCHARS (len : Int) : Int := len / 2

/-- Modelled from the spec: `encoding.h` is not among the sources.  A count of
16-bit units as a byte count. -/
def UCHARS_TO_BYTES (len : Int) : Int := len * 2

/-- Modelled from the spec: `encoding.h` is not among the sources.  Division
rounding up ("accounting for the rare odd-byte defect by rounding up"). -/
def div_round_up (a b : Int) : Int := (a + (b - 1)) / b

/-- Modelled from the spec: `encoding.h` is not among the sources.  The
storage-mode bit. -/
def str_is_stored_in_uchars (self : rb_str_t) : Bool := self.stored_in_uchars

/-- Modelled from the spec: `encoding.h` is not among the sources. -/
def str_set_stored_in_uchars (self : rb_str_t) (status : Bool) : rb_str_t :=
  { self with stored_in_uchars := status }

/-- Modelled from the spec: `encoding.h` is not among the sources. -/
def str_negate_stored_in_uchars (self : rb_str_t) : rb_str_t :=
  { self with stored_in_uchars := !self.stored_in_uchars }

/-- Modelled from the spec: `encoding.h` is not among the sources. -/
def str_set_valid_encoding (self : rb_str_t) (status : Bool) : rb_str_t :=
  { self with valid_encoding := some status }

/-- Modelled from the spec: `encoding.h` is not among the sources. -/
def str_set_ascii_only (self : rb_str_t) (status : Bool) : rb_str_t :=
  { self with ascii_only := some status }

/-- Modelled from the spec: `encoding.h` is not among the sources. -/
def str_set_has_supplementary (self : rb_str_t) (status : Bool) : rb_str_t :=
  { self with has_supplementary := some status }

/-- Modelled from the spec: `encoding.h` is not among the sources.  "Any
mutation resets all three to unknown." -/
def str_unset_facultative_flags (self : rb_str_t) : rb_str_t :=
  { self with valid_encoding := none, ascii_only := none, has_supplementary := none }

/-- Modelled from the spec: `encoding.h` is not among the sources.  The string
"is statically known to contain no supplementary pairs": the cached flag is
known and false. -/
def str_known_not_to_have_any_supplementary (self : rb_str_t) : Bool :=
  self.has_supplementary == some false

/-- Modelled from the spec: `encoding.h` is not among the sources.  The cached
validity flag is known and false. -/
def str_known_to_have_an_invalid_encoding (self : rb_str_t) : Bool :=
  self.valid_encoding == some false

/-- The assignment `str->flags = 0`: raw storage, nothing cached. -/
def str_clear_flags (self : rb_str_t) : rb_str_t :=
  { self with stored_in_uchars := false, valid_encoding := none,
              ascii_only := none, has_supplementary := none }

/-- Modelled from the spec: `encoding.h`, which defines
`STRING_REQUIRED_FLAGS`, is not among the sources.  The masking
`flags & STRING_REQUIRED_FLAGS` applied to the flags of `source` and stored in
`self`: of "the small set of flags that survive slicing" none is a cached
property ("the new value's flag cache starts unknown"); the storage bit, which
says how the copied bytes are to be read, is kept. -/
def str_keep_required_flags (self source : rb_str_t) : rb_str_t :=
  { self with stored_in_uchars := source.stored_in_uchars, valid_encoding := none,
              ascii_only := none, has_supplementary := none }

/-! ## Buffer access -/

/-- The byte `data.bytes[i]`, as an unsigned value. -/
def byte_at (data : List (Fin 256)) (i : Nat) : Nat := (data.getD i 0).val

/-- The unit `data.uchars[i]`: two bytes in host (little-endian) order. -/
def uchar_at (data : List (Fin 256)) (i : Nat) : Nat :=
  byte_at data (2 * i) + 256 * byte_at data (2 * i + 1)

/-! ## ICU macros (`unicode/utf16.h`, `unicode/utf.h`) -/

/-- ICU: `((c)&0xfffff800)==0xd800`. -/
def U16_IS_SURROGATE (c : Nat) : Bool := (c &&& 0xfffff800) == 0xd800

/-- ICU: `((c)&0x400)==0`, for a `c` that is a surrogate. -/
def U16_IS_SURROGATE_LEAD (c : Nat) : Bool := (c &&& 0x400) == 0

/-- ICU: `((c)&0xfffffc00)==0xd800`. -/
def U16_IS_LEAD (c : Nat) : Bool := (c &&& 0xfffffc00) == 0xd800

/-- ICU: `((c)&0xfffffc00)==0xdc00`. -/
def U16_IS_TRAIL (c : Nat) : Bool := (c &&& 0xfffffc00) == 0xdc00

/-- ICU: `((0xd800<<10UL)+0xdc00-0x10000)`. -/
def U16_SURROGATE_OFFSET : Nat := (0xd800 <<< 10) + 0xdc00 - 0x10000

/-- ICU: `(((UChar32)(lead)<<10UL)+(UChar32)(trail)-U16_SURROGATE_OFFSET)`. -/
def U16_GET_SUPPLEMENTARY (lead trail : Nat) : Nat :=
  (lead <<< 10) + trail - U16_SURROGATE_OFFSET

/-- ICU: `((c)>=0xfdd0 && ((uint32_t)(c)<=0xfdef || ((c)&0xfffe)==0xfffe)
&& (uint32_t)(c)<=0x10ffff)`. -/
def U_IS_UNICODE_NONCHAR (c : Nat) : Bool :=
  decide (c ≥ 0xfdd0) && (decide (c ≤ 0xfdef) || (c &&& 0xfffe) == 0xfffe)
    && decide (c ≤ 0x10ffff)

/-- ICU: `((uint32_t)(c)<0xd800 || ((uint32_t)(c)>0xdfff &&
(uint32_t)(c)<=0x10ffff && !U_IS_UNICODE_NONCHAR(c)))`. -/
def U_IS_UNICODE_CHAR (c : Nat) : Bool :=
  decide (c < 0xd800)
    || (decide (c > 0xdfff) && decide (c ≤ 0x10ffff) && !U_IS_UNICODE_NONCHAR c)

/-! ## `str_update_flags_utf16` -/

/-- The locals of the scanning loop of `str_update_flags_utf16`. -/
structure utf16_scan_t where
  ascii_only : Bool
  has_supplementary : Bool
  valid_encoding : Bool
  lead : Nat
deriving DecidableEq, Repr

/-- The unit `c` read at position `i` (lines 56-63): `uchars[i]` in native
order, otherwise the two bytes assembled high byte first. -/
def utf16_read_unit (self : rb_str_t) (i : Nat) : Nat :=
  if str_is_stored_in_uchars self then
    uchar_at self.data i
  else
    (byte_at self.data (2 * i) <<< 8) ||| byte_at self.data (2 * i + 1)

/-- One iteration of the loop body (lines 64-100) on the unit `c`. -/
def utf16_scan_unit (st : utf16_scan_t) (c : Nat) : utf16_scan_t :=
  if U16_IS_SURROGATE c then
    if U16_IS_SURROGATE_LEAD c then
      { st with valid_encoding := if st.lead != 0 then false else st.valid_encoding,
                lead := c }
    else
      if st.lead == 0 then
        { st with valid_encoding := false, lead := 0 }
      else
        { st with has_supplementary := true,
                  valid_encoding :=
                    if !U_IS_UNICODE_CHAR (U16_GET_SUPPLEMENTARY st.lead c) then false
                    else st.valid_encoding,
                  lead := 0 }
  else
    { st with valid_encoding :=
                if st.lead != 0 || !U_IS_UNICODE_CHAR c then false else st.valid_encoding,
              ascii_only := if c > 127 then false else st.ascii_only }

/-- The sequence of 16-bit units visited by the loop, in order. -/
def utf16_scanned_units (self : rb_str_t) : List Nat :=
  (List.range (BYTES_TO_UCHARS self.length_in_bytes).toNat).map (utf16_read_unit self)

/-- The state of the locals when the loop is entered (lines 43-54). -/
def utf16_scan_init (self : rb_str_t) : utf16_scan_t :=
  { ascii_only := true, has_supplementary := false,
    valid_encoding := if ODD_NUMBER self.length_in_bytes then false else true,
    lead := 0 }

/-- The state of the locals when the loop is left (lines 55-101). -/
def utf16_scan_loop (self : rb_str_t) : utf16_scan_t :=
  (List.range (BYTES_TO_UCHARS self.length_in_bytes).toNat).foldl
    (fun st i => utf16_scan_unit st (utf16_read_unit self i)) (utf16_scan_init self)

/-- The function `str_update_flags_utf16`. -/
def str_update_flags_utf16 (self : rb_str_t) : rb_str_t :=
  let st := utf16_scan_loop self
  let valid_encoding := if st.lead != 0 then false else st.valid_encoding
  let self := str_set_has_supplementary self st.has_supplementary
  if valid_encoding then
    str_set_ascii_only (str_set_valid_encoding self true) st.ascii_only
  else
    str_set_ascii_only (str_set_valid_encoding self false) false

/-! ## `str_update_flags` and the lazily computed flags -/

/-- The function `str_update_flags`. -/
def str_update_flags (M : encoding_methods_t) (self : rb_str_t) : rb_str_t :=
  if self.length_in_bytes = 0 then
    str_set_has_supplementary (str_set_ascii_only (str_set_valid_encoding self true) true) false
  else if BINARY_ENC self.encoding then
    let self := str_set_has_supplementary (str_set_valid_encoding self true) false
    let ascii_only :=
      (List.range self.length_in_bytes.toNat).all (fun i => decide (byte_at self.data i ≤ 127))
    str_set_ascii_only self ascii_only
  else if str_is_stored_in_uchars self || UTF16_ENC self.encoding then
    str_update_flags_utf16 self
  else
    let r := M.update_flags self
    str_set_has_supplementary
      (str_set_ascii_only (str_set_valid_encoding self r.1) r.2.1) r.2.2

/-- Modelled from the spec: `encoding.h` is not among the sources.  The
ASCII-only property of the flag cache, refreshed "lazily on first query after
invalidation": the cached value when it is known, otherwise the value that
`str_update_flags` computes and stores. -/
def str_is_ascii_only (M : encoding_methods_t) (self : rb_str_t) : Bool × rb_str_t :=
  match self.ascii_only with
  | some b => (b, self)
  | none =>
    let updated := str_update_flags M self
    (updated.ascii_only == some true, updated)

/-- Modelled from the spec: `encoding.h` is not among the sources.  ASCII-only
in Ruby's sense: a string in an encoding that is not ASCII-compatible never
is; otherwise the ASCII-only property of the flag cache. -/
def str_is_ruby_ascii_only (M : encoding_methods_t) (self : rb_str_t) : Bool × rb_str_t :=
  if !self.encoding.ascii_compatible then (false, self)
  else str_is_ascii_only M self

/-! ## Byte order -/

/-- The loop of `str_invert_byte_order` (lines 158-162): the two bytes of each
of the first `pairs` pairs are exchanged. -/
def swap_byte_pairs : Nat → List (Fin 256) → List (Fin 256)
  | pairs + 1, a :: b :: rest => b :: a :: swap_byte_pairs pairs rest
  | _, data => data

/-- The function `str_invert_byte_order`. -/
def str_invert_byte_order (self : rb_str_t) : rb_str_t :=
  let length_in_bytes :=
    if ODD_NUMBER self.length_in_bytes then self.length_in_bytes - 1
    else self.length_in_bytes
  str_negate_stored_in_uchars
    { self with data := swap_byte_pairs (length_in_bytes / 2).toNat self.data }

/-! ## Encoding coercion -/

/-- The function `str_compatible_encoding`: the common encoding, or `none` for
`NULL`, together with the value of `str2` afterwards (the ASCII-only query may
fill its flag cache). -/
def str_compatible_encoding (M : encoding_methods_t) (str1 str2 : rb_str_t) :
    Option rb_encoding_t × rb_str_t :=
  if str1.encoding = str2.encoding then (some str1.encoding, str2)
  else if str2.length_in_bytes = 0 then (some str1.encoding, str2)
  else if str1.length_in_bytes = 0 then (some str2.encoding, str2)
  else if !str1.encoding.ascii_compatible || !str2.encoding.ascii_compatible then
    (none, str2)
  else
    let r := str_is_ruby_ascii_only M str2
    if r.1 then (some str1.encoding, r.2) else (none, r.2)

/-- The function `str_must_have_compatible_encoding`: the encoding, or the
exception raised, together with the value of `str2` afterwards. -/
def str_must_have_compatible_encoding (M : encoding_methods_t) (str1 str2 : rb_str_t) :
    Except ruby_exception_t rb_encoding_t × rb_str_t :=
  let r := str_compatible_encoding M str1 str2
  match r.1 with
  | none =>
    (.error (.EncCompatError str1.encoding.public_name str2.encoding.public_name), r.2)
  | some new_encoding => (.ok new_encoding, r.2)

/-! ## Allocation and replacement -/

/-- Modelled from the spec: the table `rb_encodings` is not among the sources.
The entry `rb_encodings[ENCODING_BINARY]`, the binary tag. -/
def rb_encodings_BINARY : rb_encoding_t :=
  { public_name := "ASCII-8BIT", min_char_size := 1, single_byte_encoding := true,
    ascii_compatible := true, family := .binary }

/-- Modelled from the spec: the table `rb_encodings` is not among the sources.
The entry `rb_encodings[ENCODING_UTF8]`. -/
def rb_encodings_UTF8 : rb_encoding_t :=
  { public_name := "UTF-8", min_char_size := 1, single_byte_encoding := false,
    ascii_compatible := true, family := .other }

/-- The function `str_alloc`. -/
def str_alloc : rb_str_t :=
  { encoding := rb_encodings_BINARY, capacity_in_bytes := 0, length_in_bytes := 0,
    data := [], stored_in_uchars := false, valid_encoding := none,
    ascii_only := none, has_supplementary := none }

/-- The `n` bytes of `data` from byte `offset` on. -/
def read_bytes (data : List (Fin 256)) (offset n : Nat) : List (Fin 256) :=
  (List.range n).map (fun j => data.getD (offset + j) 0)

/-- The call `memcpy(dst + offset, src + src_offset, n)` on the buffer `dst`. -/
def memcpy (dst : List (Fin 256)) (offset : Nat) (src : List (Fin 256))
    (src_offset n : Nat) : List (Fin 256) :=
  read_bytes dst 0 offset ++ read_bytes src src_offset n ++ dst.drop (offset + n)

/-- The function `str_replace_with_bytes`; `bytes = none` is the `NULL`
pointer. -/
def str_replace_with_bytes (self : rb_str_t) (bytes : Option (List (Fin 256))) (len : Int)
    (enc : rb_encoding_t) : rb_str_t :=
  let self := { str_clear_flags self with encoding := enc, capacity_in_bytes := len }
  if len > 0 then
    match bytes with
    | some b => { self with data := memcpy [] 0 b 0 len.toNat, length_in_bytes := len }
    | none => { self with data := [], length_in_bytes := 0 }
  else
    { self with data := [], length_in_bytes := 0 }

/-- The function `str_replace_with_string`, for a `source` that is another
object than `self`. -/
def str_replace_with_string (self source : rb_str_t) : rb_str_t :=
  let self := str_replace_with_bytes self (some source.data) source.length_in_bytes
    source.encoding
  { self with stored_in_uchars := source.stored_in_uchars,
              valid_encoding := source.valid_encoding,
              ascii_only := source.ascii_only,
              has_supplementary := source.has_supplementary }

/-! ## Storage format conversion -/

/-- The function `str_make_data_binary`. -/
def str_make_data_binary (M : encoding_methods_t) (self : rb_str_t) : rb_str_t :=
  if !str_is_stored_in_uchars self || NATIVE_UTF16_ENC self.encoding then self
  else if NON_NATIVE_UTF16_ENC self.encoding then str_invert_byte_order self
  else M.make_data_binary self

/-- The function `str_try_making_data_uchars`: its result and the string
afterwards. -/
def str_try_making_data_uchars (M : encoding_methods_t) (self : rb_str_t) :
    Bool × rb_str_t :=
  if str_is_stored_in_uchars self then (true, self)
  else if NON_NATIVE_UTF16_ENC self.encoding then (true, str_invert_byte_order self)
  else if BINARY_ENC self.encoding then (false, self)
  else if self.length_in_bytes = 0 then (true, str_set_stored_in_uchars self true)
  else if str_known_to_have_an_invalid_encoding self then (false, self)
  else M.try_making_data_uchars self

/-- The function `str_make_same_format`, for two distinct objects: the two
strings afterwards. -/
def str_make_same_format (M : encoding_methods_t) (str1 str2 : rb_str_t) :
    rb_str_t × rb_str_t :=
  if str_is_stored_in_uchars str1 != str_is_stored_in_uchars str2 then
    if str_is_stored_in_uchars str1 then
      let r := str_try_making_data_uchars M str2
      if !r.1 then (str_make_data_binary M str1, r.2) else (str1, r.2)
    else
      (str1, str_make_data_binary M str2)
  else (str1, str2)

/-! ## Length -/

/-- ICU `u_countChar32(s, length)` with `s = uchars + pos`: the number of code
points of `length` units, a lead followed by a trail inside the range counting
once. -/
def u_countChar32 (data : List (Fin 256)) : Nat → Nat → Nat
  | _, 0 => 0
  | _, 1 => 1
  | pos, length + 2 =>
    if U16_IS_LEAD (uchar_at data pos) && U16_IS_TRAIL (uchar_at data (pos + 1)) then
      u_countChar32 data (pos + 2) length + 1
    else
      u_countChar32 data (pos + 1) (length + 1) + 1

/-- The function `str_length`. -/
def str_length (M : encoding_methods_t) (self : rb_str_t) (ucs2_mode : Bool) : Int :=
  if self.length_in_bytes = 0 then 0
  else if str_is_stored_in_uchars self then
    let length : Int :=
      if ucs2_mode then BYTES_TO_UCHARS self.length_in_bytes
      else (u_countChar32 self.data 0 (BYTES_TO_UCHARS self.length_in_bytes).toNat : Nat)
    if ODD_NUMBER self.length_in_bytes then length + 1 else length
  else
    if self.encoding.single_byte_encoding then self.length_in_bytes
    else if ucs2_mode && NON_NATIVE_UTF16_ENC self.encoding then
      div_round_up self.length_in_bytes 2
    else M.length self ucs2_mode

/-! ## Substrings -/

/-- The function `str_new_similar_empty_string`. -/
def str_new_similar_empty_string (self : rb_str_t) : rb_str_t :=
  str_keep_required_flags { str_alloc with encoding := self.encoding } self

/-- The function `str_new_copy_of_part`, for a range inside the source
(`copied_range_well_formed`).  With a negative offset or length the C function
hands that value to `memcpy` and `xmalloc` as a `size_t` and does not return a
string; what is defined here for such arguments stands for no result of the
code. -/
def str_new_copy_of_part (self : rb_str_t) (offset_in_bytes length_in_bytes : Int) :
    rb_str_t :=
  let str := { str_alloc with encoding := self.encoding,
                              capacity_in_bytes := length_in_bytes,
                              length_in_bytes := length_in_bytes }
  let str := str_keep_required_flags str self
  { str with data := memcpy [] 0 self.data offset_in_bytes.toNat length_in_bytes.toNat }

/-- The function `str_cannot_cut_surrogate`: the exception it raises. -/
def str_cannot_cut_surrogate : ruby_exception_t :=
  .IndexError "You can't cut a surrogate in two in an encoding that is not UTF-16"

/-- ICU `U16_FWD_1(s, i, length)`: the position after the code point at `i`. -/
def U16_FWD_1 (data : List (Fin 256)) (i length : Nat) : Nat :=
  if U16_IS_LEAD (uchar_at data i) && decide (i + 1 ≠ length)
      && U16_IS_TRAIL (uchar_at data (i + 1)) then i + 2
  else i + 1

/-- ICU `U16_FWD_N(s, i, length, n)`: `i` advanced by `n` code points, stopping
at `length`. -/
def U16_FWD_N (data : List (Fin 256)) (length : Nat) : Nat → Nat → Nat
  | i, 0 => i
  | i, n + 1 => if i < length then U16_FWD_N data length (U16_FWD_1 data i length) n else i

/-- The loop that counts characters from the end (lines 549-558), entered with
`offset` and with `index = -remaining`: the values of `offset` and of
`-index` when it is left. -/
def count_from_the_end (data : List (Fin 256)) : Nat → Nat → Nat × Nat
  | offset, 0 => (offset, 0)
  | 0, remaining + 1 => (0, remaining + 1)
  | offset + 1, remaining + 1 =>
    if U16_IS_TRAIL (uchar_at data offset) && decide (offset > 0)
        && U16_IS_LEAD (uchar_at data (offset - 1)) then
      count_from_the_end data (offset - 1) remaining
    else
      count_from_the_end data offset remaining

/-- The function `str_get_character_boundaries`.  The sums and products on
`index` are those of the integers: they are the code's as long as none leaves
the range of `long`, which holds for every index up to the number of
characters of a string; `str_get_character_boundaries_long` computes them
modulo `2 ^ 64`. -/
def str_get_character_boundaries (M : encoding_methods_t) (self : rb_str_t) (index : Int)
    (ucs2_mode : Bool) : character_boundaries_t :=
  let boundaries : character_boundaries_t := ⟨-1, -1⟩
  if str_is_stored_in_uchars self then
    if ucs2_mode || str_known_not_to_have_any_supplementary self then
      let index := if index < 0 then index + div_round_up self.length_in_bytes 2 else index
      if index < 0 then boundaries
      else
        let start_offset_in_bytes := UCHARS_TO_BYTES index
        let end_offset_in_bytes := start_offset_in_bytes + 2
        if !UTF16_ENC self.encoding then
          let length := BYTES_TO_UCHARS self.length_in_bytes
          if decide (index < length) && U16_IS_SURROGATE (uchar_at self.data index.toNat) then
            if U16_IS_SURROGATE_LEAD (uchar_at self.data index.toNat) then
              ⟨start_offset_in_bytes, -1⟩
            else
              ⟨-1, end_offset_in_bytes⟩
          else ⟨start_offset_in_bytes, end_offset_in_bytes⟩
        else ⟨start_offset_in_bytes, end_offset_in_bytes⟩
    else
      let uchars_count := BYTES_TO_UCHARS self.length_in_bytes
      if index < -uchars_count ∨ index ≥ uchars_count then boundaries
      else
        let located : Option Nat :=
          if index < 0 then
            let r := count_from_the_end self.data uchars_count.toNat (-index).toNat
            if r.2 ≠ 0 then none else some r.1
          else
            let offset := U16_FWD_N self.data uchars_count.toNat 0 index.toNat
            if (offset : Int) ≥ uchars_count then none else some offset
        match located with
        | none => boundaries
        | some offset =>
          let length_in_bytes :=
            if U16_IS_LEAD (uchar_at self.data offset) && decide ((offset : Int) < uchars_count - 1)
                && U16_IS_TRAIL (uchar_at self.data (offset + 1)) then UCHARS_TO_BYTES 2
            else UCHARS_TO_BYTES 1
          ⟨UCHARS_TO_BYTES offset, UCHARS_TO_BYTES offset + length_in_bytes⟩
  else
    if self.encoding.single_byte_encoding then
      let index := if index < 0 then index + self.length_in_bytes else index
      if index < 0 then boundaries else ⟨index, index + 1⟩
    else if UTF32_ENC self.encoding
        && (!ucs2_mode || str_known_not_to_have_any_supplementary self) then
      let index := if index < 0 then index + div_round_up self.length_in_bytes 4 else index
      if index < 0 then boundaries else ⟨index * 4, index * 4 + 4⟩
    else if NON_NATIVE_UTF16_ENC self.encoding
        && (ucs2_mode || str_known_not_to_have_any_supplementary self) then
      let index := if index < 0 then index + div_round_up self.length_in_bytes 2 else index
      if index < 0 then boundaries else ⟨UCHARS_TO_BYTES index, UCHARS_TO_BYTES index + 2⟩
    else
      M.get_character_boundaries self index ucs2_mode

/-- The function `str_get_characters`: the string `self` afterwards (it may
have been converted to code units), and the outcome: an exception, `none` for
`NULL`, or the new string. -/
def str_get_characters (M : encoding_methods_t) (self : rb_str_t) (first last : Int)
    (ucs2_mode : Bool) : rb_str_t × Except ruby_exception_t (Option rb_str_t) :=
  if self.length_in_bytes = 0 then
    if first = 0 then (self, .ok (some (str_new_similar_empty_string self)))
    else (self, .ok none)
  else
    let self :=
      if !self.encoding.single_byte_encoding && !str_is_stored_in_uchars self then
        (str_try_making_data_uchars M self).2
      else self
    let first_boundaries := str_get_character_boundaries M self first ucs2_mode
    let last_boundaries := str_get_character_boundaries M self last ucs2_mode
    if first_boundaries.start_offset_in_bytes = -1 then
      if last_boundaries.end_offset_in_bytes = -1 then
        (self, .error str_cannot_cut_surrogate)
      else (self, .ok none)
    else if last_boundaries.end_offset_in_bytes = -1 then
      (self, .error str_cannot_cut_surrogate)
    else if first_boundaries.start_offset_in_bytes = self.length_in_bytes then
      (self, .ok (some (str_new_similar_empty_string self)))
    else if first_boundaries.start_offset_in_bytes > self.length_in_bytes then
      (self, .ok none)
    else
      let end_offset_in_bytes :=
        if last_boundaries.end_offset_in_bytes ≥ self.length_in_bytes then
          self.length_in_bytes
        else last_boundaries.end_offset_in_bytes
      (self, .ok (some (str_new_copy_of_part self first_boundaries.start_offset_in_bytes
        (end_offset_in_bytes - first_boundaries.start_offset_in_bytes))))

/-! ## Concatenation -/

/-- The function `str_resize_bytes`. -/
def str_resize_bytes (self : rb_str_t) (new_capacity : Int) : rb_str_t :=
  if self.capacity_in_bytes < new_capacity then
    { self with capacity_in_bytes := new_capacity }
  else self

/-- The function `str_concat_string`, for two distinct objects: `self` and
`str` afterwards, and the exception raised, if any. -/
def str_concat_string (M : encoding_methods_t) (self str : rb_str_t) :
    (rb_str_t × rb_str_t) × Except ruby_exception_t Unit :=
  if str.length_in_bytes = 0 then ((self, str), .ok ())
  else if self.length_in_bytes = 0 then ((str_replace_with_string self str, str), .ok ())
  else
    let checked := str_must_have_compatible_encoding M self str
    match checked.1 with
    | .error e => ((self, checked.2), .error e)
    | .ok _ =>
      let formatted := str_make_same_format M self checked.2
      let self := formatted.1
      let str := formatted.2
      let new_length_in_bytes := self.length_in_bytes + str.length_in_bytes
      let self := str_unset_facultative_flags self
      let self := str_resize_bytes self new_length_in_bytes
      ((({ self with
            data := memcpy self.data self.length_in_bytes.toNat str.data 0
              str.length_in_bytes.toNat,
            length_in_bytes := new_length_in_bytes } : rb_str_t), str), .ok ())

/-! ## Offsets and indices -/

/-- The loop of `str_offset_in_bytes_to_index` (lines 820-835), entered with
the locals `index` and `i`; `none` when `fuel` iterations did not reach a
`return`. -/
def offset_to_index_loop (data : List (Fin 256)) (length offset_in_bytes : Int) :
    Nat → Int → Nat → Option Int
  | 0, _, _ => none
  | fuel + 1, index, i =>
    let i :=
      if U16_IS_LEAD (uchar_at data i) && decide ((i : Int) + 1 < length)
          && U16_IS_TRAIL (uchar_at data (i + 1)) then i + 2
      else i + 1
    if offset_in_bytes < (i : Int) then some index
    else if offset_in_bytes = (i : Int) then some (index + 1)
    else offset_to_index_loop data length offset_in_bytes fuel (index + 1) i

/-- The function `str_offset_in_bytes_to_index`; the loop is given
`offset_in_bytes` iterations, which it never exhausts. -/
def str_offset_in_bytes_to_index (M : encoding_methods_t) (self : rb_str_t)
    (offset_in_bytes : Int) (ucs2_mode : Bool) : Option Int :=
  if offset_in_bytes ≥ self.length_in_bytes ∨ offset_in_bytes < 0 then some (-1)
  else if offset_in_bytes = 0 then some 0
  else if str_is_stored_in_uchars self then
    if ucs2_mode || str_known_not_to_have_any_supplementary self then
      some (BYTES_TO_UCHARS offset_in_bytes)
    else
      offset_to_index_loop self.data (BYTES_TO_UCHARS self.length_in_bytes) offset_in_bytes
        offset_in_bytes.toNat 0 0
  else
    if self.encoding.single_byte_encoding then some offset_in_bytes
    else if UTF32_ENC self.encoding
        && (!ucs2_mode || str_known_not_to_have_any_supplementary self) then
      some (offset_in_bytes / 4)
    else if NON_NATIVE_UTF16_ENC self.encoding
        && (ucs2_mode || str_known_not_to_have_any_supplementary self) then
      some (BYTES_TO_UCHARS offset_in_bytes)
    else
      some (M.offset_in_bytes_to_index self offset_in_bytes ucs2_mode)

/-! ## The decision table of the specification -/

/-- The ASCII-only property of the specification, as a property of the content
of a string in an ASCII-compatible encoding: every character is an ASCII
character.  For a string stored as code units, the units are whole (the byte
length is even) and every unit is at most 127; for a string held as bytes,
every byte is at most 127. -/
def ascii_only_content (self : rb_str_t) : Bool :=
  if str_is_stored_in_uchars self then
    !ODD_NUMBER self.length_in_bytes
      && (utf16_scanned_units self).all (fun u => decide (u ≤ 127))
  else
    (List.range self.length_in_bytes.toNat).all (fun i => decide (byte_at self.data i ≤ 127))

/-- The decision table that the specification gives for
`compatible_encoding(a, b)`, in its own words: identical encodings give that
encoding; else an empty `b` gives the encoding of `a`; else an empty `a` gives
the encoding of `b`; else, both encodings being ASCII-compatible and `b` being
ASCII-only, the encoding of `a`; otherwise none. -/
def compatible_encoding_table (a b : rb_str_t) : Option rb_encoding_t :=
  if a.encoding = b.encoding then some a.encoding
  else if b.length_in_bytes = 0 then some a.encoding
  else if a.length_in_bytes = 0 then some b.encoding
  else if a.encoding.ascii_compatible = true ∧ b.encoding.ascii_compatible = true
      ∧ ascii_only_content b = true then some a.encoding
  else none

/-! ## Concrete encodings and strings for the examples -/

/-- An operation table for the examples, none of whose entries is reached by
them. -/
def unused_encoding_methods : encoding_methods_t :=
  { update_flags := fun _ => (true, true, false),
    make_data_binary := fun s => s,
    try_making_data_uchars := fun s => (false, s),
    length := fun s _ => s.length_in_bytes,
    bytesize := fun s => s.length_in_bytes,
    get_character_boundaries := fun _ _ _ => ⟨-1, -1⟩,
    offset_in_bytes_to_index := fun _ _ _ => -1 }

/-- The single-byte, ASCII-compatible encoding ISO-8859-1. -/
def rb_encodings_ISO8859_1 : rb_encoding_t :=
  { public_name := "ISO-8859-1", min_char_size := 1, single_byte_encoding := true,
    ascii_compatible := true, family := .other }

/-- The bytes of a sequence of 16-bit units in host (little-endian) order. -/
def bytes_of_uchars : List Nat → List (Fin 256)
  | [] => []
  | u :: rest =>
    ⟨u % 256, Nat.mod_lt _ (by decide)⟩ :: ⟨u / 256 % 256, Nat.mod_lt _ (by decide)⟩
      :: bytes_of_uchars rest

/-- A string of encoding `enc` holding `bytes` as raw bytes, nothing cached. -/
def raw_string (enc : rb_encoding_t) (bytes : List (Fin 256)) : rb_str_t :=
  { encoding := enc, capacity_in_bytes := bytes.length, length_in_bytes := bytes.length,
    data := bytes, stored_in_uchars := false, valid_encoding := none,
    ascii_only := none, has_supplementary := none }

/-- A string of encoding `enc` stored as the code units `units`, nothing
cached: the state left by `str_replace_with_uchars`. -/
def uchars_string (enc : rb_encoding_t) (units : List Nat) : rb_str_t :=
  { raw_string enc (bytes_of_uchars units) with stored_in_uchars := true }

/-- The one-byte ISO-8859-1 string "A", held as raw bytes. -/
def latin1_A : rb_str_t := raw_string rb_encodings_ISO8859_1 [0x41]

/-- The UTF-8 string "é" (U+00E9), held as one code unit, nothing cached. -/
def utf8_e_acute : rb_str_t := uchars_string rb_encodings_UTF8 [0xE9]

/-- A UTF-8 string stored as the single code unit D800, a lone lead
surrogate. -/
def lone_lead_surrogate : rb_str_t := uchars_string rb_encodings_UTF8 [0xD800]

/-- A UTF-8 string stored as the single code unit FFFF. -/
def unit_FFFF : rb_str_t := uchars_string rb_encodings_UTF8 [0xFFFF]

/-- The UTF-8 string "aé", stored as the two code units 0061 00E9. -/
def utf8_a_e_acute : rb_str_t := uchars_string rb_encodings_UTF8 [0x61, 0xE9]

/-- A UTF-8 string stored as the three code units D800 0041 DC00: a lead
surrogate, the letter "A", a trail surrogate. -/
def lead_A_trail : rb_str_t := uchars_string rb_encodings_UTF8 [0xD800, 0x41, 0xDC00]

/-- A UTF-8 string stored as the three code units D800 DC00 0041: the
surrogate pair of U+10000 and the letter "A". -/
def pair_then_A : rb_str_t := uchars_string rb_encodings_UTF8 [0xD800, 0xDC00, 0x41]

/-- The UTF-8 string "abc", stored as the three code units 0061 0062 0063,
nothing cached. -/
def utf8_abc : rb_str_t := uchars_string rb_encodings_UTF8 [0x61, 0x62, 0x63]

/-- Modelled from the spec: the table `rb_encodings` is not among the sources.
The entry for UTF-16BE, the UTF-16 encoding whose byte order is not that of
the (little-endian) host. -/
def rb_encodings_UTF16BE : rb_encoding_t :=
  { public_name := "UTF-16BE", min_char_size := 2, single_byte_encoding := false,
    ascii_compatible := false, family := .utf16_non_native }

/-- The three UTF-16BE bytes 00 61 62 ("a" and one dangling byte) after
`str_try_making_data_uchars`: stored as code units, with an odd byte length. -/
def utf16be_odd : rb_str_t :=
  (str_try_making_data_uchars unused_encoding_methods
    (raw_string rb_encodings_UTF16BE [0x00, 0x61, 0x62])).2

/-- The UTF-8 string of U+10000, "a", "b", stored as the four code units
D800 DC00 0061 0062, after `str_update_flags`: it is known to hold a
supplementary pair. -/
def utf8_pair_a_b : rb_str_t :=
  str_update_flags unused_encoding_methods
    (uchars_string rb_encodings_UTF8 [0xD800, 0xDC00, 0x61, 0x62])

/-- The bytes of the string: the first `length_in_bytes` bytes of its
buffer. -/
def str_bytes (self : rb_str_t) : List (Fin 256) :=
  read_bytes self.data 0 self.length_in_bytes.toNat

/-- The test `memcmp(a + offset, b, n) == 0`. -/
def memcmp_is_zero (a : List (Fin 256)) (offset : Nat) (b : List (Fin 256)) (n : Nat) : Bool :=
  decide (read_bytes a offset n = read_bytes b 0 n)

/-- The function `str_is_equal_to_string`: its result, and `self` and `str`
afterwards.  `identical` says that the two arguments are the same object
(`self == str`), in which case `str` is not looked at. -/
def str_is_equal_to_string (M : encoding_methods_t) (identical : Bool) (self str : rb_str_t) :
    Bool × rb_str_t × rb_str_t :=
  if identical then (true, self, str)
  else if self.length_in_bytes = 0 then
    if str.length_in_bytes = 0 then (true, self, str) else (false, self, str)
  else if str.length_in_bytes = 0 then (false, self, str)
  else
    let compatible := str_compatible_encoding M self str
    let str := compatible.2
    match compatible.1 with
    | some _ =>
      if str_is_stored_in_uchars self == str_is_stored_in_uchars str then
        if self.length_in_bytes ≠ str.length_in_bytes then (false, self, str)
        else (memcmp_is_zero self.data 0 str.data self.length_in_bytes.toNat, self, str)
      else
        let r1 := str_try_making_data_uchars M self
        if !r1.1 then (false, r1.2, str)
        else
          let r2 := str_try_making_data_uchars M str
          if !r2.1 then (false, r1.2, r2.2)
          else if r1.2.length_in_bytes ≠ r2.2.length_in_bytes then (false, r1.2, r2.2)
          else (memcmp_is_zero r1.2.data 0 r2.2.data r1.2.length_in_bytes.toNat, r1.2, r2.2)
    | none => (false, self, str)

/-- The loop of `str_offset_in_bytes_for_string` (lines 886-894), entered with
`offset_in_bytes`; `none` when `fuel` iterations reached neither a `return` nor
the end of the loop. -/
def offset_for_string_loop (data searched_data : List (Fin 256))
    (searched_length increment max_offset_in_bytes : Int) : Nat → Int → Option Int
  | 0, offset_in_bytes => if offset_in_bytes < max_offset_in_bytes then none else some (-1)
  | fuel + 1, offset_in_bytes =>
    if offset_in_bytes < max_offset_in_bytes then
      if memcmp_is_zero data offset_in_bytes.toNat searched_data searched_length.toNat then
        some offset_in_bytes
      else
        offset_for_string_loop data searched_data searched_length increment
          max_offset_in_bytes fuel (offset_in_bytes + increment)
    else some (-1)

/-- The function `str_offset_in_bytes_for_string`: `self` and `searched`
afterwards, and the exception raised or the offset returned.  `identical` says
that the two arguments are the same object (`self == searched`).  The loop is
given as many iterations as there are offsets between the start and the last
window, which a positive increment never exhausts; the result `none` stands for
a loop that does not end. -/
def str_offset_in_bytes_for_string (M : encoding_methods_t) (identical : Bool)
    (self searched : rb_str_t) (start_offset_in_bytes : Int) :
    (rb_str_t × rb_str_t) × Except ruby_exception_t (Option Int) :=
  if start_offset_in_bytes ≥ self.length_in_bytes then ((self, searched), .ok (some (-1)))
  else if identical && decide (start_offset_in_bytes = 0) then ((self, searched), .ok (some 0))
  else if searched.length_in_bytes = 0 then
    ((self, searched), .ok (some start_offset_in_bytes))
  else
    let checked := str_must_have_compatible_encoding M self searched
    match checked.1 with
    | .error e => ((self, checked.2), .error e)
    | .ok _ =>
      let formatted := str_make_same_format M self checked.2
      let self := formatted.1
      let searched := formatted.2
      if searched.length_in_bytes > self.length_in_bytes then
        ((self, searched), .ok (some (-1)))
      else
        let increment : Int :=
          if str_is_stored_in_uchars self then 2 else self.encoding.min_char_size
        let max_offset_in_bytes := self.length_in_bytes - searched.length_in_bytes + 1
        ((self, searched), .ok (offset_for_string_loop self.data searched.data
          searched.length_in_bytes increment max_offset_in_bytes
          (max_offset_in_bytes - start_offset_in_bytes).toNat start_offset_in_bytes))

/-- The ISO-8859-1 string "abcabc", held as raw bytes. -/
def latin1_abcabc : rb_str_t :=
  raw_string rb_encodings_ISO8859_1 [0x61, 0x62, 0x63, 0x61, 0x62, 0x63]

/-- The ISO-8859-1 string "ca", held as raw bytes. -/
def latin1_ca : rb_str_t := raw_string rb_encodings_ISO8859_1 [0x63, 0x61]

/-- A UTF-8 string stored as the two code units 6161 6161, the bytes
61 61 61 61. -/
def units_6161_6161 : rb_str_t := uchars_string rb_encodings_UTF8 [0x6161, 0x6161]

/-- A UTF-8 string stored as the single code unit 6161, the bytes 61 61. -/
def unit_6161 : rb_str_t := uchars_string rb_encodings_UTF8 [0x6161]

/-- The empty UTF-16BE string. -/
def utf16be_empty : rb_str_t := raw_string rb_encodings_UTF16BE []

/-- The UTF-16BE string "ab" held as its raw bytes 00 61 00 62. -/
def utf16be_ab_raw : rb_str_t := raw_string rb_encodings_UTF16BE [0x00, 0x61, 0x00, 0x62]

/-- The UTF-16BE string "ab" stored as the code units 0061 0062, the bytes
61 00 62 00. -/
def utf16be_ab_uchars : rb_str_t := uchars_string rb_encodings_UTF16BE [0x61, 0x62]

/-! ## Mutating operations -/

/-- The store `self->data.uchars[i] = c`: the two bytes of the unit `c` in host
(little-endian) order at byte offset `2 * i`. -/
def store_uchar (data : List (Fin 256)) (i : Nat) (c : Nat) : List (Fin 256) :=
  read_bytes data 0 (2 * i)
    ++ [⟨c % 256, Nat.mod_lt _ (by decide)⟩, ⟨c / 256 % 256, Nat.mod_lt _ (by decide)⟩]
    ++ data.drop (2 * i + 2)

/-- The function `str_append_uchar`. -/
def str_append_uchar (self : rb_str_t) (c : Nat) : rb_str_t :=
  let uchar_cap := BYTES_TO_UCHARS self.capacity_in_bytes
  let uchar_len := BYTES_TO_UCHARS self.length_in_bytes
  let self :=
    if uchar_len + 1 ≥ uchar_cap then
      { self with capacity_in_bytes := self.capacity_in_bytes + UCHARS_TO_BYTES 10 }
    else self
  { self with data := store_uchar self.data uchar_len.toNat c,
              length_in_bytes := self.length_in_bytes + UCHARS_TO_BYTES 1 }

/-- The function `str_delete`; `none` stands for the `abort()` of the branch
that is not implemented. -/
def str_delete (M : encoding_methods_t) (self : rb_str_t) (pos len : Int) (ucs2_mode : Bool) :
    Option rb_str_t :=
  let self_len := str_length M self ucs2_mode
  if pos + len = self_len then
    if str_is_stored_in_uchars self then
      some { self with length_in_bytes := self.length_in_bytes - UCHARS_TO_BYTES len }
    else
      some { self with length_in_bytes := self.length_in_bytes - len }
  else none

/-- Modelled from the spec: `rstr_modify` is not among the sources.  It is the
check of the calling runtime that the object may be modified (§1 leaves the
object model to the caller); on the string value it does nothing. -/
def rstr_modify (self : rb_str_t) : rb_str_t := self

/-- The function `rstr_clear`, on the string `RSTR(self)`. -/
def rstr_clear (self : rb_str_t) : rb_str_t :=
  { rstr_modify self with length_in_bytes := 0 }

/-- The function `bstr_set_length`, on the string `RSTR(str)`. -/
def bstr_set_length (str : rb_str_t) (len : Int) : rb_str_t :=
  { str with length_in_bytes := len }

/-- The function `rstr_force_encoding`, on the string `RSTR(self)`; `enc` is
the encoding found by `rb_to_encoding`. -/
def rstr_force_encoding (M : encoding_methods_t) (self : rb_str_t) (enc : rb_encoding_t) :
    rb_str_t :=
  let self := rstr_modify self
  if enc ≠ self.encoding then
    let self := str_make_data_binary M self
    let self :=
      if NATIVE_UTF16_ENC self.encoding then str_set_stored_in_uchars self false else self
    let self := { self with encoding := enc }
    let self := str_unset_facultative_flags self
    if NATIVE_UTF16_ENC self.encoding then str_set_stored_in_uchars self true else self
  else self

/-- The three cached flags of `self` agree with a fresh scan: each flag that is
known is what `str_update_flags` computes from the bytes and the encoding. -/
def flags_agree_with_scan (M : encoding_methods_t) (self : rb_str_t) : Prop :=
  (∀ b, self.valid_encoding = some b → (str_update_flags M self).valid_encoding = some b)
  ∧ (∀ b, self.ascii_only = some b → (str_update_flags M self).ascii_only = some b)
  ∧ (∀ b, self.has_supplementary = some b →
      (str_update_flags M self).has_supplementary = some b)

/-- The UTF-8 string "aé" stored as code units, after `str_update_flags`: it
is known to be valid and not ASCII-only. -/
def utf8_a_e_acute_scanned : rb_str_t :=
  str_update_flags unused_encoding_methods utf8_a_e_acute

/-- The UTF-8 string "a" stored as one code unit in a buffer of 8 bytes, after
`str_update_flags`: it is known to be ASCII-only. -/
def utf8_a_scanned : rb_str_t :=
  str_update_flags unused_encoding_methods
    { uchars_string rb_encodings_UTF8 [0x61] with capacity_in_bytes := 8 }

/-- The lone lead surrogate D800 after `str_update_flags`: it is known to be
invalid. -/
def lone_lead_surrogate_scanned : rb_str_t :=
  str_update_flags unused_encoding_methods lone_lead_surrogate

instance (M : encoding_methods_t) (self : rb_str_t) : Decidable (flags_agree_with_scan M self) := by
  unfold flags_agree_with_scan
  infer_instance

/-! ## Buffer invariants -/

/-- The function `str_replace_with_uchars`; the units are given as their bytes
in host order, `chars = none` is the `NULL` pointer. -/
def str_replace_with_uchars (self : rb_str_t) (chars : Option (List (Fin 256))) (len : Int) :
    rb_str_t :=
  let len := UCHARS_TO_BYTES len
  let self := { str_clear_flags self with encoding := rb_encodings_UTF8, capacity_in_bytes := len }
  if len > 0 then
    let self : rb_str_t :=
      match chars with
      | some c => { self with data := memcpy [] 0 c 0 len.toNat, length_in_bytes := len }
      | none => { self with data := [], length_in_bytes := 0 }
    str_set_stored_in_uchars self true
  else
    { self with data := [], length_in_bytes := 0 }

/-- The strings reached from a freshly allocated one by the operations that
set the byte length or the capacity, each called within the precondition that
it asserts: `len >= 0` for the three replacements (`str_replace_with_string`
hands the length of its source to `str_replace_with_bytes`, and so does
`str_concat_string` for an empty receiver), code-unit storage for
`str_append_uchar` (whose store at `uchars[uchar_len]` needs a byte length
that is not negative), `pos >= 0 && len > 0` and the tail case for
`str_delete`.  The other string handed to an operation is any string at
all. -/
inductive str_reachable (M : encoding_methods_t) : rb_str_t → Prop where
  | alloc : str_reachable M str_alloc
  | replace_with_bytes (self : rb_str_t) (bytes : Option (List (Fin 256))) (len : Int)
      (enc : rb_encoding_t) :
      str_reachable M self → 0 ≤ len → str_reachable M (str_replace_with_bytes self bytes len enc)
  | replace_with_uchars (self : rb_str_t) (chars : Option (List (Fin 256))) (len : Int) :
      str_reachable M self → 0 ≤ len → str_reachable M (str_replace_with_uchars self chars len)
  | replace_with_string (self source : rb_str_t) :
      str_reachable M self → 0 ≤ source.length_in_bytes →
      str_reachable M (str_replace_with_string self source)
  | append_uchar (self : rb_str_t) (c : Nat) :
      str_reachable M self → str_is_stored_in_uchars self = true → 0 ≤ self.length_in_bytes →
      str_reachable M (str_append_uchar self c)
  | resize_bytes (self : rb_str_t) (new_capacity : Int) :
      str_reachable M self → str_reachable M (str_resize_bytes self new_capacity)
  | concat_string (self str : rb_str_t) :
      str_reachable M self → 0 ≤ str.length_in_bytes →
      str_reachable M (str_concat_string M self str).1.1
  | delete (self : rb_str_t) (pos len : Int) (ucs2_mode : Bool) (deleted : rb_str_t) :
      str_reachable M self → 0 ≤ pos → 0 < len →
      str_delete M self pos len ucs2_mode = some deleted → str_reachable M deleted
  | new_copy_of_part (self : rb_str_t) (offset_in_bytes length_in_bytes : Int) :
      str_reachable M (str_new_copy_of_part self offset_in_bytes length_in_bytes)

/-- The string "ab" built by `str_replace_with_uchars` on a fresh string (one
unit, "a") followed by `str_append_uchar` (the unit "b"). -/
def built_ab : rb_str_t :=
  str_append_uchar (str_replace_with_uchars str_alloc (some [0x61, 0x00]) 1) 0x62

/-- The UTF-8 string "a" followed by U+1F600, stored as the three code units
0061 D83D DE00, nothing cached: two code points, three code units. -/
def utf8_a_U1F600 : rb_str_t := uchars_string rb_encodings_UTF8 [0x61, 0xD83D, 0xDE00]

/-- The single UTF-16BE byte 61 after `str_try_making_data_uchars`: stored as
code units, one dangling byte and no whole unit. -/
def utf16be_one_byte : rb_str_t :=
  (str_try_making_data_uchars unused_encoding_methods (raw_string rb_encodings_UTF16BE [0x61])).2

/-! ## Byte access -/

/-- The function `rstr_getbyte`, on the string `RSTR(self)`: the string
afterwards and the result.  `idx` is the `long` that `NUM2LONG` reads from the
argument; the result is the byte carried by the Fixnum returned, `none` for
`nil`. -/
def rstr_getbyte (M : encoding_methods_t) (self : rb_str_t) (idx : Int) :
    rb_str_t × Option Nat :=
  if str_is_stored_in_uchars self && NATIVE_UTF16_ENC self.encoding then
    let idx := if idx < 0 then idx + self.length_in_bytes else idx
    if idx < 0 then (self, none)
    else if idx ≥ self.length_in_bytes then (self, none)
    else if NATIVE_UTF16_ENC self.encoding then (self, some (byte_at self.data idx.toNat))
    else if idx % 2 = 0 then (self, some (byte_at self.data (idx + 1).toNat))
    else (self, some (byte_at self.data (idx - 1).toNat))
  else
    let self := str_make_data_binary M self
    let idx := if idx < 0 then idx + self.length_in_bytes else idx
    if idx < 0 then (self, none)
    else if idx ≥ self.length_in_bytes then (self, none)
    else (self, some (byte_at self.data idx.toNat))

/-- Modelled from the spec: `ruby.h`, which declares the type `VALUE`, is not
among the sources.  A `VALUE` is the unsigned 64-bit word (`unsigned long`) in
which the runtime hands over every Ruby object; when a `long` is compared with
one, C converts the `long` to that type, i.e. takes it modulo `2 ^ 64`. -/
def long_to_VALUE (x : Int) : Nat := (x % 2 ^ 64).toNat

/-- The store `self->data.bytes[i] = b`. -/
def store_byte (data : List (Fin 256)) (i : Nat) (b : Nat) : List (Fin 256) :=
  read_bytes data 0 i ++ [⟨b % 256, Nat.mod_lt _ (by decide)⟩] ++ data.drop (i + 1)

/-- The function `rstr_setbyte`, on the string `RSTR(self)`: the string
afterwards, and the exception raised or the value returned.  `index` and
`value` are the two arguments as the function receives them, words of type
`VALUE`: the function compares and uses `index` as it is (lines 1255-1262;
`rstr_getbyte` reads its argument through `NUM2LONG`).  The test `index < 0` of
line 1259 never holds for an unsigned word. -/
def rstr_setbyte (M : encoding_methods_t) (self : rb_str_t) (index value : Nat) :
    rb_str_t × Except ruby_exception_t Nat :=
  let self := rstr_modify self
  let self := str_make_data_binary M self
  if index < long_to_VALUE (-self.length_in_bytes)
      ∨ index ≥ long_to_VALUE self.length_in_bytes then
    (self, .error (.IndexError "index %ld out of string"))
  else
    ({ self with data := store_byte self.data index value }, .ok value)

/-- The ISO-8859-1 string "abc", held as raw bytes. -/
def latin1_abc : rb_str_t := raw_string rb_encodings_ISO8859_1 [0x61, 0x62, 0x63]

/-! ## Bulk decoding -/

/-- The array that `rb_str_get_uchars` hands back through `chars_p`: `NULL`,
the string's own buffer `data.uchars`, or a freshly allocated array of
units. -/
inductive uchars_array_t where
  | null
  | own_buffer
  | allocated (units : List Nat)
deriving DecidableEq, Repr

/-- The conversion of `data.bytes[i]`, a plain `char`, to a `UChar`.  Plain
`char` is signed on the hosts of the runtime (the scan of `str_update_flags`
casts the byte to `uint8_t` before comparing it with 127), so a byte above 127
is sign-extended. -/
def char_to_UChar (b : Nat) : Nat := if b > 127 then b + 0xff00 else b

/-- The function `rb_str_get_uchars`, for an engine string (`IS_RSTR`): the
string afterwards and the values stored through `chars_p`, `chars_len_p` and
`need_free_p`; `none` stands for the assertion of line 964 failing. -/
def rb_str_get_uchars (M : encoding_methods_t) (str : rb_str_t) :
    Option (rb_str_t × uchars_array_t × Int × Bool) :=
  let r := str_try_making_data_uchars M str
  if r.1 then
    some (r.2, .own_buffer, str_length M r.2 false, false)
  else if !BINARY_ENC r.2.encoding then none
  else
    let chars_len := r.2.length_in_bytes
    if chars_len > 0 then
      some (r.2,
        .allocated ((List.range chars_len.toNat).map (fun i => char_to_UChar (byte_at r.2.data i))),
        chars_len, true)
    else
      some (r.2, .null, chars_len, false)

/-- The binary string "ab", held as raw bytes. -/
def binary_ab : rb_str_t := raw_string rb_encodings_BINARY [0x61, 0x62]

/-! ## Searching by index, substrings by index -/

/-- The function `str_index_for_string`, for two distinct objects: `self` and
`searched` afterwards, and the exception raised or the index returned (`none`
when one of the two loops it relies on does not end; the local `start` is
`none` where the function returns -1 before searching). -/
def str_index_for_string (M : encoding_methods_t) (self searched : rb_str_t)
    (start_index : Int) (ucs2_mode : Bool) :
    (rb_str_t × rb_str_t) × Except ruby_exception_t (Option Int) :=
  let checked := str_must_have_compatible_encoding M self searched
  match checked.1 with
  | .error e => ((self, checked.2), .error e)
  | .ok _ =>
    let formatted := str_make_same_format M self checked.2
    let self := formatted.1
    let searched := formatted.2
    let start : Except ruby_exception_t (Option Int) :=
      if start_index = 0 then .ok (some 0)
      else
        let boundaries := str_get_character_boundaries M self start_index ucs2_mode
        if boundaries.start_offset_in_bytes = -1 then
          if boundaries.end_offset_in_bytes = -1 then .ok none
          else .error str_cannot_cut_surrogate
        else .ok (some boundaries.start_offset_in_bytes)
    match start with
    | .error e => ((self, searched), .error e)
    | .ok none => ((self, searched), .ok (some (-1)))
    | .ok (some start_offset_in_bytes) =>
      let found := str_offset_in_bytes_for_string M false self searched start_offset_in_bytes
      match found.2 with
      | .error e => (found.1, .error e)
      | .ok none => (found.1, .ok none)
      | .ok (some offset_in_bytes) =>
        if offset_in_bytes = -1 then (found.1, .ok (some (-1)))
        else (found.1, .ok (str_offset_in_bytes_to_index M found.1.1 offset_in_bytes ucs2_mode))

/-- The function `str_new`: a fresh, empty string. -/
def str_new : rb_str_t := str_alloc

/-- The function `str_substr`: the string `str` afterwards, and the exception
raised or the value returned, `none` for `Qnil`. -/
def str_substr (M : encoding_methods_t) (str : rb_str_t) (beg len : Int) :
    rb_str_t × Except ruby_exception_t (Option rb_str_t) :=
  if len < 0 then (str, .ok none)
  else if len = 0 then (str, .ok (some str_new))
  else
    let n := str_length M str false
    let beg := if beg < 0 then beg + n else beg
    if beg > n ∨ beg < 0 then (str, .ok none)
    else
      let len := if beg + len > n then n - beg else len
      str_get_characters M str beg (beg + len - 1) false

/-- The function `str_trim` ("TODO"): it returns its argument. -/
def str_trim (str : Option rb_str_t) : Option rb_str_t := str

/-- The function `rb_str_chars_len`, on a value that is an engine string or
`Qnil` (`none`).  For a value that is not an engine string the function hands
it to CoreFoundation, which is outside this file: `none`. -/
def rb_str_chars_len (M : encoding_methods_t) (str : Option rb_str_t) : Option Int :=
  match str with
  | some s => some (str_length M s false)
  | none => none

/-- The function `str_get_uchar`: the string afterwards and the unit read;
`none` stands for a failed assertion. -/
def str_get_uchar (M : encoding_methods_t) (self : rb_str_t) (pos : Int) (ucs2_mode : Bool) :
    Option (rb_str_t × Nat) :=
  if ¬ (pos ≥ 0 ∧ pos < str_length M self ucs2_mode) then none
  else
    let r := str_try_making_data_uchars M self
    if r.1 then some (r.2, uchar_at r.2.data pos.toNat)
    else if !BINARY_ENC r.2.encoding then none
    else some (r.2, char_to_UChar (byte_at r.2.data pos.toNat))

/-- The function `rb_str_get_uchar`, for an engine string. -/
def rb_str_get_uchar (M : encoding_methods_t) (str : rb_str_t) (pos : Int) :
    Option (rb_str_t × Nat) :=
  str_get_uchar M str pos false

/-- The function `rb_str_subseq`, for an engine string. -/
def rb_str_subseq (M : encoding_methods_t) (str : rb_str_t) (beg len : Int) :
    rb_str_t × Except ruby_exception_t (Option rb_str_t) :=
  str_substr M str beg len

/-- The function `rb_enc_str_new`, for an encoding that is not `NULL`. -/
def rb_enc_str_new (cstr : Option (List (Fin 256))) (len : Int) (enc : rb_encoding_t) :
    rb_str_t :=
  str_replace_with_bytes str_alloc cstr len enc

/-- The function `rb_str_new`. -/
def rb_str_new (cstr : Option (List (Fin 256))) (len : Int) : rb_str_t :=
  rb_enc_str_new cstr len rb_encodings_UTF8

/-! ## `rstr_split` -/

/-- Modelled from the spec: the regular expression engine (`re.c`) is not
among the sources.  What `rstr_split` reads of a successful
`rb_reg_search(spat, str, beg, false)`: the position returned, the offsets
`results[0].beg` and `results[0].end` of the whole match, and the values of
`rb_reg_nth_match(i, match)` for the groups `i = 1 .. count - 1`. -/
structure regexp_match_t where
  pos : Int
  match_beg : Int
  match_end : Int
  groups : List (Option rb_str_t)

/-- Modelled from the spec: the regular expression engine (`re.c`) is not
among the sources.  A regular expression is the oracle that answers
`rb_reg_search(spat, str, beg, false)`: `none` for a negative result. -/
structure regexp_t where
  search : rb_str_t → Int → Option regexp_match_t

/-- The pattern argument of `rstr_split` once it is not `nil`: a string
(`TYPE(spat) == T_STRING`) or the regular expression that `get_pat` makes of
anything else. -/
inductive split_pattern_t where
  | string (spat : rb_str_t)
  | regexp (spat : regexp_t)

/-- The locals of `rstr_split` that its loops update: the source string (the
primitives may convert its storage), the pattern string, `beg`, `lim` and the
array `result`, whose elements are strings or `nil` (`none`). -/
structure split_state_t where
  str : rb_str_t
  spat_str : rb_str_t
  beg : Int
  lim : Int
  result : List (Option rb_str_t)
deriving DecidableEq, Repr

/-- The loop condition `limit == Qnil || --lim > 1` shared by the three loops
of `rstr_split`: whether the loop goes on, and `lim` afterwards. -/
def split_loop_condition (limit_is_nil : Bool) (lim : Int) : Bool × Int :=
  if limit_is_nil then (true, lim) else (decide (lim - 1 > 1), lim - 1)

/-- The loop of lines 2083-2091 (empty pattern string): one character per
field.  `none` when `fuel` iterations did not leave the loop. -/
def split_chars_loop (M : encoding_methods_t) (len : Int) (limit_is_nil : Bool) :
    Nat → split_state_t → Option (Except ruby_exception_t split_state_t)
  | 0, _ => none
  | fuel + 1, st =>
    let cut := str_substr M st.str st.beg 1
    match cut.2 with
    | .error e => some (.error e)
    | .ok substr =>
      let st := { st with str := cut.1, result := st.result ++ [substr], beg := st.beg + 1 }
      if st.beg ≥ len then some (.ok st)
      else
        let c := split_loop_condition limit_is_nil st.lim
        if c.1 then split_chars_loop M len limit_is_nil fuel { st with lim := c.2 }
        else some (.ok { st with lim := c.2 })

/-- The loop of lines 2095-2107 (pattern string that is not empty).  `none`
when `fuel` iterations did not leave the loop, when a loop of
`str_index_for_string` does not end, or when `rb_str_chars_len` is handed
`nil`. -/
def split_string_loop (M : encoding_methods_t) (awk_split limit_is_nil : Bool) :
    Nat → split_state_t → Option (Except ruby_exception_t split_state_t)
  | 0, _ => none
  | fuel + 1, st =>
    let found := str_index_for_string M st.str st.spat_str st.beg false
    let st := { st with str := found.1.1, spat_str := found.1.2 }
    match found.2 with
    | .error e => some (.error e)
    | .ok none => none
    | .ok (some pos) =>
      if pos = -1 then some (.ok st)
      else
        let cut := str_substr M st.str st.beg (pos - st.beg)
        match cut.2 with
        | .error e => some (.error e)
        | .ok substr =>
          let st := { st with str := cut.1 }
          let pushes : Option Bool :=
            if !awk_split then some true
            else (rb_str_chars_len M (str_trim substr)).map (fun n => decide (n > 0))
          match pushes with
          | none => none
          | some pushes =>
            let st := { st with result := if pushes then st.result ++ [substr] else st.result,
                                beg := pos + 1 }
            let c := split_loop_condition limit_is_nil st.lim
            if c.1 then split_string_loop M awk_split limit_is_nil fuel { st with lim := c.2 }
            else some (.ok { st with lim := c.2 })

/-- The loop of lines 2117-2149 (regular expression), with its locals `start`
and `last_null`; the `continue` of line 2136 goes to the loop condition.
`none` when `fuel` iterations did not leave the loop. -/
def split_regexp_loop (M : encoding_methods_t) (spat : regexp_t) (limit_is_nil : Bool) :
    Nat → split_state_t → Int → Bool → Option (Except ruby_exception_t split_state_t)
  | 0, _, _, _ => none
  | fuel + 1, st, start, last_null =>
    match spat.search st.str st.beg with
    | none => some (.ok st)
    | some m =>
      if st.beg = m.pos ∧ m.match_beg = m.match_end then
        if last_null then
          let cut := str_substr M st.str st.beg 1
          match cut.2 with
          | .error e => some (.error e)
          | .ok substr =>
            let st := { st with str := cut.1, result := st.result ++ [substr] ++ m.groups,
                                beg := start }
            let c := split_loop_condition limit_is_nil st.lim
            if c.1 then split_regexp_loop M spat limit_is_nil fuel { st with lim := c.2 } start false
            else some (.ok { st with lim := c.2 })
        else
          let c := split_loop_condition limit_is_nil st.lim
          if c.1 then
            split_regexp_loop M spat limit_is_nil fuel { st with lim := c.2 } (start + 1) true
          else some (.ok { st with lim := c.2 })
      else
        let cut := str_substr M st.str st.beg (m.pos - st.beg)
        match cut.2 with
        | .error e => some (.error e)
        | .ok substr =>
          let st := { st with str := cut.1, result := st.result ++ [substr] ++ m.groups,
                              beg := m.match_end }
          let c := split_loop_condition limit_is_nil st.lim
          if c.1 then split_regexp_loop M spat limit_is_nil fuel { st with lim := c.2 } start false
          else some (.ok { st with lim := c.2 })

/-- The loop of lines 2164-2172, on the array read from its last element
backwards: trailing elements that are empty strings are popped.  `none` when
`rb_str_chars_len` is handed `nil`. -/
def split_pop_empty (M : encoding_methods_t) :
    List (Option rb_str_t) → Option (List (Option rb_str_t))
  | [] => some []
  | last :: before =>
    match rb_str_chars_len M last with
    | none => none
    | some n => if n = 0 then split_pop_empty M before else some (last :: before)

/-- Lines 2152-2173 of `rstr_split`: the rest of the source is pushed, then,
without a limit, the trailing empty strings are popped. -/
def split_finish (M : encoding_methods_t) (len : Int) (limit_is_nil : Bool)
    (st : split_state_t) : Option (Except ruby_exception_t (List (Option rb_str_t))) :=
  let pushed : Except ruby_exception_t (List (Option rb_str_t)) :=
    if len > 0 ∧ (!limit_is_nil ∨ len > st.beg ∨ st.lim < 0) then
      if len = st.beg then .ok (st.result ++ [some (rb_str_new none 0)])
      else
        match (rb_str_subseq M st.str st.beg (len - st.beg)).2 with
        | .error e => .error e
        | .ok tmp => .ok (st.result ++ [tmp])
    else .ok st.result
  match pushed with
  | .error e => some (.error e)
  | .ok result =>
    if limit_is_nil ∧ st.lim = 0 then
      match split_pop_empty M result.reverse with
      | none => none
      | some popped => some (.ok popped.reverse)
    else some (.ok result)

/-- The function `rstr_split`, on the string `RSTR(str)` and a pattern that is
another object: the exception raised or the array returned.  `spat` and
`limit` are the optional arguments (`none` for an argument that is not given,
and for a pattern given as `nil`), `rb_fs` is the global `$;`.  The result
`[some str]` for the limit 1 is the receiver itself.  `none` stands for
`abort()`, a failed assertion, a value handed to CoreFoundation, or a loop
that does not end within the iterations it is given: one more than there are
characters for the string loops, twice that and two more for the regular
expression loop. -/
def rstr_split (M : encoding_methods_t) (rb_fs : Option split_pattern_t) (str : rb_str_t)
    (spat : Option split_pattern_t) (limit : Option Int) :
    Option (Except ruby_exception_t (List (Option rb_str_t))) :=
  let len := str_length M str false
  let lim : Int := limit.getD 0
  let limit_is_nil : Bool := decide (lim ≤ 0)
  if lim = 1 then
    if len = 0 then some (.ok []) else some (.ok [some str])
  else
    let spat := if spat.isNone then rb_fs else spat
    let looped : Option (Except ruby_exception_t split_state_t) :=
      match spat with
      | none => none
      | some (.string spat) =>
        let spat_len := str_length M spat false
        let awk : Option (rb_str_t × Bool) :=
          if spat_len = 1 then
            (rb_str_get_uchar M spat 0).map (fun r => (r.1, decide (r.2 = 0x20)))
          else some (spat, false)
        match awk with
        | none => none
        | some (spat_str, awk_split) =>
          let st : split_state_t :=
            { str := str, spat_str := spat_str, beg := 0, lim := lim, result := [] }
          if spat_len = 0 then split_chars_loop M len limit_is_nil (len.toNat + 1) st
          else split_string_loop M awk_split limit_is_nil (len.toNat + 1) st
      | some (.regexp spat) =>
        let st : split_state_t :=
          { str := str, spat_str := str_new, beg := 0, lim := lim, result := [] }
        split_regexp_loop M spat limit_is_nil (2 * len.toNat + 4) st 0 false
    match looped with
    | none => none
    | some (.error e) => some (.error e)
    | some (.ok st) => split_finish M len limit_is_nil st

/-- The binary string of the bytes `bytes`, held as raw bytes. -/
def binary_string (bytes : List (Fin 256)) : rb_str_t := raw_string rb_encodings_BINARY bytes

/-- The bytes of the strings of an array returned by `rstr_split`; `none` for
an element that is `nil`. -/
def fields_bytes (ary : Option (Except ruby_exception_t (List (Option rb_str_t)))) :
    Option (Except ruby_exception_t (List (Option (List (Fin 256))))) :=
  ary.map (fun r => r.map (fun fields => fields.map (fun f => f.map str_bytes)))

/-! ## Strings and patterns for the examples of `rstr_split` -/

/-- The binary string "1,2,,3,4,,". -/
def binary_csv : rb_str_t :=
  binary_string [0x31, 0x2C, 0x32, 0x2C, 0x2C, 0x33, 0x2C, 0x34, 0x2C, 0x2C]

/-- The binary string ",". -/
def binary_comma : rb_str_t := binary_string [0x2C]

/-- The string "1,2,,3,4,," as `str_replace_with_uchars` leaves it: UTF-8,
stored as ten code units, nothing cached. -/
def utf8_csv : rb_str_t :=
  uchars_string rb_encodings_UTF8 [0x31, 0x2C, 0x32, 0x2C, 0x2C, 0x33, 0x2C, 0x34, 0x2C, 0x2C]

/-- The string "," stored as one code unit, nothing cached. -/
def utf8_comma : rb_str_t := uchars_string rb_encodings_UTF8 [0x2C]

/-- The string of U+10000, "," and "a", stored as the four code units
D800 DC00 002C 0061, after `str_update_flags`: three characters, known to hold
a supplementary pair. -/
def utf8_U10000_comma_a : rb_str_t :=
  str_update_flags unused_encoding_methods
    (uchars_string rb_encodings_UTF8 [0xD800, 0xDC00, 0x2C, 0x61])

/-- The binary string "mellow yellow". -/
def binary_mellow_yellow : rb_str_t :=
  binary_string [0x6D, 0x65, 0x6C, 0x6C, 0x6F, 0x77, 0x20, 0x79, 0x65, 0x6C, 0x6C, 0x6F, 0x77]

/-- The binary string "ello". -/
def binary_ello : rb_str_t := binary_string [0x65, 0x6C, 0x6C, 0x6F]

/-- The binary string " now's  the time". -/
def binary_now_s_the_time : rb_str_t :=
  binary_string [0x20, 0x6E, 0x6F, 0x77, 0x27, 0x73, 0x20, 0x20, 0x74, 0x68, 0x65, 0x20,
    0x74, 0x69, 0x6D, 0x65]

/-- The binary string " ", the pattern of the whitespace ("awk") mode. -/
def binary_space : rb_str_t := binary_string [0x20]

/-- The binary string of "a", a tab, "b", a newline, "c". -/
def binary_a_tab_b_newline_c : rb_str_t := binary_string [0x61, 0x09, 0x62, 0x0A, 0x63]

/-- The binary string "hello". -/
def binary_hello : rb_str_t := binary_string [0x68, 0x65, 0x6C, 0x6C, 0x6F]

/-- The binary string that is empty. -/
def binary_empty : rb_str_t := binary_string []

/-- Modelled from the spec: the regular expression engine (`re.c`) is not
among the sources.  The pattern `//`, which "matches the empty string at every
position": asked to search from `beg`, it answers with the empty match at
`beg`, for every `beg` from 0 to the number of characters of the source. -/
def empty_regexp (M : encoding_methods_t) : regexp_t :=
  { search := fun str beg =>
      if 0 ≤ beg ∧ beg ≤ str_length M str false then
        some { pos := beg, match_beg := beg, match_end := beg, groups := [] }
      else none }

/-- A field as `rstr_split` cuts it from a binary string: a string held as raw
bytes in a single-byte encoding, with a byte length that is not negative. -/
def plain_field (f : Option rb_str_t) : Prop :=
  ∃ g, f = some g ∧ g.stored_in_uchars = false ∧ g.encoding.single_byte_encoding = true
    ∧ 0 ≤ g.length_in_bytes

/-! ## Further strings for the examples -/

/-- A UTF-8 string stored as the two code units D800 DC00, the surrogate pair
of U+10000, nothing cached. -/
def pair_of_U10000 : rb_str_t := uchars_string rb_encodings_UTF8 [0xD800, 0xDC00]

/-- The three UTF-16BE bytes 00 61 62 held as raw bytes: "a" and one dangling
byte. -/
def utf16be_odd_raw : rb_str_t := raw_string rb_encodings_UTF16BE [0x00, 0x61, 0x62]

/-- Modelled from the spec: the table `rb_encodings` is not among the sources.
The entry for UTF-16LE, the UTF-16 encoding whose byte order is that of the
(little-endian) host. -/
def rb_encodings_UTF16LE : rb_encoding_t :=
  { public_name := "UTF-16LE", min_char_size := 2, single_byte_encoding := false,
    ascii_compatible := false, family := .utf16_native }

/-- The UTF-16LE string "a" followed by U+1F600, stored as the three code
units 0061 D83D DE00: the supplementary pair is at code-unit index 1. -/
def utf16le_a_U1F600 : rb_str_t := uchars_string rb_encodings_UTF16LE [0x61, 0xD83D, 0xDE00]

/-! ## The units read by the walk of `str_offset_in_bytes_to_index` -/

/-- The loop of `str_offset_in_bytes_to_index` (lines 820-835) with the list of
the indices of the units of `self->data.uchars` that it reads: `uchars[i]` at
every iteration, and `uchars[i+1]` when `uchars[i]` is a lead and
`i + 1 < length` (the operands of `&&` are evaluated from the left, as far as
needed). -/
def offset_to_index_loop_traced (data : List (Fin 256)) (length offset_in_bytes : Int) :
    Nat → Int → Nat → Option Int × List Nat
  | 0, _, _ => (none, [])
  | fuel + 1, index, i =>
    let reads :=
      if U16_IS_LEAD (uchar_at data i) && decide ((i : Int) + 1 < length) then [i, i + 1]
      else [i]
    let i :=
      if U16_IS_LEAD (uchar_at data i) && decide ((i : Int) + 1 < length)
          && U16_IS_TRAIL (uchar_at data (i + 1)) then i + 2
      else i + 1
    if offset_in_bytes < (i : Int) then (some index, reads)
    else if offset_in_bytes = (i : Int) then (some (index + 1), reads)
    else
      let rest := offset_to_index_loop_traced data length offset_in_bytes fuel (index + 1) i
      (rest.1, reads ++ rest.2)

/-! ## `rstr_chomp` -/

/-- The function `rb_str_new3`, for an engine string. -/
def rb_str_new3 (source : rb_str_t) : rb_str_t :=
  str_replace_with_string str_alloc source

/-- The end of `rstr_chomp_bang` (lines 2305-2309): the string afterwards, and
whether `str` (`true`) or `Qnil` is returned; `none` when `str_delete` aborts. -/
def chomp_bang_delete (M : encoding_methods_t) (str : rb_str_t) (len to_del : Int) :
    Option (Except ruby_exception_t (rb_str_t × Bool)) :=
  if to_del = 0 then some (.ok (str, false))
  else (str_delete M str (len - to_del) to_del false).map (fun s => .ok (s, true))

/-- The function `rstr_chomp_bang`, on the string `RSTR(str)`.  `rs` is the
separator after `rb_scan_args` and the default `rb_rs` (the global `$/`, which
is not among the sources): an engine string or `Qnil` (`none`);
`rs_is_default` is the test `rs == rb_default_rs`, an identity of objects.
The result is the string afterwards and whether `str` (`true`) or `Qnil` is
returned, or the exception raised; `none` stands for a failed assertion, an
`abort()` or a loop that does not end. -/
def rstr_chomp_bang (M : encoding_methods_t) (str : rb_str_t) (rs : Option rb_str_t)
    (rs_is_default : Bool) : Option (Except ruby_exception_t (rb_str_t × Bool)) :=
  let str := rstr_modify str
  match rs with
  | none => some (.ok (str, false))
  | some rs =>
    let len := str_length M str false
    if len = 0 then some (.ok (str, false))
    else
      match rb_str_chars_len M (some rs) with
      | none => none
      | some rslen =>
        let newline_branch : Option (rb_str_t × Bool) :=
          if rs_is_default || decide (rslen = 0) then some (rs, true)
          else if rslen = 1 then
            (rb_str_get_uchar M rs 0).map (fun r => (r.1, r.2 == 0x0A))
          else some (rs, false)
        match newline_branch with
        | none => none
        | some (_, true) =>
          match str_get_uchar M str (len - 1) false with
          | none => none
          | some (str, c) =>
            let after_newline : Option (rb_str_t × Nat × Int) :=
              if c = 0x0A then
                (str_get_uchar M str (len - 2) false).map (fun r => (r.1, r.2, 1))
              else some (str, c, 0)
            match after_newline with
            | none => none
            | some (str, c, to_del) =>
              let to_del := if c = 0x0D ∧ (rslen > 0 ∨ to_del ≠ 0) then to_del + 1 else to_del
              chomp_bang_delete M str len to_del
        | some (rs, false) =>
          if rslen ≤ len then
            let found := str_index_for_string M str rs (len - rslen) false
            match found.2 with
            | .error e => some (.error e)
            | .ok none => none
            | .ok (some index) =>
              chomp_bang_delete M found.1.1 len (if index ≥ 0 then rslen else 0)
          else chomp_bang_delete M str len 0

/-- The function `rstr_chomp`: the copy made by `rb_str_new3`, after
`rstr_chomp_bang`. -/
def rstr_chomp (M : encoding_methods_t) (str : rb_str_t) (rs : Option rb_str_t)
    (rs_is_default : Bool) : Option (Except ruby_exception_t rb_str_t) :=
  (rstr_chomp_bang M (rb_str_new3 str) rs rs_is_default).map (fun r => r.map (fun p => p.1))

/-- The bytes of the string returned by `rstr_chomp`. -/
def chomp_bytes (r : Option (Except ruby_exception_t rb_str_t)) :
    Option (Except ruby_exception_t (List (Fin 256))) :=
  r.map (fun e => e.map str_bytes)

/-- The binary string "\n", the default record separator of the examples. -/
def binary_newline : rb_str_t := binary_string [0x0A]

/-- The binary string "llo". -/
def binary_llo : rb_str_t := binary_string [0x6C, 0x6C, 0x6F]

/-- The UTF-8 string of U+1F600 followed by "\n", stored as the three code
units D83D DE00 000A, nothing cached. -/
def utf8_U1F600_newline : rb_str_t := uchars_string rb_encodings_UTF8 [0xD83D, 0xDE00, 0x0A]

/-! ## `rstr_aref` -/

/-- The function `str_dup`. -/
def str_dup (source : rb_str_t) : rb_str_t :=
  str_replace_with_string str_alloc source

/-- The function `str_include_string`: `self` and `searched` afterwards, and
the exception raised or the result; `none` when the loop of
`str_offset_in_bytes_for_string` does not end.  `identical` says that the two
arguments are the same object. -/
def str_include_string (M : encoding_methods_t) (identical : Bool) (self searched : rb_str_t) :
    (rb_str_t × rb_str_t) × Except ruby_exception_t (Option Bool) :=
  let found := str_offset_in_bytes_for_string M identical self searched 0
  (found.1, found.2.map (fun r => r.map (fun offset => decide (offset ≠ -1))))

/-- The arguments of `rstr_aref` (`argc` is 1 or 2; any other count raises an
`ArgumentError`), by the branch that they select: two numbers; a regular
expression, with a group number that is 0 when there is one argument; one
number (`T_FIXNUM`, or the `default` case with a value that is not a range);
an engine string, with whether it is the receiver itself; a range, as
`rb_range_values` reads it.  Modelled from the spec: the regular expression
engine (`re.c`) is not among the sources; `subpat` is the value of
`rb_str_subpat(str, re, nth)`. -/
inductive aref_arguments_t where
  | index_and_length (beg len : Int)
  | regexp (subpat : rb_str_t → Int → Option rb_str_t) (nth : Int)
  | number (indx : Int)
  | string (searched : rb_str_t) (identical : Bool)
  | range (rb_start rb_end : Int) (exclude_end : Bool)

/-- The function `rstr_aref`, on the string `RSTR(str)`: the exception raised
or the value returned, `none` for `Qnil`; the outer `none` when a loop does not
end. -/
def rstr_aref (M : encoding_methods_t) (str : rb_str_t) (args : aref_arguments_t) :
    Option (Except ruby_exception_t (Option rb_str_t)) :=
  match args with
  | .index_and_length beg len => some (str_substr M str beg len).2
  | .regexp subpat nth => some (.ok (subpat str nth))
  | .number indx =>
    match (str_substr M str indx 1).2 with
    | .error e => some (.error e)
    | .ok none => some (.ok none)
    | .ok (some substr) =>
      if str_length M substr true = 0 then some (.ok none) else some (.ok (some substr))
  | .string searched identical =>
    let included := str_include_string M identical str searched
    match included.2 with
    | .error e => some (.error e)
    | .ok none => none
    | .ok (some true) => some (.ok (some (str_dup included.1.2)))
    | .ok (some false) => some (.ok none)
  | .range rb_start rb_end exclude_end =>
    let start := rb_start
    let end_ := if exclude_end then rb_end - 1 else rb_end
    some (str_substr M str start (end_ - start + 1)).2

/-- The bytes of the string returned by `rstr_aref`; `none` for `nil`. -/
def aref_bytes (r : Option (Except ruby_exception_t (Option rb_str_t))) :
    Option (Except ruby_exception_t (Option (List (Fin 256)))) :=
  r.map (fun e => e.map (fun s => s.map str_bytes))

/-- The binary string "hello there". -/
def binary_hello_there : rb_str_t :=
  binary_string [0x68, 0x65, 0x6C, 0x6C, 0x6F, 0x20, 0x74, 0x68, 0x65, 0x72, 0x65]

/-- The binary string "lo". -/
def binary_lo : rb_str_t := binary_string [0x6C, 0x6F]

/-- The binary string "bye". -/
def binary_bye : rb_str_t := binary_string [0x62, 0x79, 0x65]

/-! ## Code points as groups of code units -/

/-- The code points of a sequence of code units, in the words of the
specification: each lead surrogate immediately followed by a trail surrogate is
grouped into one code point, and every other unit is a code point of its own.
For each code point, the positions (counted in units) at which it starts and
ends, `pos` being the position of the first unit of the sequence. -/
def code_point_ranges : List Nat → Nat → List (Nat × Nat)
  | [], _ => []
  | [_], pos => [(pos, pos + 1)]
  | u :: v :: rest, pos =>
    if U16_IS_LEAD u && U16_IS_TRAIL v then (pos, pos + 2) :: code_point_ranges rest (pos + 2)
    else (pos, pos + 1) :: code_point_ranges (v :: rest) (pos + 1)

/-- The `length` code units of the buffer `data` from the unit `pos` on. -/
def uchars_from (data : List (Fin 256)) (pos length : Nat) : List Nat :=
  (List.range' pos length).map (uchar_at data)

/-- The whole code units of a string stored as code units. -/
def str_uchars (self : rb_str_t) : List Nat :=
  uchars_from self.data 0 (BYTES_TO_UCHARS self.length_in_bytes).toNat

/-- The string "a" that `str_delete` leaves of "aé" with its flags cached: the
first two bytes, still cached as not ASCII-only. -/
def utf8_a_after_delete : rb_str_t := { utf8_a_e_acute_scanned with length_in_bytes := 2 }

/-! ## `str_get_characters` with the arithmetic of `long` -/

/-- A result of the arithmetic of `long`, a signed 64-bit integer: the value
modulo `2 ^ 64` in the range from `-2 ^ 63` to `2 ^ 63 - 1`. -/
def long_wrap (x : Int) : Int := (x + 2 ^ 63) % 2 ^ 64 - 2 ^ 63

/-- The function `str_get_character_boundaries` with the arithmetic on `index`
done in `long`: every sum and product that the function computes from `index`
is taken modulo `2 ^ 64` (the surrogate walk computes none: it compares
`index` and counts).  Far inside the range of `long` it is
`str_get_character_boundaries`. -/
def str_get_character_boundaries_long (M : encoding_methods_t) (self : rb_str_t) (index : Int)
    (ucs2_mode : Bool) : character_boundaries_t :=
  let boundaries : character_boundaries_t := ⟨-1, -1⟩
  if str_is_stored_in_uchars self then
    if ucs2_mode || str_known_not_to_have_any_supplementary self then
      let index :=
        if index < 0 then long_wrap (index + div_round_up self.length_in_bytes 2) else index
      if index < 0 then boundaries
      else
        let start_offset_in_bytes := long_wrap (UCHARS_TO_BYTES index)
        let end_offset_in_bytes := long_wrap (start_offset_in_bytes + 2)
        if !UTF16_ENC self.encoding then
          let length := BYTES_TO_UCHARS self.length_in_bytes
          if decide (index < length) && U16_IS_SURROGATE (uchar_at self.data index.toNat) then
            if U16_IS_SURROGATE_LEAD (uchar_at self.data index.toNat) then
              ⟨start_offset_in_bytes, -1⟩
            else
              ⟨-1, end_offset_in_bytes⟩
          else ⟨start_offset_in_bytes, end_offset_in_bytes⟩
        else ⟨start_offset_in_bytes, end_offset_in_bytes⟩
    else
      let uchars_count := BYTES_TO_UCHARS self.length_in_bytes
      if index < -uchars_count ∨ index ≥ uchars_count then boundaries
      else
        let located : Option Nat :=
          if index < 0 then
            let r := count_from_the_end self.data uchars_count.toNat (-index).toNat
            if r.2 ≠ 0 then none else some r.1
          else
            let offset := U16_FWD_N self.data uchars_count.toNat 0 index.toNat
            if (offset : Int) ≥ uchars_count then none else some offset
        match located with
        | none => boundaries
        | some offset =>
          let length_in_bytes :=
            if U16_IS_LEAD (uchar_at self.data offset) && decide ((offset : Int) < uchars_count - 1)
                && U16_IS_TRAIL (uchar_at self.data (offset + 1)) then UCHARS_TO_BYTES 2
            else UCHARS_TO_BYTES 1
          ⟨UCHARS_TO_BYTES offset, UCHARS_TO_BYTES offset + length_in_bytes⟩
  else
    if self.encoding.single_byte_encoding then
      let index := if index < 0 then long_wrap (index + self.length_in_bytes) else index
      if index < 0 then boundaries else ⟨index, long_wrap (index + 1)⟩
    else if UTF32_ENC self.encoding
        && (!ucs2_mode || str_known_not_to_have_any_supplementary self) then
      let index :=
        if index < 0 then long_wrap (index + div_round_up self.length_in_bytes 4) else index
      if index < 0 then boundaries
      else ⟨long_wrap (index * 4), long_wrap (long_wrap (index * 4) + 4)⟩
    else if NON_NATIVE_UTF16_ENC self.encoding
        && (ucs2_mode || str_known_not_to_have_any_supplementary self) then
      let index :=
        if index < 0 then long_wrap (index + div_round_up self.length_in_bytes 2) else index
      if index < 0 then boundaries
      else ⟨long_wrap (UCHARS_TO_BYTES index), long_wrap (long_wrap (UCHARS_TO_BYTES index) + 2)⟩
    else
      M.get_character_boundaries self index ucs2_mode

/-- The call of `str_new_copy_of_part` at the end of `str_get_characters`
(line 680), with the arithmetic of `long`: the string copied from (`self`
after the conversion of line 649) and the arguments `offset_in_bytes` and
`length_in_bytes`; `none` when the function returns or raises before that
line. -/
def str_get_characters_copy_call (M : encoding_methods_t) (self : rb_str_t) (first last : Int)
    (ucs2_mode : Bool) : Option (rb_str_t × Int × Int) :=
  if self.length_in_bytes = 0 then none
  else
    let self :=
      if !self.encoding.single_byte_encoding && !str_is_stored_in_uchars self then
        (str_try_making_data_uchars M self).2
      else self
    let first_boundaries := str_get_character_boundaries_long M self first ucs2_mode
    let last_boundaries := str_get_character_boundaries_long M self last ucs2_mode
    if first_boundaries.start_offset_in_bytes = -1 then none
    else if last_boundaries.end_offset_in_bytes = -1 then none
    else if first_boundaries.start_offset_in_bytes = self.length_in_bytes then none
    else if first_boundaries.start_offset_in_bytes > self.length_in_bytes then none
    else
      let end_offset_in_bytes :=
        if last_boundaries.end_offset_in_bytes ≥ self.length_in_bytes then
          self.length_in_bytes
        else last_boundaries.end_offset_in_bytes
      some (self, first_boundaries.start_offset_in_bytes,
        long_wrap (end_offset_in_bytes - first_boundaries.start_offset_in_bytes))

/-- The copied range of the claim is well formed: `0 <= offset`,
`0 <= length` and `offset + length <= length_in_bytes` of the source; it is
then that `str_new_copy_of_part` allocates `length` bytes and copies them from
inside the buffer of the source. -/
def copied_range_well_formed (self : rb_str_t) (offset_in_bytes length_in_bytes : Int) : Bool :=
  decide (0 ≤ offset_in_bytes) && decide (0 ≤ length_in_bytes)
    && decide (offset_in_bytes + length_in_bytes ≤ self.length_in_bytes)

/-- The largest value of a `long`. -/
def LONG_MAX : Int := 2 ^ 63 - 1

/-! # Properties -/

/-! ## Arithmetic reading of the ICU bit tests -/

theorem land_div_two_pow (a b k : Nat) :
    (a &&& b) / 2 ^ k = (a / 2 ^ k) &&& (b / 2 ^ k) := by
  induction k with
  | zero => simp
  | succ n ih =>
    rw [pow_succ, ← Nat.div_div_eq_div_mul, ← Nat.div_div_eq_div_mul,
      ← Nat.div_div_eq_div_mul, ih, Nat.and_div_two]

theorem land_high_mask (d m k j : Nat) (hm0 : m % 2 ^ k = 0) (hm1 : m / 2 ^ k = 2 ^ j - 1)
    (hd : d / 2 ^ k < 2 ^ j) : d &&& m = 2 ^ k * (d / 2 ^ k) := by
  have h1 : (d &&& m) / 2 ^ k = d / 2 ^ k := by
    rw [land_div_two_pow, hm1, Nat.and_pow_two_sub_one_of_lt_two_pow hd]
  have h2 : (d &&& m) % 2 ^ k = 0 := by
    rw [← Nat.and_pow_two_sub_one_eq_mod, Nat.and_assoc, Nat.and_pow_two_sub_one_eq_mod, hm0]
    simp
  have h3 := Nat.div_add_mod (d &&& m) (2 ^ k)
  rw [h1, h2] at h3
  omega

theorem U16_IS_SURROGATE_eq (c : Nat) (h : c < 2 ^ 32) :
    U16_IS_SURROGATE c = decide (0xd800 ≤ c ∧ c ≤ 0xdfff) := by
  unfold U16_IS_SURROGATE
  rw [land_high_mask c 0xfffff800 11 21 (by norm_num) (by norm_num)
    (by norm_num at h ⊢; omega)]
  rw [Bool.eq_iff_iff]
  simp
  omega

theorem U16_IS_LEAD_eq (c : Nat) (h : c < 2 ^ 32) :
    U16_IS_LEAD c = decide (0xd800 ≤ c ∧ c ≤ 0xdbff) := by
  unfold U16_IS_LEAD
  rw [land_high_mask c 0xfffffc00 10 22 (by norm_num) (by norm_num)
    (by norm_num at h ⊢; omega)]
  rw [Bool.eq_iff_iff]
  simp
  omega

theorem U16_IS_TRAIL_eq (c : Nat) (h : c < 2 ^ 32) :
    U16_IS_TRAIL c = decide (0xdc00 ≤ c ∧ c ≤ 0xdfff) := by
  unfold U16_IS_TRAIL
  rw [land_high_mask c 0xfffffc00 10 22 (by norm_num) (by norm_num)
    (by norm_num at h ⊢; omega)]
  rw [Bool.eq_iff_iff]
  simp
  omega

theorem U16_IS_SURROGATE_LEAD_eq (c : Nat) (h : 0xd800 ≤ c ∧ c ≤ 0xdfff) :
    U16_IS_SURROGATE_LEAD c = decide (c ≤ 0xdbff) := by
  unfold U16_IS_SURROGATE_LEAD
  have e : (0x400 : Nat) = 2 ^ 10 := by norm_num
  rw [e, Nat.and_two_pow, Nat.testBit_to_div_mod, Bool.eq_iff_iff]
  by_cases hb : c / 2 ^ 10 % 2 = 1
  · simp [hb]; omega
  · simp [hb]; omega

theorem land_fffe (c : Nat) (h : c < 2 ^ 32) : c &&& 0xfffe = 2 * (c % 65536 / 2) := by
  have e : (0xfffe : Nat) = 0xfffffffe &&& (2 ^ 16 - 1) := by decide
  rw [e, ← Nat.and_assoc, Nat.and_pow_two_sub_one_eq_mod]
  have h1 := land_high_mask c 0xfffffffe 1 31 (by norm_num) (by norm_num)
    (by norm_num at h ⊢; omega)
  rw [h1]
  norm_num
  omega

/-! ## Concatenation of incompatible strings -/

theorem str_update_flags_utf16_frame (self : rb_str_t) :
    (str_update_flags_utf16 self).data = self.data
    ∧ (str_update_flags_utf16 self).length_in_bytes = self.length_in_bytes
    ∧ (str_update_flags_utf16 self).capacity_in_bytes = self.capacity_in_bytes
    ∧ (str_update_flags_utf16 self).stored_in_uchars = self.stored_in_uchars
    ∧ (str_update_flags_utf16 self).encoding = self.encoding := by
  unfold str_update_flags_utf16
  simp only [str_set_ascii_only, str_set_valid_encoding, str_set_has_supplementary]
  split_ifs <;> simp

theorem str_update_flags_frame (M : encoding_methods_t) (self : rb_str_t) :
    (str_update_flags M self).data = self.data
    ∧ (str_update_flags M self).length_in_bytes = self.length_in_bytes
    ∧ (str_update_flags M self).capacity_in_bytes = self.capacity_in_bytes
    ∧ (str_update_flags M self).stored_in_uchars = self.stored_in_uchars
    ∧ (str_update_flags M self).encoding = self.encoding := by
  unfold str_update_flags
  split_ifs
  · simp [str_set_ascii_only, str_set_valid_encoding, str_set_has_supplementary]
  · simp [str_set_ascii_only, str_set_valid_encoding, str_set_has_supplementary]
  · exact str_update_flags_utf16_frame self
  · simp [str_set_ascii_only, str_set_valid_encoding, str_set_has_supplementary]

theorem str_is_ascii_only_snd (M : encoding_methods_t) (self : rb_str_t) :
    (self.ascii_only ≠ none → (str_is_ascii_only M self).2 = self)
    ∧ ((str_is_ascii_only M self).2 = self
        ∨ (str_is_ascii_only M self).2 = str_update_flags M self) := by
  unfold str_is_ascii_only
  cases h : self.ascii_only <;> simp

theorem str_compatible_encoding_snd (M : encoding_methods_t) (str1 str2 : rb_str_t) :
    (str2.ascii_only ≠ none → (str_compatible_encoding M str1 str2).2 = str2)
    ∧ ((str_compatible_encoding M str1 str2).2 = str2
        ∨ (str_compatible_encoding M str1 str2).2 = str_update_flags M str2) := by
  have h := str_is_ascii_only_snd M str2
  unfold str_compatible_encoding str_is_ruby_ascii_only
  simp only []
  split_ifs <;> first | exact h | simp

/-- The string `str2` after `str_compatible_encoding(str1, str2)` has returned
`NULL`: the ASCII-only query (line 182) is reached only when both encodings are
ASCII-compatible, and it fills the flag cache only when the ASCII-only flag is
not cached. -/
theorem str_compatible_encoding_snd_of_none (M : encoding_methods_t) (str1 str2 : rb_str_t)
    (h : (str_compatible_encoding M str1 str2).1 = none) :
    (str_compatible_encoding M str1 str2).2
      = if str1.encoding.ascii_compatible = true ∧ str2.encoding.ascii_compatible = true
            ∧ str2.ascii_only = none then
          str_update_flags M str2
        else str2 := by
  unfold str_compatible_encoding at h ⊢
  by_cases e1 : str1.encoding = str2.encoding
  · rw [if_pos e1] at h; exact absurd h (by simp)
  rw [if_neg e1] at h ⊢
  by_cases e2 : str2.length_in_bytes = 0
  · rw [if_pos e2] at h; exact absurd h (by simp)
  rw [if_neg e2] at h ⊢
  by_cases e3 : str1.length_in_bytes = 0
  · rw [if_pos e3] at h; exact absurd h (by simp)
  rw [if_neg e3] at h ⊢
  cases h1 : str1.encoding.ascii_compatible
  · simp [h1]
  cases h2 : str2.encoding.ascii_compatible
  · simp [h2]
  cases h3 : str2.ascii_only with
  | none =>
    simp only [str_is_ruby_ascii_only, str_is_ascii_only, h1, h2, h3, Bool.not_true,
      Bool.or_self, Bool.false_eq_true, if_false, and_self, if_true]
    split_ifs <;> rfl
  | some b =>
    simp only [str_is_ruby_ascii_only, str_is_ascii_only, h1, h2, h3, Bool.not_true,
      Bool.or_self, Bool.false_eq_true, if_false, and_false, reduceCtorEq]
    split_ifs <;> rfl

/-- C2 (as amended): for two non-empty strings, `str_concat_string(self, other)`
raises exactly when `str_compatible_encoding(self, other)` is none, and the
exception names both encodings.  When it raises, `self` is exactly as it was and
`other` keeps its bytes, length, capacity, storage format and encoding; `other`
is what `str_update_flags` makes of it when both encodings are
ASCII-compatible and its ASCII-only flag was not cached, and exactly as it was
in every other case. -/
theorem str_concat_string_raises_iff (M : encoding_methods_t) (self other : rb_str_t)
    (hs : self.length_in_bytes ≠ 0) (ho : other.length_in_bytes ≠ 0) :
    ((∃ e, (str_concat_string M self other).2 = .error e)
        ↔ (str_compatible_encoding M self other).1 = none)
    ∧ (∀ e, (str_concat_string M self other).2 = .error e →
        e = .EncCompatError self.encoding.public_name other.encoding.public_name
        ∧ (str_concat_string M self other).1.1 = self
        ∧ (str_concat_string M self other).1.2.data = other.data
        ∧ (str_concat_string M self other).1.2.length_in_bytes = other.length_in_bytes
        ∧ (str_concat_string M self other).1.2.capacity_in_bytes = other.capacity_in_bytes
        ∧ (str_concat_string M self other).1.2.stored_in_uchars = other.stored_in_uchars
        ∧ (str_concat_string M self other).1.2.encoding = other.encoding
        ∧ (str_concat_string M self other).1.2
            = if self.encoding.ascii_compatible = true ∧ other.encoding.ascii_compatible = true
                  ∧ other.ascii_only = none then
                str_update_flags M other
              else other) := by
  have hsnd := str_compatible_encoding_snd M self other
  have hfr := str_update_flags_frame M other
  have hfield : (str_compatible_encoding M self other).2.data = other.data
      ∧ (str_compatible_encoding M self other).2.length_in_bytes = other.length_in_bytes
      ∧ (str_compatible_encoding M self other).2.capacity_in_bytes = other.capacity_in_bytes
      ∧ (str_compatible_encoding M self other).2.stored_in_uchars = other.stored_in_uchars
      ∧ (str_compatible_encoding M self other).2.encoding = other.encoding := by
    rcases hsnd.2 with h | h
    · rw [h]; simp
    · rw [h]; exact hfr
  have hnone := str_compatible_encoding_snd_of_none M self other
  unfold str_concat_string str_must_have_compatible_encoding
  simp only [hs, ho, if_false]
  cases hc : (str_compatible_encoding M self other).1 with
  | none =>
    refine ⟨by simp, ?_⟩
    intro e he
    simp only [Except.error.injEq] at he
    exact ⟨he.symm, rfl, hfield.1, hfield.2.1, hfield.2.2.1, hfield.2.2.2.1,
      hfield.2.2.2.2, hnone hc⟩
  | some enc =>
    simp

/-- C2 (counterexample): concatenating the UTF-8 string "é", whose flags are
not yet cached, onto the ISO-8859-1 string "A" raises, and the ASCII-only
query made on the way has filled the flag cache of "é": the operand is not
left exactly as it was.  Concatenating "A" onto "ab" in UTF-16BE, an encoding
that is not ASCII-compatible, raises before that query: "A" is left as it
was. -/
theorem str_concat_string_raise_fills_flag_cache :
    (str_concat_string unused_encoding_methods latin1_A utf8_e_acute).2
        = .error (.EncCompatError "ISO-8859-1" "UTF-8")
    ∧ utf8_e_acute.ascii_only = none
    ∧ (str_concat_string unused_encoding_methods latin1_A utf8_e_acute).1.2.ascii_only
        = some false
    ∧ (str_concat_string unused_encoding_methods latin1_A utf8_e_acute).1.2
        ≠ utf8_e_acute
    ∧ (str_concat_string unused_encoding_methods utf16be_ab_raw latin1_A).2
        = .error (.EncCompatError "UTF-16BE" "ISO-8859-1")
    ∧ latin1_A.ascii_only = none
    ∧ (str_concat_string unused_encoding_methods utf16be_ab_raw latin1_A).1.2 = latin1_A := by
  decide

/-- C2 (witness): the amended statement at the strings "A" (ISO-8859-1) and
"é" (UTF-8). -/
theorem str_concat_string_raises_iff_witness :
    (latin1_A.length_in_bytes ≠ 0 ∧ utf8_e_acute.length_in_bytes ≠ 0)
    ∧ (((∃ e, (str_concat_string unused_encoding_methods latin1_A utf8_e_acute).2 = .error e)
        ↔ (str_compatible_encoding unused_encoding_methods latin1_A utf8_e_acute).1 = none)
    ∧ (∀ e, (str_concat_string unused_encoding_methods latin1_A utf8_e_acute).2 = .error e →
        e = .EncCompatError latin1_A.encoding.public_name utf8_e_acute.encoding.public_name
        ∧ (str_concat_string unused_encoding_methods latin1_A utf8_e_acute).1.1 = latin1_A
        ∧ (str_concat_string unused_encoding_methods latin1_A utf8_e_acute).1.2.data
            = utf8_e_acute.data
        ∧ (str_concat_string unused_encoding_methods latin1_A utf8_e_acute).1.2.length_in_bytes
            = utf8_e_acute.length_in_bytes
        ∧ (str_concat_string unused_encoding_methods latin1_A utf8_e_acute).1.2.capacity_in_bytes
            = utf8_e_acute.capacity_in_bytes
        ∧ (str_concat_string unused_encoding_methods latin1_A utf8_e_acute).1.2.stored_in_uchars
            = utf8_e_acute.stored_in_uchars
        ∧ (str_concat_string unused_encoding_methods latin1_A utf8_e_acute).1.2.encoding
            = utf8_e_acute.encoding
        ∧ (str_concat_string unused_encoding_methods latin1_A utf8_e_acute).1.2
            = if latin1_A.encoding.ascii_compatible = true
                  ∧ utf8_e_acute.encoding.ascii_compatible = true
                  ∧ utf8_e_acute.ascii_only = none then
                str_update_flags unused_encoding_methods utf8_e_acute
              else utf8_e_acute)) :=
  ⟨⟨by decide, by decide⟩,
    str_concat_string_raises_iff unused_encoding_methods latin1_A utf8_e_acute
      (by decide) (by decide)⟩

/-! ## The surrogate validation scan -/

theorem utf16_scan_loop_eq (self : rb_str_t) :
    utf16_scan_loop self
      = (utf16_scanned_units self).foldl utf16_scan_unit (utf16_scan_init self) := by
  unfold utf16_scan_loop utf16_scanned_units
  rw [List.foldl_map]

theorem byte_at_lt (data : List (Fin 256)) (i : Nat) : byte_at data i < 256 :=
  (data.getD i 0).isLt

theorem utf16_read_unit_lt (self : rb_str_t) (i : Nat) : utf16_read_unit self i < 65536 := by
  have h0 := byte_at_lt self.data (2 * i)
  have h1 := byte_at_lt self.data (2 * i + 1)
  unfold utf16_read_unit uchar_at
  split
  · omega
  · rw [Nat.shiftLeft_eq, Nat.mul_comm,
      ← Nat.mul_add_lt_is_or (by norm_num; omega) (byte_at self.data (2 * i))]
    omega

theorem utf16_scanned_units_lt (self : rb_str_t) :
    ∀ u ∈ utf16_scanned_units self, u < 65536 := by
  intro u hu
  unfold utf16_scanned_units at hu
  rcases List.mem_map.1 hu with ⟨i, _, rfl⟩
  exact utf16_read_unit_lt self i

/-- The step on a lead surrogate. -/
theorem utf16_scan_unit_lead (st : utf16_scan_t) (c : Nat) (hc : c < 65536)
    (h : U16_IS_LEAD c = true) :
    utf16_scan_unit st c
      = { st with valid_encoding := if st.lead != 0 then false else st.valid_encoding,
                  lead := c } := by
  have hc32 : c < 2 ^ 32 := by omega
  rw [U16_IS_LEAD_eq c hc32] at h
  simp only [decide_eq_true_eq] at h
  have hs : U16_IS_SURROGATE c = true := by rw [U16_IS_SURROGATE_eq c hc32]; simp; omega
  have hl : U16_IS_SURROGATE_LEAD c = true := by
    rw [U16_IS_SURROGATE_LEAD_eq c (by omega)]; simp; omega
  simp [utf16_scan_unit, hs, hl]

/-- The step on a trail surrogate. -/
theorem utf16_scan_unit_trail (st : utf16_scan_t) (c : Nat) (hc : c < 65536)
    (h : U16_IS_TRAIL c = true) :
    utf16_scan_unit st c
      = if st.lead == 0 then { st with valid_encoding := false, lead := 0 }
        else { st with has_supplementary := true,
                       valid_encoding :=
                         if !U_IS_UNICODE_CHAR (U16_GET_SUPPLEMENTARY st.lead c) then false
                         else st.valid_encoding,
                       lead := 0 } := by
  have hc32 : c < 2 ^ 32 := by omega
  rw [U16_IS_TRAIL_eq c hc32] at h
  simp only [decide_eq_true_eq] at h
  have hs : U16_IS_SURROGATE c = true := by rw [U16_IS_SURROGATE_eq c hc32]; simp; omega
  have hl : U16_IS_SURROGATE_LEAD c = false := by
    rw [U16_IS_SURROGATE_LEAD_eq c (by omega)]; simp; omega
  simp [utf16_scan_unit, hs, hl]

/-- The step on a unit that is no surrogate. -/
theorem utf16_scan_unit_other (st : utf16_scan_t) (c : Nat) (hc : c < 65536)
    (hl : U16_IS_LEAD c = false) (ht : U16_IS_TRAIL c = false) :
    utf16_scan_unit st c
      = { st with valid_encoding :=
                    if st.lead != 0 || !U_IS_UNICODE_CHAR c then false else st.valid_encoding,
                  ascii_only := if c > 127 then false else st.ascii_only } := by
  have hc32 : c < 2 ^ 32 := by omega
  rw [U16_IS_LEAD_eq c hc32] at hl
  rw [U16_IS_TRAIL_eq c hc32] at ht
  simp only [decide_eq_false_iff_not] at hl ht
  have hs : U16_IS_SURROGATE c = false := by rw [U16_IS_SURROGATE_eq c hc32]; simp; omega
  simp [utf16_scan_unit, hs]

theorem U16_IS_LEAD_not_trail (c : Nat) (hc : c < 65536) (h : U16_IS_LEAD c = true) :
    U16_IS_TRAIL c = false := by
  have hc32 : c < 2 ^ 32 := by omega
  rw [U16_IS_LEAD_eq c hc32] at h
  rw [U16_IS_TRAIL_eq c hc32]
  simp at h ⊢
  omega

theorem U16_IS_LEAD_ne_zero (c : Nat) (hc : c < 65536) (h : U16_IS_LEAD c = true) :
    c ≠ 0 := by
  have hc32 : c < 2 ^ 32 := by omega
  rw [U16_IS_LEAD_eq c hc32] at h
  simp at h
  omega

/-- Once the scan has marked the string invalid, it stays invalid. -/
theorem utf16_scan_unit_invalid (st : utf16_scan_t) (c : Nat)
    (h : st.valid_encoding = false) : (utf16_scan_unit st c).valid_encoding = false := by
  unfold utf16_scan_unit
  split_ifs <;> simp [h]

theorem utf16_scan_foldl_invalid (us : List Nat) (st : utf16_scan_t)
    (h : st.valid_encoding = false) :
    (us.foldl utf16_scan_unit st).valid_encoding = false := by
  induction us generalizing st with
  | nil => exact h
  | cons x xs ih => exact ih _ (utf16_scan_unit_invalid st x h)

/-- After any unit, a pending lead surrogate is that unit, unless the string
has been marked invalid. -/
theorem utf16_scan_unit_pending (st : utf16_scan_t) (c : Nat) (hc : c < 65536)
    (hl : U16_IS_LEAD c = false) :
    (utf16_scan_unit st c).lead = 0 ∨ (utf16_scan_unit st c).valid_encoding = false := by
  cases ht : U16_IS_TRAIL c
  · rw [utf16_scan_unit_other st c hc hl ht]
    by_cases h0 : st.lead = 0
    · left; exact h0
    · right; simp [h0]
  · rw [utf16_scan_unit_trail st c hc ht]
    left
    split <;> rfl

/-- A unit that is no trail surrogate, met while a lead is pending,
invalidates the string. -/
theorem utf16_scan_unit_after_lead (st : utf16_scan_t) (c : Nat) (hc : c < 65536)
    (h0 : st.lead ≠ 0) (ht : U16_IS_TRAIL c = false) :
    (utf16_scan_unit st c).valid_encoding = false := by
  cases hl : U16_IS_LEAD c
  · rw [utf16_scan_unit_other st c hc hl ht]; simp [h0]
  · rw [utf16_scan_unit_lead st c hc hl]; simp [h0]

/-- A trail surrogate met while no lead is pending invalidates the string. -/
theorem utf16_scan_unit_lone_trail (st : utf16_scan_t) (c : Nat) (hc : c < 65536)
    (h0 : st.lead = 0 ∨ st.valid_encoding = false) (ht : U16_IS_TRAIL c = true) :
    (utf16_scan_unit st c).valid_encoding = false := by
  rcases h0 with h0 | h0
  · rw [utf16_scan_unit_trail st c hc ht]; simp [h0]
  · exact utf16_scan_unit_invalid st c h0

/-- The scan ends invalid, or with a lead pending, when some lead surrogate is
not followed by a trail surrogate. -/
theorem utf16_scan_foldl_unpaired_lead (us : List Nat) (hus : ∀ u ∈ us, u < 65536)
    (st : utf16_scan_t) (i l : Nat) (hi : us[i]? = some l) (hl : U16_IS_LEAD l = true)
    (hn : ∀ t, us[i + 1]? = some t → U16_IS_TRAIL t = false) :
    (us.foldl utf16_scan_unit st).lead ≠ 0
      ∨ (us.foldl utf16_scan_unit st).valid_encoding = false := by
  induction us generalizing st i with
  | nil => simp at hi
  | cons x xs ih =>
    cases i with
    | zero =>
      simp at hi
      subst hi
      have hx : x < 65536 := hus x (by simp)
      cases xs with
      | nil =>
        left
        simp only [List.foldl]
        rw [utf16_scan_unit_lead st x hx hl]
        exact U16_IS_LEAD_ne_zero x hx hl
      | cons y ys =>
        right
        have hy : y < 65536 := hus y (by simp)
        simp only [List.foldl]
        apply utf16_scan_foldl_invalid
        apply utf16_scan_unit_after_lead _ y hy
        · rw [utf16_scan_unit_lead st x hx hl]
          exact U16_IS_LEAD_ne_zero x hx hl
        · exact hn y (by simp)
    | succ j =>
      simp only [List.foldl]
      apply ih (fun u hu => hus u (by simp [hu])) _ j
      · simpa using hi
      · intro t h
        apply hn t
        simpa using h

/-- The scan ends invalid when some trail surrogate is not preceded by a lead
surrogate. -/
theorem utf16_scan_foldl_unpaired_trail (us : List Nat) (hus : ∀ u ∈ us, u < 65536)
    (st : utf16_scan_t) (i t : Nat) (hi : us[i]? = some t) (ht : U16_IS_TRAIL t = true)
    (hp : (i = 0 ∧ (st.lead = 0 ∨ st.valid_encoding = false))
      ∨ ∃ j p, i = j + 1 ∧ us[j]? = some p ∧ U16_IS_LEAD p = false) :
    (us.foldl utf16_scan_unit st).valid_encoding = false := by
  induction us generalizing st i with
  | nil => simp at hi
  | cons x xs ih =>
    have hx : x < 65536 := hus x (by simp)
    have hxs : ∀ u ∈ xs, u < 65536 := fun u hu => hus u (by simp [hu])
    cases i with
    | zero =>
      simp at hi
      subst hi
      simp only [List.foldl]
      apply utf16_scan_foldl_invalid
      rcases hp with ⟨_, h0⟩ | ⟨j, p, hj, _⟩
      · exact utf16_scan_unit_lone_trail st x hx h0 ht
      · omega
    | succ k =>
      simp only [List.foldl]
      have hi2 : xs[k]? = some t := by simpa using hi
      rcases hp with ⟨h, _⟩ | ⟨j, p, hj, hjp, hpl⟩
      · omega
      · have hjk : j = k := by omega
        subst hjk
        cases j with
        | zero =>
          simp at hjp
          subst hjp
          exact ih hxs _ 0 hi2 (Or.inl ⟨rfl, utf16_scan_unit_pending st x hx hpl⟩)
        | succ m =>
          exact ih hxs _ (m + 1) hi2 (Or.inr ⟨m, p, rfl, by simpa using hjp, hpl⟩)
/-- The flags stored by `str_update_flags_utf16` when the loop ends invalid or
with a lead pending. -/
theorem str_update_flags_utf16_of_invalid (self : rb_str_t)
    (h : (utf16_scan_loop self).lead ≠ 0 ∨ (utf16_scan_loop self).valid_encoding = false) :
    (str_update_flags_utf16 self).valid_encoding = some false
    ∧ (str_update_flags_utf16 self).ascii_only = some false := by
  unfold str_update_flags_utf16
  simp only [str_set_ascii_only, str_set_valid_encoding, str_set_has_supplementary]
  rcases h with h | h
  · simp [h]
  · simp [h]

/-- C3: for every sequence of 16-bit code units scanned by
`str_update_flags_utf16`: if the byte length is odd, or some lead surrogate is
not immediately followed by a trail surrogate (a lead surrogate as the last
unit included), or some trail surrogate is not immediately preceded by a lead
surrogate, then the scan sets `valid_encoding = false` and
`ascii_only = false`. -/
theorem str_update_flags_utf16_invalid (self : rb_str_t)
    (h : ODD_NUMBER self.length_in_bytes = true
      ∨ (∃ i l, (utf16_scanned_units self)[i]? = some l ∧ U16_IS_LEAD l = true
          ∧ ∀ t, (utf16_scanned_units self)[i + 1]? = some t → U16_IS_TRAIL t = false)
      ∨ (∃ i t, (utf16_scanned_units self)[i]? = some t ∧ U16_IS_TRAIL t = true
          ∧ (i = 0 ∨ ∃ p, (utf16_scanned_units self)[i - 1]? = some p
              ∧ U16_IS_LEAD p = false))) :
    (str_update_flags_utf16 self).valid_encoding = some false
    ∧ (str_update_flags_utf16 self).ascii_only = some false := by
  apply str_update_flags_utf16_of_invalid
  rw [utf16_scan_loop_eq]
  have hus := utf16_scanned_units_lt self
  rcases h with h | ⟨i, l, hi, hl, hn⟩ | ⟨i, t, hi, ht, hp⟩
  · right
    apply utf16_scan_foldl_invalid
    simp [utf16_scan_init, h]
  · exact utf16_scan_foldl_unpaired_lead _ hus _ i l hi hl hn
  · right
    apply utf16_scan_foldl_unpaired_trail _ hus _ i t hi ht
    rcases hp with h0 | ⟨p, hp1, hp2⟩
    · left
      exact ⟨h0, Or.inl rfl⟩
    · cases i with
      | zero => left; exact ⟨rfl, Or.inl rfl⟩
      | succ j => right; exact ⟨j, p, rfl, by simpa using hp1, hp2⟩

/-- C3 (witness): the one-unit string that is a lone lead surrogate. -/
theorem str_update_flags_utf16_invalid_witness :
    (utf16_scanned_units lone_lead_surrogate = [0xD800] ∧ U16_IS_LEAD 0xD800 = true)
    ∧ (str_update_flags_utf16 lone_lead_surrogate).valid_encoding = some false
    ∧ (str_update_flags_utf16 lone_lead_surrogate).ascii_only = some false :=
  ⟨⟨by decide, by decide⟩,
    str_update_flags_utf16_invalid lone_lead_surrogate
      (Or.inr (Or.inl ⟨0, 0xD800, by decide, by decide, fun t ht => by
        have h1 : (utf16_scanned_units lone_lead_surrogate)[0 + 1]? = none := by decide
        rw [h1] at ht
        cases ht⟩))⟩

/-- The three flags stored by `str_update_flags_utf16`, from the locals of the
loop when it is left. -/
theorem str_update_flags_utf16_flags (self : rb_str_t) :
    (str_update_flags_utf16 self).has_supplementary
      = some (utf16_scan_loop self).has_supplementary
    ∧ (str_update_flags_utf16 self).valid_encoding
      = some (decide ((utf16_scan_loop self).lead = 0) && (utf16_scan_loop self).valid_encoding)
    ∧ (str_update_flags_utf16 self).ascii_only
      = some (decide ((utf16_scan_loop self).lead = 0) && (utf16_scan_loop self).valid_encoding
          && (utf16_scan_loop self).ascii_only) := by
  unfold str_update_flags_utf16
  simp only [str_set_ascii_only, str_set_valid_encoding, str_set_has_supplementary]
  by_cases h0 : (utf16_scan_loop self).lead = 0
  · cases hv : (utf16_scan_loop self).valid_encoding <;> simp [h0, hv]
  · simp [h0]

/-- The scan of units none of which is a surrogate, entered with no lead
pending. -/
theorem utf16_scan_foldl_no_surrogate (us : List Nat)
    (hns : ∀ u ∈ us, U16_IS_SURROGATE u = false) (st : utf16_scan_t) (h0 : st.lead = 0) :
    us.foldl utf16_scan_unit st
      = { ascii_only := st.ascii_only && us.all (fun u => decide (u ≤ 127)),
          has_supplementary := st.has_supplementary,
          valid_encoding := st.valid_encoding && us.all U_IS_UNICODE_CHAR,
          lead := 0 } := by
  induction us generalizing st with
  | nil => cases st; simp at h0; simp [h0]
  | cons x xs ih =>
    have hx : U16_IS_SURROGATE x = false := hns x (by simp)
    simp only [List.foldl]
    rw [ih (fun u hu => hns u (by simp [hu])) _ (by simp [utf16_scan_unit, hx, h0])]
    simp only [utf16_scan_unit, hx, h0, List.all_cons]
    cases st.valid_encoding <;> cases st.ascii_only <;> cases U_IS_UNICODE_CHAR x <;>
      by_cases h127 : x ≤ 127 <;> simp [h127]

/-- C5 (as amended): for every even-byte-length sequence made only of
non-surrogate 16-bit code units, the scan sets `has_supplementary = false`,
sets `ascii_only = true` if and only if every unit is <= 127, and sets
`valid_encoding = true` if and only if every unit is a Unicode character for
ICU (`U_IS_UNICODE_CHAR`); so a unit > 127 that is a Unicode character makes
`ascii_only` false without making the string invalid. -/
theorem str_update_flags_utf16_no_surrogate (self : rb_str_t)
    (heven : ODD_NUMBER self.length_in_bytes = false)
    (hns : ∀ u ∈ utf16_scanned_units self, U16_IS_SURROGATE u = false) :
    (str_update_flags_utf16 self).has_supplementary = some false
    ∧ (str_update_flags_utf16 self).ascii_only
        = some ((utf16_scanned_units self).all (fun u => decide (u ≤ 127)))
    ∧ (str_update_flags_utf16 self).valid_encoding
        = some ((utf16_scanned_units self).all U_IS_UNICODE_CHAR) := by
  have hf := str_update_flags_utf16_flags self
  have hloop := utf16_scan_foldl_no_surrogate _ hns (utf16_scan_init self) rfl
  rw [← utf16_scan_loop_eq] at hloop
  rw [hloop] at hf
  simp only [utf16_scan_init, heven] at hf
  refine ⟨hf.1, ?_, ?_⟩
  · rw [hf.2.2]
    simp only [Bool.false_eq_true, if_false, decide_True, Bool.true_and, Option.some.injEq]
    rw [Bool.and_iff_right_iff_imp]
    intro h127
    rw [List.all_eq_true] at h127 ⊢
    intro u hu
    have := h127 u hu
    simp only [decide_eq_true_eq] at this
    simp [U_IS_UNICODE_CHAR]
    omega
  · rw [hf.2.1]
    simp

/-- What `U_IS_UNICODE_CHAR` decides on a 16-bit unit that is no surrogate: the
non-characters U+FDD0..U+FDEF, U+FFFE and U+FFFF are rejected. -/
theorem U_IS_UNICODE_CHAR_unit (c : Nat) (hc : c < 65536)
    (hs : U16_IS_SURROGATE c = false) :
    U_IS_UNICODE_CHAR c = true ↔ ¬ (0xfdd0 ≤ c ∧ c ≤ 0xfdef) ∧ c < 0xfffe := by
  rw [U16_IS_SURROGATE_eq c (by omega)] at hs
  simp only [decide_eq_false_iff_not] at hs
  unfold U_IS_UNICODE_CHAR U_IS_UNICODE_NONCHAR
  rw [land_fffe c (by omega)]
  simp
  omega

/-- C5 (counterexample): the one-unit sequence FFFF has an even byte length
and no surrogate, and the scan marks it invalid. -/
theorem str_update_flags_utf16_FFFF_invalid :
    ODD_NUMBER unit_FFFF.length_in_bytes = false
    ∧ utf16_scanned_units unit_FFFF = [0xFFFF]
    ∧ U16_IS_SURROGATE 0xFFFF = false
    ∧ (str_update_flags_utf16 unit_FFFF).valid_encoding = some false := by
  decide

/-- C5 (witness): the scan of "aé", the units 0061 00E9. -/
theorem str_update_flags_utf16_no_surrogate_witness :
    (ODD_NUMBER utf8_a_e_acute.length_in_bytes = false
      ∧ ∀ u ∈ utf16_scanned_units utf8_a_e_acute, U16_IS_SURROGATE u = false)
    ∧ ((str_update_flags_utf16 utf8_a_e_acute).has_supplementary = some false
      ∧ (str_update_flags_utf16 utf8_a_e_acute).ascii_only
          = some ((utf16_scanned_units utf8_a_e_acute).all (fun u => decide (u ≤ 127)))
      ∧ (str_update_flags_utf16 utf8_a_e_acute).valid_encoding
          = some ((utf16_scanned_units utf8_a_e_acute).all U_IS_UNICODE_CHAR)) :=
  ⟨⟨by decide, by decide⟩,
    str_update_flags_utf16_no_surrogate utf8_a_e_acute (by decide) (by decide)⟩

/-- Once the scan has seen a supplementary pair, the flag stays set. -/
theorem utf16_scan_unit_supplementary (st : utf16_scan_t) (c : Nat)
    (h : st.has_supplementary = true) : (utf16_scan_unit st c).has_supplementary = true := by
  unfold utf16_scan_unit
  split_ifs <;> simp [h]

theorem utf16_scan_foldl_supplementary (us : List Nat) (st : utf16_scan_t)
    (h : st.has_supplementary = true) :
    (us.foldl utf16_scan_unit st).has_supplementary = true := by
  induction us generalizing st with
  | nil => exact h
  | cons x xs ih => exact ih _ (utf16_scan_unit_supplementary st x h)

/-- A lead surrogate immediately followed by a trail surrogate sets
`has_supplementary`, whatever else the sequence holds. -/
theorem str_update_flags_utf16_of_pair (self : rb_str_t) (i l t : Nat)
    (hl : (utf16_scanned_units self)[i]? = some l) (ht : (utf16_scanned_units self)[i + 1]? = some t)
    (hlead : U16_IS_LEAD l = true) (htrail : U16_IS_TRAIL t = true) :
    (str_update_flags_utf16 self).has_supplementary = some true := by
  rw [(str_update_flags_utf16_flags self).1, utf16_scan_loop_eq]
  have hus := utf16_scanned_units_lt self
  generalize utf16_scanned_units self = us at hl ht hus
  generalize utf16_scan_init self = st
  congr 1
  induction us generalizing st i with
  | nil => simp at hl
  | cons x xs ih =>
    have hxs : ∀ u ∈ xs, u < 65536 := fun u hu => hus u (by simp [hu])
    cases i with
    | zero =>
      simp at hl ht
      subst hl
      cases xs with
      | nil => simp at ht
      | cons y ys =>
        simp at ht
        subst ht
        have hx : x < 65536 := hus x (by simp)
        have hy : y < 65536 := hus y (by simp)
        simp only [List.foldl]
        apply utf16_scan_foldl_supplementary
        rw [utf16_scan_unit_lead st x hx hlead, utf16_scan_unit_trail _ y hy htrail]
        simp [U16_IS_LEAD_ne_zero x hx hlead]
    | succ j =>
      simp only [List.foldl]
      exact ih j (by simpa using hl) (by simpa using ht) hxs _

/-- C6 (the code at the failing input): in the sequence D800 0041 DC00 no lead
surrogate is immediately followed by a trail surrogate, and the scan sets
`has_supplementary = true`: the lead left pending by the first unit is still
pending when the trail surrogate is read. -/
theorem str_update_flags_utf16_stale_lead :
    utf16_scanned_units lead_A_trail = [0xD800, 0x41, 0xDC00]
    ∧ U16_IS_TRAIL 0x41 = false ∧ U16_IS_LEAD 0x41 = false
    ∧ U16_IS_LEAD 0xDC00 = false ∧ U16_IS_TRAIL 0xD800 = false
    ∧ (str_update_flags_utf16 lead_A_trail).has_supplementary = some true := by
  decide

/-! ## Substrings and surrogate pairs -/

theorem uchar_at_lt (data : List (Fin 256)) (i : Nat) : uchar_at data i < 65536 := by
  have h0 := byte_at_lt data (2 * i)
  have h1 := byte_at_lt data (2 * i + 1)
  unfold uchar_at
  omega

/-- In code-unit mode, on a string stored as code units whose encoding is not
in the UTF-16 family, the boundaries of an index that holds a lead surrogate
have no end. -/
theorem str_get_character_boundaries_lead (M : encoding_methods_t) (self : rb_str_t) (k : Nat)
    (hu : str_is_stored_in_uchars self = true) (he : UTF16_ENC self.encoding = false)
    (hk : (k : Int) < BYTES_TO_UCHARS self.length_in_bytes)
    (hl : U16_IS_LEAD (uchar_at self.data k) = true) :
    str_get_character_boundaries M self k true = ⟨UCHARS_TO_BYTES k, -1⟩ := by
  have h16 := uchar_at_lt self.data k
  have hl2 := hl
  rw [U16_IS_LEAD_eq _ (by omega)] at hl2
  simp only [decide_eq_true_eq] at hl2
  have hs : U16_IS_SURROGATE (uchar_at self.data k) = true := by
    rw [U16_IS_SURROGATE_eq _ (by omega)]; simp; omega
  have hsl : U16_IS_SURROGATE_LEAD (uchar_at self.data k) = true := by
    rw [U16_IS_SURROGATE_LEAD_eq _ (by omega)]; simp; omega
  have hk0 : ¬ ((k : Int) < 0) := by omega
  unfold str_get_character_boundaries
  simp [hu, he, hk0, hk, hs, hsl]

/-- Cutting at a lead surrogate: on a string stored as code units whose encoding is
not in the UTF-16 family, `str_get_characters(self, k, k, code-unit mode)`
raises the IndexError of `str_cannot_cut_surrogate` when the unit at index `k`
is a lead surrogate. -/
theorem str_get_characters_on_lead (M : encoding_methods_t) (self : rb_str_t) (k : Nat)
    (hu : str_is_stored_in_uchars self = true) (he : UTF16_ENC self.encoding = false)
    (hk : (k : Int) < BYTES_TO_UCHARS self.length_in_bytes)
    (hl : U16_IS_LEAD (uchar_at self.data k) = true) :
    (str_get_characters M self k k true).2 = .error str_cannot_cut_surrogate := by
  have hb := str_get_character_boundaries_lead M self k hu he hk hl
  have hlen : self.length_in_bytes ≠ 0 := by
    unfold BYTES_TO_UCHARS at hk
    omega
  have hstart : UCHARS_TO_BYTES (k : Int) ≠ -1 := by
    unfold UCHARS_TO_BYTES
    omega
  unfold str_get_characters
  simp [hlen, hu, hb, hstart]

/-- The loop of `str_offset_in_bytes_to_index` returns within `fuel`
iterations when `fuel` covers the distance from `i` to the offset. -/
theorem offset_to_index_loop_returns (data : List (Fin 256)) (length offset_in_bytes : Int)
    (fuel : Nat) (index : Int) (i : Nat) (hf : 0 < fuel)
    (h : offset_in_bytes ≤ (i : Int) + fuel) :
    ∃ r, offset_to_index_loop data length offset_in_bytes fuel index i = some r := by
  induction fuel generalizing index i with
  | zero => omega
  | succ n ih =>
    unfold offset_to_index_loop
    simp only []
    split_ifs with h1 h2 h3 h4 h5
    · exact ⟨_, rfl⟩
    · exact ⟨_, rfl⟩
    · have hn : 0 < n := by
        rcases Nat.eq_zero_or_pos n with h0 | h0
        · subst h0; push_cast at h h2 h3; omega
        · exact h0
      exact ih _ _ hn (by push_cast at h ⊢; omega)
    · exact ⟨_, rfl⟩
    · exact ⟨_, rfl⟩
    · have hn : 0 < n := by
        rcases Nat.eq_zero_or_pos n with h0 | h0
        · subst h0; push_cast at h h4 h5; omega
        · exact h0
      exact ih _ _ hn (by push_cast at h ⊢; omega)

/-- The function `str_offset_in_bytes_to_index` always returns. -/
theorem str_offset_in_bytes_to_index_returns (M : encoding_methods_t) (self : rb_str_t)
    (offset_in_bytes : Int) (ucs2_mode : Bool) :
    ∃ r, str_offset_in_bytes_to_index M self offset_in_bytes ucs2_mode = some r := by
  unfold str_offset_in_bytes_to_index
  split_ifs with h1 h2 h3 h4 h5 h6 h7
  · exact ⟨_, rfl⟩
  · exact ⟨_, rfl⟩
  · exact ⟨_, rfl⟩
  · apply offset_to_index_loop_returns
    · omega
    · push_cast; omega
  · exact ⟨_, rfl⟩
  · exact ⟨_, rfl⟩
  · exact ⟨_, rfl⟩
  · exact ⟨_, rfl⟩

/-- On the paths without a surrogate walk (code-unit mode, or a string known
to hold no supplementary pair) the offset-to-index conversion inverts the
index-to-offset conversion: for a string stored as code units and an index `i`
inside it whose boundaries have a start, the start offset converts back to
`i`. -/
theorem str_offset_in_bytes_to_index_of_start (M : encoding_methods_t) (self : rb_str_t)
    (i : Nat) (ucs2_mode : Bool) (hu : str_is_stored_in_uchars self = true)
    (hfast : (ucs2_mode || str_known_not_to_have_any_supplementary self) = true)
    (hi : UCHARS_TO_BYTES (i : Int) < self.length_in_bytes)
    (hstart : (str_get_character_boundaries M self i ucs2_mode).start_offset_in_bytes ≠ -1) :
    str_offset_in_bytes_to_index M self
      (str_get_character_boundaries M self i ucs2_mode).start_offset_in_bytes ucs2_mode
      = some (i : Int) := by
  have hi0 : ¬ ((i : Int) < 0) := by omega
  have hb : (str_get_character_boundaries M self i ucs2_mode).start_offset_in_bytes
      = UCHARS_TO_BYTES (i : Int) := by
    revert hstart
    unfold str_get_character_boundaries
    simp only [hu, hfast, if_true, hi0, if_false]
    split_ifs <;> simp
  rw [hb]
  unfold str_offset_in_bytes_to_index
  unfold UCHARS_TO_BYTES at hi ⊢
  simp only [hu, hfast, if_true, BYTES_TO_UCHARS]
  split_ifs with h1 h2
  · omega
  · have : (i : Int) = 0 := by omega
    rw [this]
  · congr 1
    omega

/-- C8 (the code at the failing input): for "abc" stored as code units with
nothing cached, index 1 in code-point mode starts at byte offset 2, and
`str_offset_in_bytes_to_index` of byte offset 2 in code-point mode is 2, not 1;
for U+10000 "a" "b", known to hold a supplementary pair, index 1 starts at byte
offset 4, which converts back to 3.  The surrogate walk compares the byte
offset with a count of code units. -/
theorem str_offset_in_bytes_to_index_walk_mixes_units :
    (utf8_abc.has_supplementary = none
      ∧ str_length unused_encoding_methods utf8_abc false = 3
      ∧ str_get_character_boundaries unused_encoding_methods utf8_abc 1 false = ⟨2, 4⟩
      ∧ str_offset_in_bytes_to_index unused_encoding_methods utf8_abc 2 false = some 2)
    ∧ (utf8_pair_a_b.has_supplementary = some true
      ∧ str_length unused_encoding_methods utf8_pair_a_b false = 3
      ∧ str_get_character_boundaries unused_encoding_methods utf8_pair_a_b 1 false = ⟨4, 6⟩
      ∧ str_offset_in_bytes_to_index unused_encoding_methods utf8_pair_a_b 4 false
          = some 3) := by
  decide

/-! ## Negative indices -/

/-- Negative indices on a single-byte string held as raw bytes: index `-k`
resolves as index `n - k` for `1 <= k <= n`, and index `-n-1` is out of range,
`n` being `str_length` in either mode. -/
theorem str_get_character_boundaries_negative_single_byte (M : encoding_methods_t)
    (self : rb_str_t) (ucs2_mode : Bool) (hraw : str_is_stored_in_uchars self = false)
    (hsb : self.encoding.single_byte_encoding = true) (hn : 1 ≤ str_length M self ucs2_mode) :
    (∀ k : Int, 1 ≤ k → k ≤ str_length M self ucs2_mode →
      str_get_character_boundaries M self (-k) ucs2_mode
        = str_get_character_boundaries M self (str_length M self ucs2_mode - k) ucs2_mode)
    ∧ str_get_character_boundaries M self (-(str_length M self ucs2_mode) - 1) ucs2_mode
        = ⟨-1, -1⟩ := by
  have hlen : str_length M self ucs2_mode = self.length_in_bytes := by
    unfold str_length
    by_cases h0 : self.length_in_bytes = 0
    · simp [h0]
    · simp [h0, hraw, hsb]
  rw [hlen] at hn ⊢
  unfold str_get_character_boundaries
  simp only [hraw, hsb, if_true]
  constructor
  · intro k hk1 hk2
    have h1 : -k < 0 := by omega
    have h2 : ¬ (-k + self.length_in_bytes < 0) := by omega
    have h3 : ¬ (self.length_in_bytes - k < 0) := by omega
    simp [h1, h2, h3]
    omega
  · have h1 : -self.length_in_bytes - 1 < 0 := by omega
    have h2 : -self.length_in_bytes - 1 + self.length_in_bytes < 0 := by omega
    simp [h1, h2]

/-- Negative indices in code-unit mode on a string stored as code units: index
`-k` resolves as index `n - k` for `1 <= k <= n`, and index `-n-1` is out of
range, `n` being `str_length` in code-unit mode; an odd byte length
included. -/
theorem str_get_character_boundaries_negative_ucs2 (M : encoding_methods_t)
    (self : rb_str_t) (hu : str_is_stored_in_uchars self = true)
    (hn : 1 ≤ str_length M self true) :
    (∀ k : Int, 1 ≤ k → k ≤ str_length M self true →
      str_get_character_boundaries M self (-k) true
        = str_get_character_boundaries M self (str_length M self true - k) true)
    ∧ str_get_character_boundaries M self (-(str_length M self true) - 1) true
        = ⟨-1, -1⟩ := by
  have hlen : str_length M self true = div_round_up self.length_in_bytes 2 := by
    unfold str_length div_round_up BYTES_TO_UCHARS ODD_NUMBER
    simp only [hu, if_true]
    split_ifs with h0 h1
    · rw [h0]; rfl
    · simp at h1; omega
    · simp at h1; omega
  rw [hlen] at hn ⊢
  constructor
  · intro k hk1 hk2
    have h1 : -k < 0 := by omega
    have h3 : ¬ (div_round_up self.length_in_bytes 2 - k < 0) := by omega
    have h4 : -k + div_round_up self.length_in_bytes 2
        = div_round_up self.length_in_bytes 2 - k := by omega
    unfold str_get_character_boundaries
    simp only [hu, if_true, Bool.true_or, h1, h3, if_false, h4]
  · have h1 : -div_round_up self.length_in_bytes 2 - 1 < 0 := by omega
    have h2 : -div_round_up self.length_in_bytes 2 - 1 + div_round_up self.length_in_bytes 2 < 0 := by
      omega
    unfold str_get_character_boundaries
    simp [hu, h1, h2]

theorem memcpy_into_empty (src : List (Fin 256)) (src_offset n : Nat) :
    memcpy [] 0 src src_offset n = read_bytes src src_offset n := by
  simp [memcpy, read_bytes]

/-- The string made by `str_new_copy_of_part`: the encoding of the source, the
requested length, and the `length_in_bytes` bytes of the source from
`offset_in_bytes` on. -/
theorem str_new_copy_of_part_spec (self : rb_str_t) (offset_in_bytes length_in_bytes : Int) :
    (str_new_copy_of_part self offset_in_bytes length_in_bytes).encoding = self.encoding
    ∧ (str_new_copy_of_part self offset_in_bytes length_in_bytes).length_in_bytes
        = length_in_bytes
    ∧ (str_new_copy_of_part self offset_in_bytes length_in_bytes).data
        = read_bytes self.data offset_in_bytes.toNat length_in_bytes.toNat := by
  simp [str_new_copy_of_part, str_keep_required_flags, str_alloc, memcpy_into_empty]

/-- Substrings of single-byte strings held as raw bytes: for
`0 <= first <= last` and `first < length`, `str_get_characters` leaves the
source as it was and returns the copy of the bytes from `first` up to
`last + 1`, clamped to `length_in_bytes`. -/
theorem str_get_characters_single_byte (M : encoding_methods_t) (self : rb_str_t)
    (first last : Int) (ucs2_mode : Bool) (hraw : str_is_stored_in_uchars self = false)
    (hsb : self.encoding.single_byte_encoding = true) (h0 : 0 ≤ first) (hfl : first ≤ last)
    (hlt : first < self.length_in_bytes) :
    str_get_characters M self first last ucs2_mode
      = (self, .ok (some (str_new_copy_of_part self first
          (min (last + 1) self.length_in_bytes - first)))) := by
  have hb : ∀ index : Int, 0 ≤ index →
      str_get_character_boundaries M self index ucs2_mode = ⟨index, index + 1⟩ := by
    intro index hindex
    have h1 : ¬ (index < 0) := by omega
    unfold str_get_character_boundaries
    simp [hraw, hsb, h1]
  have hlen : self.length_in_bytes ≠ 0 := by omega
  have h1 : first ≠ -1 := by omega
  have h2 : last + 1 ≠ -1 := by omega
  have h3 : first ≠ self.length_in_bytes := by omega
  have h4 : ¬ (first > self.length_in_bytes) := by omega
  unfold str_get_characters
  simp only [hlen, if_false, hsb, Bool.not_true, Bool.false_and, Bool.false_eq_true]
  rw [hb first h0, hb last (by omega)]
  simp only [h1, h2, h3, h4, if_false]
  congr 4
  by_cases h5 : last + 1 ≥ self.length_in_bytes
  · simp only [h5, if_true]; omega
  · simp only [h5, if_false]; omega

/-- Substrings of strings stored as code units without surrogates, in
code-unit mode: for `0 <= first <= last` and `first` inside the string,
`str_get_characters` leaves the source as it was and returns the copy of the
bytes from `2 * first` up to `2 * last + 2`, clamped to `length_in_bytes`. -/
theorem str_get_characters_ucs2_no_surrogate (M : encoding_methods_t) (self : rb_str_t)
    (first last : Int) (hu : str_is_stored_in_uchars self = true)
    (hns : ∀ i : Nat, (i : Int) < BYTES_TO_UCHARS self.length_in_bytes →
      U16_IS_SURROGATE (uchar_at self.data i) = false)
    (h0 : 0 ≤ first) (hfl : first ≤ last) (hlt : 2 * first < self.length_in_bytes) :
    str_get_characters M self first last true
      = (self, .ok (some (str_new_copy_of_part self (2 * first)
          (min (2 * last + 2) self.length_in_bytes - 2 * first)))) := by
  have hb : ∀ index : Int, 0 ≤ index →
      str_get_character_boundaries M self index true = ⟨2 * index, 2 * index + 2⟩ := by
    intro index hindex
    have h1 : ¬ (index < 0) := by omega
    have h2 : UCHARS_TO_BYTES index = 2 * index := by unfold UCHARS_TO_BYTES; omega
    unfold str_get_character_boundaries
    simp only [hu, if_true, Bool.true_or, h1, if_false, h2]
    by_cases hlt : index < BYTES_TO_UCHARS self.length_in_bytes
    · have := hns index.toNat (by rw [Int.toNat_of_nonneg hindex]; exact hlt)
      simp [this]
    · simp [hlt]
  have hlen : self.length_in_bytes ≠ 0 := by omega
  have h1 : 2 * first ≠ -1 := by omega
  have h2 : 2 * last + 2 ≠ -1 := by omega
  have h3 : 2 * first ≠ self.length_in_bytes := by omega
  have h4 : ¬ (2 * first > self.length_in_bytes) := by omega
  unfold str_get_characters
  simp only [hlen, if_false, hu, Bool.not_true, Bool.and_false, Bool.false_eq_true]
  rw [hb first h0, hb last (by omega)]
  simp only [h1, h2, h3, h4, if_false]
  congr 4
  by_cases h5 : 2 * last + 2 ≥ self.length_in_bytes
  · simp only [h5, if_true]; omega
  · simp only [h5, if_false]; omega

theorem bytes_of_uchars_length (us : List Nat) : (bytes_of_uchars us).length = 2 * us.length := by
  induction us with
  | nil => rfl
  | cons u rest ih => simp [bytes_of_uchars, ih]; omega

theorem uchar_at_bytes_of_uchars (us : List Nat) (hus : ∀ u ∈ us, u < 65536) (i : Nat)
    (hi : i < us.length) : uchar_at (bytes_of_uchars us) i = us.getD i 0 := by
  induction us generalizing i with
  | nil => simp at hi
  | cons u rest ih =>
    cases i with
    | zero =>
      have hu : u < 65536 := hus u (by simp)
      simp [uchar_at, byte_at, bytes_of_uchars]
      omega
    | succ j =>
      have h := ih (fun v hv => hus v (by simp [hv])) j (by simpa using hi)
      have e1 : 2 * (j + 1) = 2 * j + 1 + 1 := by omega
      have e2 : 2 * (j + 1) + 1 = 2 * j + 1 + 1 + 1 := by omega
      simp only [uchar_at, byte_at, bytes_of_uchars, e1, e2, List.getD_cons_succ] at h ⊢
      exact h

/-- Every sequence of 16-bit code units is the sequence scanned from the string
that stores it: the statements on scanned units cover every sequence. -/
theorem utf16_scanned_units_uchars_string (enc : rb_encoding_t) (us : List Nat)
    (hus : ∀ u ∈ us, u < 65536) :
    utf16_scanned_units (uchars_string enc us) = us
    ∧ (uchars_string enc us).length_in_bytes = 2 * us.length := by
  have hlen : (uchars_string enc us).length_in_bytes = 2 * us.length := by
    simp [uchars_string, raw_string, bytes_of_uchars_length]
  refine ⟨?_, hlen⟩
  unfold utf16_scanned_units
  rw [hlen]
  have h2 : (BYTES_TO_UCHARS (2 * (us.length : Int))).toNat = us.length := by
    unfold BYTES_TO_UCHARS
    omega
  rw [h2]
  apply List.ext_getElem
  · simp
  · intro i h1 h3
    simp only [List.getElem_map, List.getElem_range]
    have hi : i < us.length := h3
    have := uchar_at_bytes_of_uchars us hus i hi
    simp only [utf16_read_unit, str_is_stored_in_uchars, uchars_string, raw_string, if_true]
    rw [this, List.getD_eq_getElem _ _ hi]

/-! ## The surrogate walk, forwards and backwards -/

theorem U16_FWD_1_bounds (data : List (Fin 256)) (i length : Nat) (hi : i < length) :
    i < U16_FWD_1 data i length ∧ U16_FWD_1 data i length ≤ length := by
  unfold U16_FWD_1
  split_ifs with h
  · simp only [Bool.and_eq_true, decide_eq_true_eq] at h
    omega
  · omega

/-- `U16_FWD_N` with one more code point: one more `U16_FWD_1`, unless the end
has been reached. -/
theorem U16_FWD_N_succ (data : List (Fin 256)) (length i n : Nat) :
    U16_FWD_N data length i (n + 1)
      = if U16_FWD_N data length i n < length then
          U16_FWD_1 data (U16_FWD_N data length i n) length
        else U16_FWD_N data length i n := by
  induction n generalizing i with
  | zero => simp [U16_FWD_N]
  | succ n ih =>
    by_cases hi : i < length
    · have e1 : U16_FWD_N data length i (n + 1 + 1)
          = U16_FWD_N data length (U16_FWD_1 data i length) (n + 1) := by
        simp [U16_FWD_N, hi]
      have e2 : U16_FWD_N data length i (n + 1)
          = U16_FWD_N data length (U16_FWD_1 data i length) n := by
        simp [U16_FWD_N, hi]
      rw [e1, e2, ih]
    · simp [U16_FWD_N, hi]

/-- What `u_countChar32` counts: the number of `U16_FWD_1` steps from `pos` to
the end of the units. -/
theorem u_countChar32_spec (data : List (Fin 256)) (length : Nat) :
    ∀ len pos, pos + len = length →
      U16_FWD_N data length pos (u_countChar32 data pos len) = length
      ∧ ∀ m, m < u_countChar32 data pos len → U16_FWD_N data length pos m < length := by
  intro len
  induction len using Nat.strong_induction_on with
  | _ len ih =>
    intro pos hpos
    match len, ih, hpos with
    | 0, _, hpos =>
      simp [u_countChar32, U16_FWD_N]
      omega
    | 1, _, hpos =>
      have h1 : pos < length := by omega
      have h2 : U16_FWD_1 data pos length = length := by
        unfold U16_FWD_1
        have : pos + 1 = length := hpos
        simp [this]
      refine ⟨by simp [u_countChar32, U16_FWD_N, h1, h2], ?_⟩
      intro m hm
      simp [u_countChar32] at hm
      subst hm
      simpa [U16_FWD_N] using h1
    | len + 2, ih, hpos =>
      have h1 : pos < length := by omega
      have hne : pos + 1 ≠ length := by omega
      by_cases hp : (U16_IS_LEAD (uchar_at data pos)
          && U16_IS_TRAIL (uchar_at data (pos + 1))) = true
      · have hc : u_countChar32 data pos (len + 2) = u_countChar32 data (pos + 2) len + 1 := by
          simp only [u_countChar32, hp, if_true]
        have hf : U16_FWD_1 data pos length = pos + 2 := by
          simp only [Bool.and_eq_true] at hp
          simp [U16_FWD_1, hp.1, hp.2, hne]
        have := ih len (by omega) (pos + 2) (by omega)
        rw [hc]
        constructor
        · simp only [U16_FWD_N, h1, if_true, hf]
          exact this.1
        · intro m hm
          cases m with
          | zero => simpa [U16_FWD_N] using h1
          | succ m' =>
            simp only [U16_FWD_N, h1, if_true, hf]
            exact this.2 m' (by omega)
      · have hc : u_countChar32 data pos (len + 2)
            = u_countChar32 data (pos + 1) (len + 1) + 1 := by
          simp only [u_countChar32, hp, if_false]
          simp
        have hf : U16_FWD_1 data pos length = pos + 1 := by
          simp only [Bool.and_eq_true, not_and, Bool.not_eq_true] at hp
          unfold U16_FWD_1
          by_cases hl : U16_IS_LEAD (uchar_at data pos) = true
          · simp [hl, hp hl]
          · simp [hl]
        have := ih (len + 1) (by omega) (pos + 1) (by omega)
        rw [hc]
        constructor
        · simp only [U16_FWD_N, h1, if_true, hf]
          exact this.1
        · intro m hm
          cases m with
          | zero => simpa [U16_FWD_N] using h1
          | succ m' =>
            simp only [U16_FWD_N, h1, if_true, hf]
            exact this.2 m' (by omega)
theorem count_from_the_end_zero (data : List (Fin 256)) (offset : Nat) :
    count_from_the_end data offset 0 = (offset, 0) := by
  cases offset <;> rfl

theorem count_from_the_end_succ (data : List (Fin 256)) (offset remaining : Nat) :
    count_from_the_end data (offset + 1) (remaining + 1)
      = if (U16_IS_TRAIL (uchar_at data offset) && decide (offset > 0)
            && U16_IS_LEAD (uchar_at data (offset - 1))) = true then
          count_from_the_end data (offset - 1) remaining
        else count_from_the_end data offset remaining := by
  rfl

/-- No surrogate pair straddles a position reached by the forward walk. -/
theorem U16_FWD_N_no_straddle (data : List (Fin 256)) (length m : Nat)
    (h0 : 0 < U16_FWD_N data length 0 m) (hlt : U16_FWD_N data length 0 m < length) :
    ¬ (U16_IS_LEAD (uchar_at data (U16_FWD_N data length 0 m - 1)) = true
        ∧ U16_IS_TRAIL (uchar_at data (U16_FWD_N data length 0 m)) = true) := by
  cases m with
  | zero => simp [U16_FWD_N] at h0
  | succ n =>
    rw [U16_FWD_N_succ] at h0 hlt ⊢
    by_cases hj : U16_FWD_N data length 0 n < length
    · simp only [hj, if_true] at h0 hlt ⊢
      generalize U16_FWD_N data length 0 n = j at hj h0 hlt ⊢
      unfold U16_FWD_1 at hlt ⊢
      by_cases hp : (U16_IS_LEAD (uchar_at data j) && decide (j + 1 ≠ length)
          && U16_IS_TRAIL (uchar_at data (j + 1))) = true
      · rw [if_pos hp] at hlt ⊢
        simp only [Bool.and_eq_true, decide_eq_true_eq] at hp
        have e : j + 2 - 1 = j + 1 := by omega
        rw [e]
        intro hc
        have := U16_IS_LEAD_not_trail _ (uchar_at_lt data (j + 1)) hc.1
        rw [this] at hp
        simp at hp
      · rw [if_neg hp] at hlt ⊢
        have e : j + 1 - 1 = j := by omega
        rw [e]
        intro hc
        apply hp
        simp only [Bool.and_eq_true, decide_eq_true_eq]
        exact ⟨⟨hc.1, by omega⟩, hc.2⟩
    · simp only [hj, if_false] at hlt

/-- One step of the backward walk undoes one step of the forward walk. -/
theorem count_from_the_end_step (data : List (Fin 256)) (length m k : Nat)
    (hlt : U16_FWD_N data length 0 m < length) :
    count_from_the_end data (U16_FWD_N data length 0 (m + 1)) (k + 1)
      = count_from_the_end data (U16_FWD_N data length 0 m) k := by
  have hns := U16_FWD_N_no_straddle data length m
  rw [U16_FWD_N_succ]
  simp only [hlt, if_true]
  generalize U16_FWD_N data length 0 m = j at hlt hns ⊢
  unfold U16_FWD_1
  by_cases hp : (U16_IS_LEAD (uchar_at data j) && decide (j + 1 ≠ length)
      && U16_IS_TRAIL (uchar_at data (j + 1))) = true
  · rw [if_pos hp]
    simp only [Bool.and_eq_true, decide_eq_true_eq] at hp
    have e : j + 2 = (j + 1) + 1 := by omega
    rw [e, count_from_the_end_succ]
    simp [hp.1.1, hp.2]
  · rw [if_neg hp, count_from_the_end_succ]
    by_cases hj0 : j = 0
    · subst hj0
      simp
    · have := hns (by omega) hlt
      have hcond : (U16_IS_TRAIL (uchar_at data j) && decide (j > 0)
          && U16_IS_LEAD (uchar_at data (j - 1))) = false := by
        rw [Bool.eq_false_iff]
        intro hc
        simp only [Bool.and_eq_true, decide_eq_true_eq] at hc
        exact this ⟨hc.2, hc.1.1⟩
      simp only [hcond, Bool.false_eq_true, if_false]

/-- The backward walk from the position of code point `m` by `k <= m` code
points ends on the position of code point `m - k`; asked for more than `m`, it
stops at the start with the excess left over. -/
theorem count_from_the_end_spec (data : List (Fin 256)) (length m : Nat)
    (hm : ∀ j, j < m → U16_FWD_N data length 0 j < length) :
    (∀ k, k ≤ m → count_from_the_end data (U16_FWD_N data length 0 m) k
        = (U16_FWD_N data length 0 (m - k), 0))
    ∧ (∀ e, count_from_the_end data (U16_FWD_N data length 0 m) (m + 1 + e) = (0, e + 1)) := by
  induction m with
  | zero =>
    constructor
    · intro k hk
      have : k = 0 := by omega
      subst this
      rw [count_from_the_end_zero]
    · intro e
      have e1 : 0 + 1 + e = e + 1 := by omega
      rw [e1]
      simp [U16_FWD_N, count_from_the_end]
  | succ n ih =>
    have hn := ih (fun j hj => hm j (by omega))
    have hlt := hm n (by omega)
    constructor
    · intro k hk
      cases k with
      | zero => rw [count_from_the_end_zero]; rfl
      | succ k' =>
        rw [count_from_the_end_step data length n k' hlt, hn.1 k' (by omega)]
        congr 2
        omega
    · intro e
      have e1 : n + 1 + 1 + e = (n + 1 + e) + 1 := by omega
      rw [e1, count_from_the_end_step data length n _ hlt]
      exact hn.2 e
theorem U16_FWD_N_ge (data : List (Fin 256)) (length m : Nat)
    (hm : ∀ j, j < m → U16_FWD_N data length 0 j < length) :
    m ≤ U16_FWD_N data length 0 m := by
  induction m with
  | zero => simp
  | succ n ih =>
    have h1 := ih (fun j hj => hm j (by omega))
    have h2 := hm n (by omega)
    rw [U16_FWD_N_succ]
    simp only [h2, if_true]
    have := (U16_FWD_1_bounds data _ length h2).1
    omega

/-- The boundaries computed by the surrogate walk for a negative index `-k`
inside the range of the units. -/
theorem str_get_character_boundaries_walk_neg (M : encoding_methods_t) (self : rb_str_t)
    (hu : str_is_stored_in_uchars self = true)
    (hwalk : str_known_not_to_have_any_supplementary self = false)
    (k : Nat) (hk1 : 1 ≤ k) (hk2 : (k : Int) ≤ BYTES_TO_UCHARS self.length_in_bytes) :
    str_get_character_boundaries M self (-(k : Int)) false
      = if (count_from_the_end self.data (BYTES_TO_UCHARS self.length_in_bytes).toNat k).2 ≠ 0
        then ⟨-1, -1⟩
        else
          let offset :=
            (count_from_the_end self.data (BYTES_TO_UCHARS self.length_in_bytes).toNat k).1
          ⟨UCHARS_TO_BYTES offset, UCHARS_TO_BYTES offset +
            (if U16_IS_LEAD (uchar_at self.data offset)
                && decide ((offset : Int) < BYTES_TO_UCHARS self.length_in_bytes - 1)
                && U16_IS_TRAIL (uchar_at self.data (offset + 1)) then UCHARS_TO_BYTES 2
             else UCHARS_TO_BYTES 1)⟩ := by
  have h1 : ¬ (-(k : Int) < -BYTES_TO_UCHARS self.length_in_bytes
      ∨ -(k : Int) ≥ BYTES_TO_UCHARS self.length_in_bytes) := by omega
  have h2 : -(k : Int) < 0 := by omega
  have h3 : (- -(k : Int)).toNat = k := by omega
  unfold str_get_character_boundaries
  simp only [hu, hwalk, if_true, Bool.false_or, Bool.false_eq_true, if_false, h1, h2, h3]
  by_cases hr : (count_from_the_end self.data (BYTES_TO_UCHARS self.length_in_bytes).toNat k).2 ≠ 0
  · simp only [hr, if_true, ne_eq, not_false_eq_true]
  · simp only [hr, if_false]

/-- The boundaries computed by the surrogate walk for an index `i >= 0` inside
the range of the units. -/
theorem str_get_character_boundaries_walk_pos (M : encoding_methods_t) (self : rb_str_t)
    (hu : str_is_stored_in_uchars self = true)
    (hwalk : str_known_not_to_have_any_supplementary self = false)
    (i : Nat) (hi : (i : Int) < BYTES_TO_UCHARS self.length_in_bytes) :
    str_get_character_boundaries M self (i : Int) false
      = if ((U16_FWD_N self.data (BYTES_TO_UCHARS self.length_in_bytes).toNat 0 i : Nat) : Int)
            ≥ BYTES_TO_UCHARS self.length_in_bytes
        then ⟨-1, -1⟩
        else
          let offset := U16_FWD_N self.data (BYTES_TO_UCHARS self.length_in_bytes).toNat 0 i
          ⟨UCHARS_TO_BYTES offset, UCHARS_TO_BYTES offset +
            (if U16_IS_LEAD (uchar_at self.data offset)
                && decide ((offset : Int) < BYTES_TO_UCHARS self.length_in_bytes - 1)
                && U16_IS_TRAIL (uchar_at self.data (offset + 1)) then UCHARS_TO_BYTES 2
             else UCHARS_TO_BYTES 1)⟩ := by
  have h1 : ¬ ((i : Int) < -BYTES_TO_UCHARS self.length_in_bytes
      ∨ (i : Int) ≥ BYTES_TO_UCHARS self.length_in_bytes) := by omega
  have h2 : ¬ ((i : Int) < 0) := by omega
  unfold str_get_character_boundaries
  simp only [hu, hwalk, if_true, Bool.false_or, Bool.false_eq_true, if_false, h1, h2,
    Int.toNat_ofNat]
  by_cases hr : ((U16_FWD_N self.data (BYTES_TO_UCHARS self.length_in_bytes).toNat 0 i : Nat) : Int)
      ≥ BYTES_TO_UCHARS self.length_in_bytes
  · simp only [hr, if_true]
  · simp only [hr, if_false]

/-- Negative indices on the surrogate walk: for a string stored as code units
with an even byte length, in code-point mode when the string is not known to be
free of supplementary pairs, index `-k` resolves as index `n - k` for
`1 <= k <= n`, and index `-n-1` is out of range, `n` being `str_length` in
code-point mode. -/
theorem str_get_character_boundaries_negative_walk (M : encoding_methods_t) (self : rb_str_t)
    (hu : str_is_stored_in_uchars self = true)
    (hwalk : str_known_not_to_have_any_supplementary self = false)
    (heven : ODD_NUMBER self.length_in_bytes = false)
    (hn : 1 ≤ str_length M self false) :
    (∀ k : Int, 1 ≤ k → k ≤ str_length M self false →
      str_get_character_boundaries M self (-k) false
        = str_get_character_boundaries M self (str_length M self false - k) false)
    ∧ str_get_character_boundaries M self (-(str_length M self false) - 1) false
        = ⟨-1, -1⟩ := by
  have hlen : str_length M self false
      = (u_countChar32 self.data 0 (BYTES_TO_UCHARS self.length_in_bytes).toNat : Nat) := by
    unfold str_length
    by_cases h0 : self.length_in_bytes = 0
    · simp [h0, BYTES_TO_UCHARS, u_countChar32]
    · simp [h0, hu, heven]
  rw [hlen] at hn ⊢
  generalize hN : (BYTES_TO_UCHARS self.length_in_bytes).toNat = N at hn ⊢
  have hspec := u_countChar32_spec self.data N N 0 (by omega)
  generalize hc : u_countChar32 self.data 0 N = c at hspec hn ⊢
  have hcN : c ≤ N := by
    have h1 := U16_FWD_N_ge self.data N (c - 1) (fun j hj => hspec.2 j (by omega))
    have h2 := hspec.2 (c - 1) (by omega)
    omega
  have hNint : (N : Int) = BYTES_TO_UCHARS self.length_in_bytes := by omega
  have hback := count_from_the_end_spec self.data N c hspec.2
  rw [hspec.1] at hback
  constructor
  · intro k hk1 hk2
    obtain ⟨kk, rfl⟩ : ∃ kk : Nat, k = kk := ⟨k.toNat, by omega⟩
    have e : ((c : Nat) : Int) - (kk : Int) = ((c - kk : Nat) : Int) := by omega
    rw [e, str_get_character_boundaries_walk_neg M self hu hwalk kk (by omega) (by omega),
      str_get_character_boundaries_walk_pos M self hu hwalk (c - kk) (by omega), hN,
      hback.1 kk (by omega)]
    have hlt := hspec.2 (c - kk) (by omega)
    have h1 : ¬ (((U16_FWD_N self.data N 0 (c - kk) : Nat) : Int)
        ≥ BYTES_TO_UCHARS self.length_in_bytes) := by omega
    simp only [ne_eq, not_true_eq_false, if_false, h1]
  · by_cases hout : c + 1 ≤ N
    · have e : -((c : Nat) : Int) - 1 = -((c + 1 : Nat) : Int) := by omega
      rw [e, str_get_character_boundaries_walk_neg M self hu hwalk (c + 1) (by omega) (by omega),
        hN, hback.2 0]
      simp
    · have h1 : -((c : Nat) : Int) - 1 < -BYTES_TO_UCHARS self.length_in_bytes
          ∨ -((c : Nat) : Int) - 1 ≥ BYTES_TO_UCHARS self.length_in_bytes := by omega
      unfold str_get_character_boundaries
      simp only [hu, hwalk, if_true, Bool.false_or, Bool.false_eq_true, if_false, h1]

/-- Without lead surrogates the forward walk advances one unit per code
point. -/
theorem U16_FWD_N_no_lead (data : List (Fin 256)) (length : Nat)
    (hns : ∀ j, j < length → U16_IS_LEAD (uchar_at data j) = false) (i n : Nat)
    (h : i + n ≤ length) : U16_FWD_N data length i n = i + n := by
  induction n generalizing i with
  | zero => rfl
  | succ m ih =>
    have hi : i < length := by omega
    have h1 : U16_FWD_1 data i length = i + 1 := by
      simp [U16_FWD_1, hns i hi]
    simp only [U16_FWD_N, hi, if_true, h1]
    rw [ih (i + 1) (by omega)]
    omega

/-- Substrings on the surrogate walk: for a string stored as code units
without surrogates, in code-point mode when the string is not known to be free
of supplementary pairs, and `0 <= first <= last` with `last` inside the units,
`str_get_characters` leaves the source as it was and returns the copy of the
bytes from `2 * first` up to `2 * last + 2`. -/
theorem str_get_characters_walk_no_surrogate (M : encoding_methods_t) (self : rb_str_t)
    (first last : Int) (hu : str_is_stored_in_uchars self = true)
    (hwalk : str_known_not_to_have_any_supplementary self = false)
    (hns : ∀ i : Nat, (i : Int) < BYTES_TO_UCHARS self.length_in_bytes →
      U16_IS_SURROGATE (uchar_at self.data i) = false)
    (h0 : 0 ≤ first) (hfl : first ≤ last) (hlt : last < BYTES_TO_UCHARS self.length_in_bytes) :
    str_get_characters M self first last false
      = (self, .ok (some (str_new_copy_of_part self (2 * first)
          (min (2 * last + 2) self.length_in_bytes - 2 * first)))) := by
  have hnl : ∀ j, j < (BYTES_TO_UCHARS self.length_in_bytes).toNat →
      U16_IS_LEAD (uchar_at self.data j) = false := by
    intro j hj
    have h16 := uchar_at_lt self.data j
    have hs := hns j (by omega)
    rw [U16_IS_SURROGATE_eq _ (by omega)] at hs
    rw [U16_IS_LEAD_eq _ (by omega)]
    simp only [decide_eq_false_iff_not] at hs ⊢
    omega
  have hb : ∀ index : Int, 0 ≤ index → index < BYTES_TO_UCHARS self.length_in_bytes →
      str_get_character_boundaries M self index false = ⟨2 * index, 2 * index + 2⟩ := by
    intro index hindex hin
    obtain ⟨i, rfl⟩ : ∃ i : Nat, index = i := ⟨index.toNat, by omega⟩
    rw [str_get_character_boundaries_walk_pos M self hu hwalk i hin,
      U16_FWD_N_no_lead self.data _ hnl 0 i (by omega)]
    have h1 : ¬ (((0 + i : Nat) : Int) ≥ BYTES_TO_UCHARS self.length_in_bytes) := by
      push_cast; omega
    simp only [h1, if_false, hnl (0 + i) (by omega), Bool.false_and, Bool.false_eq_true]
    simp [UCHARS_TO_BYTES]
    omega
  have hlen : self.length_in_bytes ≠ 0 := by
    unfold BYTES_TO_UCHARS at hlt
    omega
  have hle : 2 * last + 2 ≤ self.length_in_bytes := by
    unfold BYTES_TO_UCHARS at hlt
    omega
  have h1 : 2 * first ≠ -1 := by omega
  have h2 : 2 * last + 2 ≠ -1 := by omega
  have h3 : 2 * first ≠ self.length_in_bytes := by omega
  have h4 : ¬ (2 * first > self.length_in_bytes) := by omega
  unfold str_get_characters
  simp only [hlen, if_false, hu, Bool.not_true, Bool.and_false, Bool.false_eq_true]
  rw [hb first h0 (by omega), hb last (by omega) hlt]
  simp only [h1, h2, h3, h4, if_false]
  congr 4
  by_cases h5 : 2 * last + 2 ≥ self.length_in_bytes
  · simp only [h5, if_true]; omega
  · simp only [h5, if_false]; omega

/-! ## The supporting statements at concrete strings -/

/-- Cutting at the lead surrogate of D800 DC00 0041 in code-unit mode
raises. -/
theorem str_get_characters_on_lead_example :
    (str_get_characters unused_encoding_methods pair_then_A 0 0 true).2
      = .error str_cannot_cut_surrogate :=
  str_get_characters_on_lead unused_encoding_methods pair_then_A 0 (by decide) (by decide)
    (by decide) (by decide)

/-- Negative indices on U+10000 "a" "b", three code points resolved by the
surrogate walk. -/
theorem str_get_character_boundaries_negative_walk_example :
    str_length unused_encoding_methods utf8_pair_a_b false = 3
    ∧ str_get_character_boundaries unused_encoding_methods utf8_pair_a_b (-3) false = ⟨0, 4⟩
    ∧ ((∀ k : Int, 1 ≤ k → k ≤ str_length unused_encoding_methods utf8_pair_a_b false →
        str_get_character_boundaries unused_encoding_methods utf8_pair_a_b (-k) false
          = str_get_character_boundaries unused_encoding_methods utf8_pair_a_b
              (str_length unused_encoding_methods utf8_pair_a_b false - k) false)
      ∧ str_get_character_boundaries unused_encoding_methods utf8_pair_a_b
          (-(str_length unused_encoding_methods utf8_pair_a_b false) - 1) false = ⟨-1, -1⟩) :=
  ⟨by decide, by decide,
    str_get_character_boundaries_negative_walk unused_encoding_methods utf8_pair_a_b
      (by decide) (by decide) (by decide) (by decide)⟩

/-- The substring 1..2 of "abc" in code-point mode is "bc". -/
theorem str_get_characters_walk_no_surrogate_example :
    str_get_characters unused_encoding_methods utf8_abc 1 2 false
      = (utf8_abc, .ok (some (str_new_copy_of_part utf8_abc (2 * 1)
          (min (2 * 2 + 2) utf8_abc.length_in_bytes - 2 * 1))))
    ∧ (str_new_copy_of_part utf8_abc (2 * 1)
          (min (2 * 2 + 2) utf8_abc.length_in_bytes - 2 * 1)).data = [0x62, 0, 0x63, 0] :=
  ⟨str_get_characters_walk_no_surrogate unused_encoding_methods utf8_abc 1 2 (by decide)
      (by decide)
      (fun i hi => by
        have h3 : BYTES_TO_UCHARS utf8_abc.length_in_bytes = 3 := by decide
        rw [h3] at hi
        have hi3 : i < 3 := by omega
        interval_cases i <;> decide)
      (by decide) (by decide) (by decide),
    by decide⟩

/-- The substring 0..5 of the ISO-8859-1 string "A" is "A": the end is
clamped. -/
theorem str_get_characters_single_byte_example :
    str_get_characters unused_encoding_methods latin1_A 0 5 false
      = (latin1_A, .ok (some (str_new_copy_of_part latin1_A 0
          (min (5 + 1) latin1_A.length_in_bytes - 0)))) :=
  str_get_characters_single_byte unused_encoding_methods latin1_A 0 5 false (by decide)
    (by decide) (by decide) (by decide) (by decide)

/-- In code-unit mode the start offset of index 2 of "abc" converts back to
2. -/
theorem str_offset_in_bytes_to_index_of_start_example :
    str_offset_in_bytes_to_index unused_encoding_methods utf8_abc
      (str_get_character_boundaries unused_encoding_methods utf8_abc (2 : Nat) true).start_offset_in_bytes
      true = some ((2 : Nat) : Int) :=
  str_offset_in_bytes_to_index_of_start unused_encoding_methods utf8_abc 2 true (by decide)
    (by decide) (by decide) (by decide)

/-! ## A start at or past the end of the string -/

/-- The empty string made by `str_new_similar_empty_string`: the encoding of
the source and no bytes. -/
theorem str_new_similar_empty_string_spec (self : rb_str_t) :
    (str_new_similar_empty_string self).encoding = self.encoding
    ∧ (str_new_similar_empty_string self).length_in_bytes = 0 := by
  simp [str_new_similar_empty_string, str_keep_required_flags, str_alloc]

/-- Substrings of an empty source: `first == 0` gives an empty string of the
encoding of the source, any other `first` gives `NULL`. -/
theorem str_get_characters_empty_source (M : encoding_methods_t) (self : rb_str_t)
    (first last : Int) (ucs2_mode : Bool) (hlen : self.length_in_bytes = 0) :
    (first = 0 → str_get_characters M self first last ucs2_mode
        = (self, .ok (some (str_new_similar_empty_string self))))
    ∧ (first ≠ 0 → str_get_characters M self first last ucs2_mode = (self, .ok none)) := by
  unfold str_get_characters
  constructor
  · intro h; simp [hlen, h]
  · intro h; simp [hlen, h]

/-- A start exactly at the end of a single-byte string held as raw bytes gives
an empty string. -/
theorem str_get_characters_at_end_single_byte (M : encoding_methods_t) (self : rb_str_t)
    (last : Int) (ucs2_mode : Bool) (hraw : str_is_stored_in_uchars self = false)
    (hsb : self.encoding.single_byte_encoding = true) (hlen : 0 < self.length_in_bytes)
    (hl : self.length_in_bytes ≤ last) :
    str_length M self ucs2_mode = self.length_in_bytes
    ∧ str_get_characters M self (str_length M self ucs2_mode) last ucs2_mode
        = (self, .ok (some (str_new_similar_empty_string self))) := by
  have hn : str_length M self ucs2_mode = self.length_in_bytes := by
    unfold str_length
    have h0 : self.length_in_bytes ≠ 0 := by omega
    simp [h0, hraw, hsb]
  refine ⟨hn, ?_⟩
  rw [hn]
  have hb : ∀ index : Int, 0 ≤ index →
      str_get_character_boundaries M self index ucs2_mode = ⟨index, index + 1⟩ := by
    intro index hindex
    have h1 : ¬ (index < 0) := by omega
    unfold str_get_character_boundaries
    simp [hraw, hsb, h1]
  have h0 : self.length_in_bytes ≠ 0 := by omega
  have h1 : self.length_in_bytes ≠ -1 := by omega
  have h2 : last + 1 ≠ -1 := by omega
  unfold str_get_characters
  simp only [h0, if_false, hsb, Bool.not_true, Bool.false_and, Bool.false_eq_true]
  rw [hb _ (by omega), hb last (by omega)]
  simp only [h1, h2, if_false, if_true]

/-- In code-unit mode the boundaries of an index at or past the end of the
units of a string stored as code units. -/
theorem str_get_character_boundaries_ucs2_past_end (M : encoding_methods_t) (self : rb_str_t)
    (index : Int) (hu : str_is_stored_in_uchars self = true) (h0 : 0 ≤ index)
    (hi : BYTES_TO_UCHARS self.length_in_bytes ≤ index) :
    str_get_character_boundaries M self index true = ⟨2 * index, 2 * index + 2⟩ := by
  have h1 : ¬ (index < 0) := by omega
  have h2 : UCHARS_TO_BYTES index = 2 * index := by unfold UCHARS_TO_BYTES; omega
  have h3 : ¬ (index < BYTES_TO_UCHARS self.length_in_bytes) := by omega
  unfold str_get_character_boundaries
  simp [hu, h1, h2, h3]

/-- In code-unit mode a start exactly at the end of a string stored as code
units with an even byte length gives an empty string. -/
theorem str_get_characters_at_end_ucs2 (M : encoding_methods_t) (self : rb_str_t)
    (last : Int) (hu : str_is_stored_in_uchars self = true)
    (heven : ODD_NUMBER self.length_in_bytes = false) (hlen : 0 < self.length_in_bytes)
    (hl : str_length M self true ≤ last) :
    str_get_characters M self (str_length M self true) last true
      = (self, .ok (some (str_new_similar_empty_string self))) := by
  have h0 : self.length_in_bytes ≠ 0 := by omega
  have hn : str_length M self true = BYTES_TO_UCHARS self.length_in_bytes := by
    unfold str_length
    simp [h0, hu, heven]
  rw [hn] at hl ⊢
  have he : self.length_in_bytes % 2 = 0 := by
    unfold ODD_NUMBER at heven
    simp at heven
    omega
  have hB : 0 ≤ BYTES_TO_UCHARS self.length_in_bytes := by unfold BYTES_TO_UCHARS; omega
  have h1 : 2 * BYTES_TO_UCHARS self.length_in_bytes = self.length_in_bytes := by
    unfold BYTES_TO_UCHARS; omega
  have h2 : self.length_in_bytes ≠ -1 := by omega
  have h3 : 2 * last + 2 ≠ -1 := by omega
  unfold str_get_characters
  simp only [h0, if_false, hu, Bool.not_true, Bool.and_false, Bool.false_eq_true]
  rw [str_get_character_boundaries_ucs2_past_end M self _ hu hB (le_refl _),
    str_get_character_boundaries_ucs2_past_end M self last hu (by omega) hl]
  simp only [h1, h2, h3, if_false, if_true]

/-- C11 (the code at the failing input): "abc" stored as code units, nothing
cached, has 3 characters in code-point mode; `str_get_characters` with
`first = 3` returns `NULL` for `last = 2` and raises the IndexError of
`str_cannot_cut_surrogate` for `last = 3`, where code-unit mode returns the
empty string.  The same happens when the flag cache is filled: U+10000 "a" "b",
known to hold a supplementary pair, has 3 characters and `first = 3` gives
`NULL` or the IndexError.  In code-unit mode the odd-length string of the
UTF-16BE bytes 00 61 62 has 2 characters and `first = 2` gives `NULL`. -/
theorem str_get_characters_at_end_walk_is_not_empty :
    (str_length unused_encoding_methods utf8_abc false = 3
      ∧ (str_get_characters unused_encoding_methods utf8_abc 3 2 false).2 = .ok none
      ∧ (str_get_characters unused_encoding_methods utf8_abc 3 3 false).2
          = .error str_cannot_cut_surrogate
      ∧ (str_get_characters unused_encoding_methods utf8_abc 3 3 true).2
          = .ok (some (str_new_similar_empty_string utf8_abc)))
    ∧ (str_length unused_encoding_methods utf8_pair_a_b false = 3
      ∧ utf8_pair_a_b.has_supplementary = some true
      ∧ (str_get_characters unused_encoding_methods utf8_pair_a_b 3 2 false).2 = .ok none
      ∧ (str_get_characters unused_encoding_methods utf8_pair_a_b 3 3 false).2
          = .error str_cannot_cut_surrogate)
    ∧ (str_length unused_encoding_methods utf16be_odd true = 2
      ∧ (str_get_characters unused_encoding_methods utf16be_odd 2 2 true).2 = .ok none) := by
  decide

/-- A start past the end of a single-byte string held as raw bytes gives
`NULL`. -/
theorem str_get_characters_past_end_single_byte (M : encoding_methods_t) (self : rb_str_t)
    (first last : Int) (ucs2_mode : Bool) (hraw : str_is_stored_in_uchars self = false)
    (hsb : self.encoding.single_byte_encoding = true) (hlen : 0 < self.length_in_bytes)
    (hf : str_length M self ucs2_mode < first) (hl : first ≤ last) :
    str_get_characters M self first last ucs2_mode = (self, .ok none) := by
  have hn : str_length M self ucs2_mode = self.length_in_bytes := by
    unfold str_length
    have h0 : self.length_in_bytes ≠ 0 := by omega
    simp [h0, hraw, hsb]
  rw [hn] at hf
  have hb : ∀ index : Int, 0 ≤ index →
      str_get_character_boundaries M self index ucs2_mode = ⟨index, index + 1⟩ := by
    intro index hindex
    have h1 : ¬ (index < 0) := by omega
    unfold str_get_character_boundaries
    simp [hraw, hsb, h1]
  have h0 : self.length_in_bytes ≠ 0 := by omega
  have h1 : first ≠ -1 := by omega
  have h2 : last + 1 ≠ -1 := by omega
  have h3 : first ≠ self.length_in_bytes := by omega
  have h4 : first > self.length_in_bytes := by omega
  unfold str_get_characters
  simp only [h0, if_false, hsb, Bool.not_true, Bool.false_and, Bool.false_eq_true]
  rw [hb first (by omega), hb last (by omega)]
  simp only [h1, h2, h3, h4, if_false, if_true]

/-- In code-unit mode a start past the end of a string stored as code units
gives `NULL`, whatever the parity of the byte length. -/
theorem str_get_characters_past_end_ucs2 (M : encoding_methods_t) (self : rb_str_t)
    (first last : Int) (hu : str_is_stored_in_uchars self = true)
    (hlen : 0 < self.length_in_bytes)
    (hf : str_length M self true < first) (hl : first ≤ last) :
    str_get_characters M self first last true = (self, .ok none) := by
  have h0 : self.length_in_bytes ≠ 0 := by omega
  have hn : str_length M self true = div_round_up self.length_in_bytes 2 := by
    unfold str_length div_round_up BYTES_TO_UCHARS ODD_NUMBER
    simp only [h0, hu, if_true, if_false]
    split_ifs with h1
    · simp at h1; omega
    · simp at h1; omega
  rw [hn] at hf
  unfold div_round_up at hf
  have hB : BYTES_TO_UCHARS self.length_in_bytes ≤ first := by unfold BYTES_TO_UCHARS; omega
  have h1 : 2 * first ≠ -1 := by omega
  have h2 : 2 * last + 2 ≠ -1 := by omega
  have h3 : 2 * first ≠ self.length_in_bytes := by omega
  have h4 : 2 * first > self.length_in_bytes := by omega
  unfold str_get_characters
  simp only [h0, if_false, hu, Bool.not_true, Bool.and_false, Bool.false_eq_true]
  rw [str_get_character_boundaries_ucs2_past_end M self first hu (by omega) hB,
    str_get_character_boundaries_ucs2_past_end M self last hu (by omega) (by omega)]
  simp only [h1, h2, h3, h4, if_false, if_true]

/-- The compatibility check changes nothing of `str2` but its cached flags. -/
theorem str_compatible_encoding_frame (M : encoding_methods_t) (str1 str2 : rb_str_t) :
    (str_compatible_encoding M str1 str2).2.data = str2.data
    ∧ (str_compatible_encoding M str1 str2).2.length_in_bytes = str2.length_in_bytes
    ∧ (str_compatible_encoding M str1 str2).2.capacity_in_bytes = str2.capacity_in_bytes
    ∧ (str_compatible_encoding M str1 str2).2.stored_in_uchars = str2.stored_in_uchars
    ∧ (str_compatible_encoding M str1 str2).2.encoding = str2.encoding := by
  rcases (str_compatible_encoding_snd M str1 str2).2 with h | h
  · rw [h]; simp
  · rw [h]; exact str_update_flags_frame M str2

/-- Two strings already in the same storage format are left as they are by
`str_make_same_format`. -/
theorem str_make_same_format_same (M : encoding_methods_t) (str1 str2 : rb_str_t)
    (h : str_is_stored_in_uchars str1 = str_is_stored_in_uchars str2) :
    str_make_same_format M str1 str2 = (str1, str2) := by
  unfold str_make_same_format
  simp [h]

/-- Every result of the scanning loop is -1 or an offset reached from the
start by whole increments. -/
theorem offset_for_string_loop_form (data searched_data : List (Fin 256))
    (searched_length increment max_offset_in_bytes : Int) (fuel : Nat) (offset_in_bytes r : Int)
    (h : offset_for_string_loop data searched_data searched_length increment
      max_offset_in_bytes fuel offset_in_bytes = some r) :
    r = -1 ∨ ∃ j : Nat, r = offset_in_bytes + j * increment := by
  induction fuel generalizing offset_in_bytes with
  | zero =>
    unfold offset_for_string_loop at h
    split_ifs at h
    left
    exact (Option.some.inj h).symm
  | succ n ih =>
    unfold offset_for_string_loop at h
    split_ifs at h with h1 h2
    · right
      exact ⟨0, by simpa using (Option.some.inj h).symm⟩
    · rcases ih _ h with hr | ⟨j, hj⟩
      · left; exact hr
      · right
        exact ⟨j + 1, by rw [hj]; push_cast; ring⟩
    · left
      exact (Option.some.inj h).symm

/-- The scanning loop with a positive increment and enough fuel returns: -1
when no window at an offset `offset + j * increment` below the bound matches,
otherwise the first such offset whose window matches. -/
theorem offset_for_string_loop_spec (data searched_data : List (Fin 256))
    (searched_length increment max_offset_in_bytes : Int) (hinc : 0 < increment)
    (fuel : Nat) (offset_in_bytes : Int)
    (hfuel : max_offset_in_bytes - offset_in_bytes ≤ fuel) :
    (offset_for_string_loop data searched_data searched_length increment
        max_offset_in_bytes fuel offset_in_bytes = some (-1)
      ∧ ∀ j : Nat, offset_in_bytes + j * increment < max_offset_in_bytes →
          memcmp_is_zero data (offset_in_bytes + j * increment).toNat searched_data
            searched_length.toNat = false)
    ∨ ∃ j : Nat,
        offset_for_string_loop data searched_data searched_length increment
          max_offset_in_bytes fuel offset_in_bytes = some (offset_in_bytes + j * increment)
        ∧ offset_in_bytes + j * increment < max_offset_in_bytes
        ∧ memcmp_is_zero data (offset_in_bytes + j * increment).toNat searched_data
            searched_length.toNat = true
        ∧ ∀ i : Nat, i < j →
            memcmp_is_zero data (offset_in_bytes + i * increment).toNat searched_data
              searched_length.toNat = false := by
  induction fuel generalizing offset_in_bytes with
  | zero =>
    left
    have h1 : ¬ (offset_in_bytes < max_offset_in_bytes) := by
      push_cast at hfuel; omega
    refine ⟨by simp [offset_for_string_loop, h1], ?_⟩
    intro j hj
    have : 0 ≤ (j : Int) * increment := mul_nonneg (by positivity) (le_of_lt hinc)
    omega
  | succ n ih =>
    by_cases h1 : offset_in_bytes < max_offset_in_bytes
    · by_cases h2 : memcmp_is_zero data offset_in_bytes.toNat searched_data
          searched_length.toNat = true
      · right
        refine ⟨0, ?_, ?_, ?_, ?_⟩
        · simp [offset_for_string_loop, h1, h2]
        · simpa using h1
        · simpa using h2
        · intro i hi; omega
      · have h2f : memcmp_is_zero data offset_in_bytes.toNat searched_data
            searched_length.toNat = false := by simpa using h2
        have hstep : offset_for_string_loop data searched_data searched_length increment
            max_offset_in_bytes (n + 1) offset_in_bytes
            = offset_for_string_loop data searched_data searched_length increment
                max_offset_in_bytes n (offset_in_bytes + increment) := by
          rw [offset_for_string_loop]
          simp [h1, h2f]
        have hshift : ∀ j : Nat, offset_in_bytes + increment + (j : Int) * increment
            = offset_in_bytes + ((j + 1 : Nat) : Int) * increment := by
          intro j; push_cast; ring
        rcases ih (offset_in_bytes + increment) (by push_cast at hfuel ⊢; omega) with
          ⟨hr, hno⟩ | ⟨j, hr, hlt, hm, hfirst⟩
        · left
          refine ⟨by rw [hstep, hr], ?_⟩
          intro j hj
          cases j with
          | zero => simpa using h2f
          | succ k =>
            rw [← hshift k] at hj ⊢
            exact hno k hj
        · right
          refine ⟨j + 1, ?_, ?_, ?_, ?_⟩
          · rw [hstep, hr, hshift j]
          · rw [← hshift j]; exact hlt
          · rw [← hshift j]; exact hm
          · intro i hi
            cases i with
            | zero => simpa using h2f
            | succ k =>
              rw [← hshift k]
              exact hfirst k (by omega)
    · left
      refine ⟨by simp [offset_for_string_loop, h1], ?_⟩
      intro j hj
      have : 0 ≤ (j : Int) * increment := mul_nonneg (by positivity) (le_of_lt hinc)
      omega
/-- C13: for a haystack and a non-empty needle with compatible encodings and
the same storage format, and `0 <= start < haystack byte length`,
`str_offset_in_bytes_for_string` returns an offset `r` such that: if `r != -1`
then `r >= start`, `r + needle length <= haystack length`, the haystack bytes
at `[r, r + needle length)` are the needle bytes, and `r` is the smallest
offset of the form `start + j * stride` with that property; if `r == -1` then
no offset of that form whose window fits in the haystack matches.  The stride
is 2 for code-unit storage and the minimum character size of the encoding
otherwise, a positive number. -/
theorem str_offset_in_bytes_for_string_spec (M : encoding_methods_t) (identical : Bool)
    (self searched : rb_str_t) (start stride : Int)
    (hid : identical = true → searched = self)
    (hne : 0 < searched.length_in_bytes)
    (hcompat : (str_compatible_encoding M self searched).1 ≠ none)
    (hfmt : str_is_stored_in_uchars self = str_is_stored_in_uchars searched)
    (h0 : 0 ≤ start) (hlt : start < self.length_in_bytes)
    (hstride : stride
      = if str_is_stored_in_uchars self then (2 : Int) else (self.encoding.min_char_size : Int))
    (hpos : 0 < stride) :
    ∃ r : Int,
      (str_offset_in_bytes_for_string M identical self searched start).2 = .ok (some r)
      ∧ (r ≠ -1 →
          start ≤ r ∧ r + searched.length_in_bytes ≤ self.length_in_bytes
          ∧ read_bytes self.data r.toNat searched.length_in_bytes.toNat = str_bytes searched
          ∧ ∃ j : Nat, r = start + j * stride
              ∧ ∀ i : Nat, i < j →
                  read_bytes self.data (start + i * stride).toNat
                    searched.length_in_bytes.toNat ≠ str_bytes searched)
      ∧ (r = -1 →
          ∀ j : Nat, start + j * stride + searched.length_in_bytes ≤ self.length_in_bytes →
            read_bytes self.data (start + j * stride).toNat searched.length_in_bytes.toNat
              ≠ str_bytes searched) := by
  have hfr := str_compatible_encoding_frame M self searched
  obtain ⟨enc, henc⟩ : ∃ enc, (str_compatible_encoding M self searched).1 = some enc := by
    cases h : (str_compatible_encoding M self searched).1 with
    | none => exact absurd h hcompat
    | some enc => exact ⟨enc, rfl⟩
  have hfmt2 : str_is_stored_in_uchars self
      = str_is_stored_in_uchars (str_compatible_encoding M self searched).2 := by
    unfold str_is_stored_in_uchars at hfmt ⊢
    rw [hfr.2.2.2.1]; exact hfmt
  have h1 : ¬ (start ≥ self.length_in_bytes) := by omega
  have h2 : searched.length_in_bytes ≠ 0 := by omega
  by_cases hz : (identical && decide (start = 0)) = true
  · -- the same object searched from the start
    simp only [Bool.and_eq_true, decide_eq_true_eq] at hz
    have hs := hid hz.1
    subst hs
    refine ⟨0, ?_, ?_, ?_⟩
    · unfold str_offset_in_bytes_for_string
      rw [if_neg h1]
      simp [hz.1, hz.2]
    · intro _
      refine ⟨by omega, by omega, rfl, 0, by simp [hz.2], ?_⟩
      intro i hi; omega
    · intro h; omega
  · have hres : (str_offset_in_bytes_for_string M identical self searched start).2
        = if searched.length_in_bytes > self.length_in_bytes then .ok (some (-1))
          else .ok (offset_for_string_loop self.data searched.data searched.length_in_bytes
            stride (self.length_in_bytes - searched.length_in_bytes + 1)
            (self.length_in_bytes - searched.length_in_bytes + 1 - start).toNat start) := by
      unfold str_offset_in_bytes_for_string str_must_have_compatible_encoding
      simp only [h1, if_false, hz, h2, henc, Bool.false_eq_true]
      rw [str_make_same_format_same M self _ hfmt2]
      simp only [hfr.1, hfr.2.1, ← hstride]
      split_ifs <;> rfl
    rw [hres]
    have hwin : ∀ o : Int,
        (memcmp_is_zero self.data o.toNat searched.data searched.length_in_bytes.toNat = true
          ↔ read_bytes self.data o.toNat searched.length_in_bytes.toNat = str_bytes searched) := by
      intro o
      simp [memcmp_is_zero, str_bytes]
    by_cases hlong : searched.length_in_bytes > self.length_in_bytes
    · refine ⟨-1, by simp [hlong], by simp, ?_⟩
      intro _ j hj
      have : 0 ≤ (j : Int) * stride := mul_nonneg (by positivity) (le_of_lt hpos)
      omega
    · simp only [hlong, if_false]
      rcases offset_for_string_loop_spec self.data searched.data searched.length_in_bytes
          stride (self.length_in_bytes - searched.length_in_bytes + 1) hpos
          (self.length_in_bytes - searched.length_in_bytes + 1 - start).toNat start
          (by omega) with ⟨hr, hno⟩ | ⟨j, hr, hjlt, hm, hfirst⟩
      · refine ⟨-1, by rw [hr], by simp, ?_⟩
        intro _ j hj
        have := hno j (by omega)
        intro hc
        rw [← hwin] at hc
        rw [hc] at this
        exact Bool.noConfusion this
      · have hj0 : 0 ≤ (j : Int) * stride := mul_nonneg (by positivity) (le_of_lt hpos)
        refine ⟨start + j * stride, by rw [hr], ?_, ?_⟩
        · intro _
          refine ⟨by omega, by omega, (hwin _).1 hm, j, rfl, ?_⟩
          intro i hi hc
          rw [← hwin] at hc
          rw [hfirst i hi] at hc
          exact Bool.noConfusion hc
        · intro h; omega
/-- C13 (witness): searching "ca" in "abcabc" (ISO-8859-1, raw bytes) from
byte offset 1. -/
theorem str_offset_in_bytes_for_string_spec_witness :
    ((false = true → latin1_ca = latin1_abcabc)
      ∧ 0 < latin1_ca.length_in_bytes
      ∧ (str_compatible_encoding unused_encoding_methods latin1_abcabc latin1_ca).1 ≠ none
      ∧ str_is_stored_in_uchars latin1_abcabc = str_is_stored_in_uchars latin1_ca
      ∧ (0 : Int) ≤ 1 ∧ 1 < latin1_abcabc.length_in_bytes
      ∧ (1 : Int) = (if str_is_stored_in_uchars latin1_abcabc then (2 : Int)
          else (latin1_abcabc.encoding.min_char_size : Int)))
    ∧ (str_offset_in_bytes_for_string unused_encoding_methods false latin1_abcabc latin1_ca 1).2
        = .ok (some 2)
    ∧ ∃ r : Int,
      (str_offset_in_bytes_for_string unused_encoding_methods false latin1_abcabc latin1_ca 1).2
        = .ok (some r)
      ∧ (r ≠ -1 →
          1 ≤ r ∧ r + latin1_ca.length_in_bytes ≤ latin1_abcabc.length_in_bytes
          ∧ read_bytes latin1_abcabc.data r.toNat latin1_ca.length_in_bytes.toNat
              = str_bytes latin1_ca
          ∧ ∃ j : Nat, r = 1 + j * 1
              ∧ ∀ i : Nat, i < j →
                  read_bytes latin1_abcabc.data (1 + i * 1 : Int).toNat
                    latin1_ca.length_in_bytes.toNat ≠ str_bytes latin1_ca)
      ∧ (r = -1 →
          ∀ j : Nat, 1 + j * 1 + latin1_ca.length_in_bytes ≤ latin1_abcabc.length_in_bytes →
            read_bytes latin1_abcabc.data (1 + j * 1 : Int).toNat
              latin1_ca.length_in_bytes.toNat ≠ str_bytes latin1_ca) :=
  ⟨⟨by decide, by decide, by decide, by decide, by decide, by decide, by decide⟩,
    by decide,
    str_offset_in_bytes_for_string_spec unused_encoding_methods false latin1_abcabc latin1_ca
      1 1 (by decide) (by decide) (by decide) (by decide) (by decide) (by decide) (by decide)
      (by decide)⟩

/-- C14 (as amended): when the haystack is stored as code units at the time of
the scan (after `str_make_same_format`; this is the case whenever the needle is
stored as code units too) and the start offset is even, a non-negative result
of `str_offset_in_bytes_for_string` is never odd. -/
theorem str_offset_in_bytes_for_string_even (M : encoding_methods_t) (identical : Bool)
    (self searched : rb_str_t) (start r : Int)
    (hu : str_is_stored_in_uchars
      (str_offset_in_bytes_for_string M identical self searched start).1.1 = true)
    (heven : start % 2 = 0)
    (hr : (str_offset_in_bytes_for_string M identical self searched start).2 = .ok (some r))
    (h0 : 0 ≤ r) : r % 2 = 0 := by
  unfold str_offset_in_bytes_for_string at hu hr
  split_ifs at hu hr with h1 h2 h3
  · simp at hr; omega
  · simp at hr; omega
  · simp at hr; omega
  · cases hchk : (str_must_have_compatible_encoding M self searched).1 with
    | error e => simp [hchk] at hr
    | ok enc =>
      simp only [hchk] at hu hr
      split_ifs at hu hr with h4 h5
      · simp at hr; omega
      · simp only [Except.ok.injEq] at hr
        rcases offset_for_string_loop_form _ _ _ _ _ _ _ _ hr with h | ⟨j, hj⟩
        · omega
        · omega
      · exact absurd hu h5

/-- Two strings both stored as code units: the haystack is still stored as
code units after the call. -/
theorem str_offset_in_bytes_for_string_keeps_uchars (M : encoding_methods_t)
    (identical : Bool) (self searched : rb_str_t) (start : Int)
    (hs : str_is_stored_in_uchars self = true) (hn : str_is_stored_in_uchars searched = true) :
    str_is_stored_in_uchars
      (str_offset_in_bytes_for_string M identical self searched start).1.1 = true := by
  have hfr := str_compatible_encoding_frame M self searched
  have hfmt : str_is_stored_in_uchars self
      = str_is_stored_in_uchars (str_must_have_compatible_encoding M self searched).2 := by
    unfold str_must_have_compatible_encoding str_is_stored_in_uchars
    unfold str_is_stored_in_uchars at hs hn
    cases h : (str_compatible_encoding M self searched).1 <;> simp [h, hfr.2.2.2.1, hs, hn]
  unfold str_offset_in_bytes_for_string
  split_ifs with h1 h2 h3
  · exact hs
  · exact hs
  · exact hs
  · cases hchk : (str_must_have_compatible_encoding M self searched).1 with
    | error e => simpa [hchk] using hs
    | ok enc =>
      simp only [hchk]
      rw [str_make_same_format_same M self _ hfmt]
      split_ifs <;> exact hs

/-- C14 (counterexample): the haystack 6161 6161 and the needle 6161 are both
stored as code units; searched from byte offset 1, the needle is reported at
byte offset 1, in the middle of a code unit. -/
theorem str_offset_in_bytes_for_string_odd_start :
    str_is_stored_in_uchars units_6161_6161 = true
    ∧ str_is_stored_in_uchars unit_6161 = true
    ∧ (str_offset_in_bytes_for_string unused_encoding_methods false units_6161_6161
        unit_6161 1).2 = .ok (some 1) := by
  decide

/-- C14 (witness): the needle 6161 searched in the haystack 6161 6161 from
byte offset 2 is found at byte offset 2. -/
theorem str_offset_in_bytes_for_string_even_witness :
    (str_is_stored_in_uchars
        (str_offset_in_bytes_for_string unused_encoding_methods false units_6161_6161
          unit_6161 2).1.1 = true
      ∧ (2 : Int) % 2 = 0
      ∧ (str_offset_in_bytes_for_string unused_encoding_methods false units_6161_6161
          unit_6161 2).2 = .ok (some 2)
      ∧ (0 : Int) ≤ 2)
    ∧ (2 : Int) % 2 = 0 :=
  ⟨⟨by decide, by decide, by decide, by decide⟩,
    str_offset_in_bytes_for_string_even unused_encoding_methods false units_6161_6161
      unit_6161 2 2 (by decide) (by decide) (by decide) (by decide)⟩

/-! ## Concatenation -/

theorem read_bytes_length (data : List (Fin 256)) (offset n : Nat) :
    (read_bytes data offset n).length = n := by
  simp [read_bytes]

theorem read_bytes_prefix (a rest : List (Fin 256)) :
    read_bytes (a ++ rest) 0 a.length = a := by
  apply List.ext_getElem
  · simp [read_bytes]
  · intro i h1 h2
    simp only [read_bytes, List.getElem_map, List.getElem_range, Nat.zero_add]
    rw [List.getD_eq_getElem _ _ (by simp; omega), List.getElem_append_left h2]

theorem read_bytes_idem (data : List (Fin 256)) (n : Nat) :
    read_bytes (read_bytes data 0 n) 0 n = read_bytes data 0 n := by
  have h := read_bytes_prefix (read_bytes data 0 n) []
  rw [read_bytes_length, List.append_nil] at h
  exact h

/-- The bytes of a buffer after `memcpy(dst + offset, src, n)`, read up to
`offset + n`: the first `offset` bytes of `dst`, then the first `n` bytes of
`src`. -/
theorem read_bytes_memcpy (dst src : List (Fin 256)) (offset n : Nat) :
    read_bytes (memcpy dst offset src 0 n) 0 (offset + n)
      = read_bytes dst 0 offset ++ read_bytes src 0 n := by
  have h := read_bytes_prefix (read_bytes dst 0 offset ++ read_bytes src 0 n)
    (dst.drop (offset + n))
  simp only [List.length_append, read_bytes_length] at h
  exact h

/-- Concatenation onto an empty string: `self` takes the bytes, length and
encoding of `other`. -/
theorem str_concat_string_onto_empty (M : encoding_methods_t) (self other : rb_str_t)
    (h1 : self.length_in_bytes = 0) (hpos : 0 < other.length_in_bytes) :
    (str_concat_string M self other).2 = .ok ()
    ∧ str_bytes (str_concat_string M self other).1.1 = str_bytes other
    ∧ (str_concat_string M self other).1.1.length_in_bytes = other.length_in_bytes
    ∧ (str_concat_string M self other).1.1.encoding = other.encoding
    ∧ (str_concat_string M self other).1.2 = other := by
  have h2 : other.length_in_bytes ≠ 0 := by omega
  simp only [str_concat_string, h1, h2, if_true, if_false]
  simp [str_replace_with_string, str_replace_with_bytes, str_clear_flags, hpos, str_bytes,
    memcpy_into_empty, read_bytes_idem]

/-- Concatenation of two non-empty strings with compatible encodings and the
same storage format: the bytes of `other` are appended to those of `self`. -/
theorem str_concat_string_append (M : encoding_methods_t) (self other : rb_str_t)
    (hs : 0 < self.length_in_bytes) (ho : 0 < other.length_in_bytes)
    (hc : (str_compatible_encoding M self other).1 ≠ none)
    (hfmt : str_is_stored_in_uchars self = str_is_stored_in_uchars other) :
    (str_concat_string M self other).2 = .ok ()
    ∧ str_bytes (str_concat_string M self other).1.1 = str_bytes self ++ str_bytes other
    ∧ (str_concat_string M self other).1.1.length_in_bytes
        = self.length_in_bytes + other.length_in_bytes
    ∧ (str_concat_string M self other).1.1.encoding = self.encoding
    ∧ (str_concat_string M self other).1.2.data = other.data
    ∧ str_bytes (str_concat_string M self other).1.2 = str_bytes other
    ∧ (str_concat_string M self other).1.1.valid_encoding = none
    ∧ (str_concat_string M self other).1.1.ascii_only = none
    ∧ (str_concat_string M self other).1.1.has_supplementary = none := by
  have h1 : self.length_in_bytes ≠ 0 := by omega
  have h2 : other.length_in_bytes ≠ 0 := by omega
  have hfr := str_compatible_encoding_frame M self other
  obtain ⟨enc, henc⟩ : ∃ enc, (str_compatible_encoding M self other).1 = some enc := by
    cases h : (str_compatible_encoding M self other).1 with
    | none => exact absurd h hc
    | some enc => exact ⟨enc, rfl⟩
  have hfmt2 : str_is_stored_in_uchars self
      = str_is_stored_in_uchars (str_compatible_encoding M self other).2 := by
    unfold str_is_stored_in_uchars at hfmt ⊢
    rw [hfr.2.2.2.1]; exact hfmt
  have hres : str_concat_string M self other
      = ((({ str_resize_bytes (str_unset_facultative_flags self)
              (self.length_in_bytes + other.length_in_bytes) with
            data := memcpy self.data self.length_in_bytes.toNat other.data 0
              other.length_in_bytes.toNat,
            length_in_bytes := self.length_in_bytes + other.length_in_bytes } : rb_str_t),
          (str_compatible_encoding M self other).2), .ok ()) := by
    unfold str_concat_string str_must_have_compatible_encoding
    simp only [h1, h2, if_false, henc]
    rw [str_make_same_format_same M self _ hfmt2]
    simp [hfr.1, hfr.2.1, str_resize_bytes, str_unset_facultative_flags]
    split_ifs <;> rfl
  rw [hres]
  have hsum : (self.length_in_bytes + other.length_in_bytes).toNat
      = self.length_in_bytes.toNat + other.length_in_bytes.toNat := by omega
  refine ⟨rfl, ?_, rfl, ?_, hfr.1, ?_, ?_, ?_, ?_⟩
  · simp only [str_bytes, hsum]
    exact read_bytes_memcpy _ _ _ _
  · simp only [str_resize_bytes, str_unset_facultative_flags]
    split_ifs <;> rfl
  · simp only [str_bytes, hfr.1, hfr.2.1]
  · simp only [str_resize_bytes, str_unset_facultative_flags]
    split_ifs <;> rfl
  · simp only [str_resize_bytes, str_unset_facultative_flags]
    split_ifs <;> rfl
  · simp only [str_resize_bytes, str_unset_facultative_flags]
    split_ifs <;> rfl

/-- C16: combining an empty string of encoding X with a non-empty string of
encoding Y never raises and yields encoding Y: `str_compatible_encoding`
returns Y for both argument orders, and `str_concat_string` of the non-empty
string onto the empty one succeeds and leaves the receiver with encoding Y and
the bytes of the other string, for every X and Y. -/
theorem str_compatible_encoding_with_empty (M : encoding_methods_t) (x y : rb_str_t)
    (hx : x.length_in_bytes = 0) (hy : 0 < y.length_in_bytes) :
    (str_compatible_encoding M x y).1 = some y.encoding
    ∧ (str_compatible_encoding M y x).1 = some y.encoding
    ∧ (str_concat_string M x y).2 = .ok ()
    ∧ (str_concat_string M x y).1.1.encoding = y.encoding
    ∧ (str_concat_string M x y).1.1.length_in_bytes = y.length_in_bytes
    ∧ str_bytes (str_concat_string M x y).1.1 = str_bytes y := by
  have hy0 : y.length_in_bytes ≠ 0 := by omega
  have hc := str_concat_string_onto_empty M x y hx hy
  refine ⟨?_, ?_, hc.1, hc.2.2.2.1, hc.2.2.1, hc.2.1⟩
  · unfold str_compatible_encoding
    by_cases he : x.encoding = y.encoding
    · simp [he]
    · simp [he, hy0, hx]
  · unfold str_compatible_encoding
    by_cases he : y.encoding = x.encoding
    · simp [he]
    · simp [he, hx]

/-- C16 (witness): the empty UTF-16BE string, whose encoding is not
ASCII-compatible, and the ISO-8859-1 string "A". -/
theorem str_compatible_encoding_with_empty_witness :
    (utf16be_empty.length_in_bytes = 0 ∧ 0 < latin1_A.length_in_bytes
      ∧ utf16be_empty.encoding.ascii_compatible = false)
    ∧ ((str_compatible_encoding unused_encoding_methods utf16be_empty latin1_A).1
        = some latin1_A.encoding
      ∧ (str_compatible_encoding unused_encoding_methods latin1_A utf16be_empty).1
        = some latin1_A.encoding
      ∧ (str_concat_string unused_encoding_methods utf16be_empty latin1_A).2 = .ok ()
      ∧ (str_concat_string unused_encoding_methods utf16be_empty latin1_A).1.1.encoding
        = latin1_A.encoding
      ∧ (str_concat_string unused_encoding_methods utf16be_empty latin1_A).1.1.length_in_bytes
        = latin1_A.length_in_bytes
      ∧ str_bytes (str_concat_string unused_encoding_methods utf16be_empty latin1_A).1.1
        = str_bytes latin1_A) :=
  ⟨⟨by decide, by decide, by decide⟩,
    str_compatible_encoding_with_empty unused_encoding_methods utf16be_empty latin1_A
      (by decide) (by decide)⟩

/-! ## Equality -/

/-- Equality of two distinct non-empty strings in the same storage format: the
encodings must be compatible, the byte lengths equal and the bytes equal. -/
theorem str_is_equal_to_string_same_format (M : encoding_methods_t) (a b : rb_str_t)
    (hfmt : str_is_stored_in_uchars a = str_is_stored_in_uchars b)
    (ha : a.length_in_bytes ≠ 0) (hb : b.length_in_bytes ≠ 0) :
    (str_is_equal_to_string M false a b).1
      = (decide ((str_compatible_encoding M a b).1 ≠ none)
          && decide (a.length_in_bytes = b.length_in_bytes)
          && decide (str_bytes a = str_bytes b)) := by
  have hfr := str_compatible_encoding_frame M a b
  have hfmt2 : str_is_stored_in_uchars a
      = str_is_stored_in_uchars (str_compatible_encoding M a b).2 := by
    unfold str_is_stored_in_uchars at hfmt ⊢
    rw [hfr.2.2.2.1]; exact hfmt
  unfold str_is_equal_to_string
  simp only [Bool.false_eq_true, if_false, ha, hb]
  cases hc : (str_compatible_encoding M a b).1 with
  | none => simp
  | some enc =>
    simp only [hfmt2, beq_self_eq_true, if_true, hfr.2.1, hfr.1]
    by_cases hl : a.length_in_bytes = b.length_in_bytes
    · simp [hl, memcmp_is_zero, str_bytes]
    · simp [hl]

/-- C18: for two distinct strings in the same storage format,
`str_is_equal_to_string(a, b)` is true if and only if either both are empty, or
both are non-empty, `str_compatible_encoding(a, b)` is not none, the byte
lengths are equal and the buffers are byte-for-byte equal; so empty versus
non-empty is false and incompatible encodings give false (the function raises
nothing); and a string always equals itself. -/
theorem str_is_equal_to_string_spec (M : encoding_methods_t) (a b : rb_str_t)
    (hfmt : str_is_stored_in_uchars a = str_is_stored_in_uchars b) :
    ((str_is_equal_to_string M false a b).1 = true
      ↔ (a.length_in_bytes = 0 ∧ b.length_in_bytes = 0)
        ∨ (a.length_in_bytes ≠ 0 ∧ b.length_in_bytes ≠ 0
            ∧ (str_compatible_encoding M a b).1 ≠ none
            ∧ a.length_in_bytes = b.length_in_bytes ∧ str_bytes a = str_bytes b))
    ∧ (a.length_in_bytes = 0 → b.length_in_bytes ≠ 0 →
        (str_is_equal_to_string M false a b).1 = false)
    ∧ (a.length_in_bytes ≠ 0 → b.length_in_bytes = 0 →
        (str_is_equal_to_string M false a b).1 = false)
    ∧ (a.length_in_bytes ≠ 0 → b.length_in_bytes ≠ 0 →
        (str_compatible_encoding M a b).1 = none →
        (str_is_equal_to_string M false a b).1 = false)
    ∧ (str_is_equal_to_string M true a a).1 = true := by
  have hne := str_is_equal_to_string_same_format M a b hfmt
  refine ⟨?_, ?_, ?_, ?_, ?_⟩
  · by_cases ha : a.length_in_bytes = 0
    · by_cases hb : b.length_in_bytes = 0
      · simp [str_is_equal_to_string, ha, hb]
      · simp [str_is_equal_to_string, ha, hb]
    · by_cases hb : b.length_in_bytes = 0
      · simp [str_is_equal_to_string, ha, hb]
      · rw [hne ha hb]
        simp [ha, hb, and_assoc]
  · intro ha hb
    simp [str_is_equal_to_string, ha, hb]
  · intro ha hb
    simp [str_is_equal_to_string, ha, hb]
  · intro ha hb hc
    rw [hne ha hb]
    simp [hc]
  · simp [str_is_equal_to_string]

/-- C18 (witness): "ca" and "abcabc" (ISO-8859-1, raw bytes) are in the same
storage format and are not equal; "ca" equals a second string of the same
bytes. -/
theorem str_is_equal_to_string_spec_witness :
    (str_is_stored_in_uchars latin1_ca = str_is_stored_in_uchars latin1_abcabc)
    ∧ (str_is_equal_to_string unused_encoding_methods false latin1_ca latin1_abcabc).1 = false
    ∧ (str_is_equal_to_string unused_encoding_methods false latin1_ca
        (raw_string rb_encodings_ISO8859_1 [0x63, 0x61])).1 = true
    ∧ (((str_is_equal_to_string unused_encoding_methods false latin1_ca latin1_abcabc).1 = true
        ↔ (latin1_ca.length_in_bytes = 0 ∧ latin1_abcabc.length_in_bytes = 0)
          ∨ (latin1_ca.length_in_bytes ≠ 0 ∧ latin1_abcabc.length_in_bytes ≠ 0
              ∧ (str_compatible_encoding unused_encoding_methods latin1_ca latin1_abcabc).1
                  ≠ none
              ∧ latin1_ca.length_in_bytes = latin1_abcabc.length_in_bytes
              ∧ str_bytes latin1_ca = str_bytes latin1_abcabc))
      ∧ (latin1_ca.length_in_bytes = 0 → latin1_abcabc.length_in_bytes ≠ 0 →
          (str_is_equal_to_string unused_encoding_methods false latin1_ca latin1_abcabc).1
            = false)
      ∧ (latin1_ca.length_in_bytes ≠ 0 → latin1_abcabc.length_in_bytes = 0 →
          (str_is_equal_to_string unused_encoding_methods false latin1_ca latin1_abcabc).1
            = false)
      ∧ (latin1_ca.length_in_bytes ≠ 0 → latin1_abcabc.length_in_bytes ≠ 0 →
          (str_compatible_encoding unused_encoding_methods latin1_ca latin1_abcabc).1 = none →
          (str_is_equal_to_string unused_encoding_methods false latin1_ca latin1_abcabc).1
            = false)
      ∧ (str_is_equal_to_string unused_encoding_methods true latin1_ca latin1_ca).1 = true) :=
  ⟨by decide, by decide, by decide,
    str_is_equal_to_string_spec unused_encoding_methods latin1_ca latin1_abcabc (by decide)⟩

/-- The conversion to code units of a raw string in the UTF-16 encoding of
non-native byte order: the byte pairs are swapped in place. -/
theorem str_try_making_data_uchars_non_native (M : encoding_methods_t) (a : rb_str_t)
    (hraw : str_is_stored_in_uchars a = false)
    (he : NON_NATIVE_UTF16_ENC a.encoding = true) (hlen : 0 ≤ a.length_in_bytes) :
    str_try_making_data_uchars M a
      = (true, { a with data := swap_byte_pairs (a.length_in_bytes.toNat / 2) a.data,
                        stored_in_uchars := true }) := by
  have hp : ((if ODD_NUMBER a.length_in_bytes = true then a.length_in_bytes - 1
      else a.length_in_bytes) / 2).toNat = a.length_in_bytes.toNat / 2 := by
    unfold ODD_NUMBER
    split_ifs with h
    · simp at h; omega
    · omega
  unfold str_is_stored_in_uchars at hraw
  simp [str_try_making_data_uchars, str_is_stored_in_uchars, hraw, he, str_invert_byte_order,
    str_negate_stored_in_uchars, hp]

/-- A string stored as code units is left as it is by
`str_try_making_data_uchars`. -/
theorem str_try_making_data_uchars_stored (M : encoding_methods_t) (b : rb_str_t)
    (hb : str_is_stored_in_uchars b = true) : str_try_making_data_uchars M b = (true, b) := by
  simp [str_try_making_data_uchars, hb]

/-- Equality of a raw string and a string stored as code units of the same
encoding, both non-empty: when the raw one converts to code units with the
length and the bytes of the other, the two are equal in both argument
orders. -/
theorem str_is_equal_to_string_converted (M : encoding_methods_t) (a b : rb_str_t)
    (henc : a.encoding = b.encoding)
    (ha : str_is_stored_in_uchars a = false) (hb : str_is_stored_in_uchars b = true)
    (hal : a.length_in_bytes ≠ 0) (hbl : b.length_in_bytes ≠ 0)
    (h1 : (str_try_making_data_uchars M a).1 = true)
    (h2 : (str_try_making_data_uchars M a).2.length_in_bytes = b.length_in_bytes)
    (h3 : str_bytes (str_try_making_data_uchars M a).2 = str_bytes b) :
    (str_is_equal_to_string M false a b).1 = true
    ∧ (str_is_equal_to_string M false b a).1 = true := by
  have hc1 : str_compatible_encoding M a b = (some a.encoding, b) := by
    simp [str_compatible_encoding, henc]
  have hc2 : str_compatible_encoding M b a = (some b.encoding, a) := by
    simp [str_compatible_encoding, henc]
  have hbb := str_try_making_data_uchars_stored M b hb
  unfold str_bytes at h3
  constructor
  · unfold str_is_equal_to_string
    simp only [Bool.false_eq_true, if_false, hal, hbl, hc1, ha, hb]
    simp [h1, hbb, h2, memcmp_is_zero]
    rw [h2] at h3
    exact h3
  · unfold str_is_equal_to_string
    simp only [Bool.false_eq_true, if_false, hal, hbl, hc2, ha, hb]
    simp [h1, hbb, h2, memcmp_is_zero]
    rw [h2] at h3
    exact h3.symm

/-- C19: two distinct non-empty strings with the same encoding, one held as raw
bytes and the other stored as code units, compare equal under
`str_is_equal_to_string` in both argument orders when they have the same
content, that is, when the raw one converts to code units with the length and
the bytes of the other.  For the UTF-16 encoding of non-native byte order, the
case decided inside this file: if `a` holds raw bytes and `b` holds the code
units obtained by swapping each byte pair of those bytes, then `equals(a, b)`
and `equals(b, a)` are true. -/
theorem str_is_equal_to_string_mixed_formats (M : encoding_methods_t) (a b : rb_str_t)
    (henc : a.encoding = b.encoding)
    (ha : str_is_stored_in_uchars a = false) (hb : str_is_stored_in_uchars b = true)
    (hal : 0 < a.length_in_bytes) (hbl : 0 < b.length_in_bytes) :
    ((str_try_making_data_uchars M a).1 = true →
      (str_try_making_data_uchars M a).2.length_in_bytes = b.length_in_bytes →
      str_bytes (str_try_making_data_uchars M a).2 = str_bytes b →
      (str_is_equal_to_string M false a b).1 = true
      ∧ (str_is_equal_to_string M false b a).1 = true)
    ∧ (NON_NATIVE_UTF16_ENC a.encoding = true →
      b.length_in_bytes = a.length_in_bytes →
      b.data = swap_byte_pairs (a.length_in_bytes.toNat / 2) a.data →
      (str_is_equal_to_string M false a b).1 = true
      ∧ (str_is_equal_to_string M false b a).1 = true) := by
  constructor
  · intro h1 h2 h3
    exact str_is_equal_to_string_converted M a b henc ha hb (by omega) (by omega) h1 h2 h3
  · intro he hl hd
    have hconv := str_try_making_data_uchars_non_native M a ha he (by omega)
    apply str_is_equal_to_string_converted M a b henc ha hb (by omega) (by omega)
    · rw [hconv]
    · rw [hconv]; exact hl.symm
    · rw [hconv]
      simp [str_bytes, hd, hl]
/-- C19 (witness): the UTF-16BE string "ab" as raw bytes 00 61 00 62 and as
the code units 0061 0062. -/
theorem str_is_equal_to_string_mixed_formats_witness :
    (utf16be_ab_raw.encoding = utf16be_ab_uchars.encoding
      ∧ str_is_stored_in_uchars utf16be_ab_raw = false
      ∧ str_is_stored_in_uchars utf16be_ab_uchars = true
      ∧ 0 < utf16be_ab_raw.length_in_bytes ∧ 0 < utf16be_ab_uchars.length_in_bytes
      ∧ NON_NATIVE_UTF16_ENC utf16be_ab_raw.encoding = true
      ∧ utf16be_ab_uchars.length_in_bytes = utf16be_ab_raw.length_in_bytes
      ∧ utf16be_ab_uchars.data
          = swap_byte_pairs (utf16be_ab_raw.length_in_bytes.toNat / 2) utf16be_ab_raw.data)
    ∧ ((str_is_equal_to_string unused_encoding_methods false utf16be_ab_raw
          utf16be_ab_uchars).1 = true
      ∧ (str_is_equal_to_string unused_encoding_methods false utf16be_ab_uchars
          utf16be_ab_raw).1 = true) :=
  ⟨⟨by decide, by decide, by decide, by decide, by decide, by decide, by decide, by decide⟩,
    (str_is_equal_to_string_mixed_formats unused_encoding_methods utf16be_ab_raw
      utf16be_ab_uchars (by decide) (by decide) (by decide) (by decide) (by decide)).2
      (by decide) (by decide) (by decide)⟩

/-! ## Mutations and the flag cache -/

/-- Appending to a non-empty string resets the three cached flags of the
receiver. -/
theorem str_concat_string_unsets_flags (M : encoding_methods_t) (self other : rb_str_t)
    (hs : 0 < self.length_in_bytes) (ho : 0 < other.length_in_bytes)
    (hc : (str_compatible_encoding M self other).1 ≠ none)
    (hfmt : str_is_stored_in_uchars self = str_is_stored_in_uchars other) :
    (str_concat_string M self other).1.1.valid_encoding = none
    ∧ (str_concat_string M self other).1.1.ascii_only = none
    ∧ (str_concat_string M self other).1.1.has_supplementary = none
    ∧ flags_agree_with_scan M (str_concat_string M self other).1.1 := by
  have h := (str_concat_string_append M self other hs ho hc hfmt).2.2.2.2.2.2
  refine ⟨h.1, h.2.1, h.2.2, ?_⟩
  unfold flags_agree_with_scan
  rw [h.1, h.2.1, h.2.2]
  simp

/-- Forcing another encoding resets the three cached flags. -/
theorem rstr_force_encoding_unsets_flags (M : encoding_methods_t) (self : rb_str_t)
    (enc : rb_encoding_t) (he : enc ≠ self.encoding) :
    (rstr_force_encoding M self enc).valid_encoding = none
    ∧ (rstr_force_encoding M self enc).ascii_only = none
    ∧ (rstr_force_encoding M self enc).has_supplementary = none
    ∧ (rstr_force_encoding M self enc).encoding = enc := by
  unfold rstr_force_encoding rstr_modify
  simp only [ne_eq, he, not_false_eq_true, if_true, str_unset_facultative_flags,
    str_set_stored_in_uchars]
  split_ifs <;> simp

/-- C20 (the code at the failing inputs): `str_delete`, `str_append_uchar`,
`bstr_set_length` and `rstr_clear` leave the three cached flags as they were.
For "aé" with its flags cached (valid, not ASCII-only), deleting the last
character or setting the byte length to 2 leaves "a" still cached as not
ASCII-only, where a fresh scan finds it ASCII-only; for "a" cached as
ASCII-only, appending the unit 00E9 leaves "aé" cached as ASCII-only, where a
fresh scan finds it is not; the invalid string D800, once emptied by
`rstr_clear`, is still cached as invalid and not ASCII-only, and the ASCII-only
query answers false, where a fresh scan of the empty string finds it valid and
ASCII-only. -/
theorem mutations_keep_cached_flags :
    (flags_agree_with_scan unused_encoding_methods utf8_a_e_acute_scanned
      ∧ str_delete unused_encoding_methods utf8_a_e_acute_scanned 1 1 false
          = some { utf8_a_e_acute_scanned with length_in_bytes := 2 }
      ∧ bstr_set_length utf8_a_e_acute_scanned 2
          = { utf8_a_e_acute_scanned with length_in_bytes := 2 }
      ∧ ({ utf8_a_e_acute_scanned with length_in_bytes := 2 } : rb_str_t).ascii_only
          = some false
      ∧ (str_update_flags unused_encoding_methods
          { utf8_a_e_acute_scanned with length_in_bytes := 2 }).ascii_only = some true
      ∧ ¬ flags_agree_with_scan unused_encoding_methods
          { utf8_a_e_acute_scanned with length_in_bytes := 2 })
    ∧ (flags_agree_with_scan unused_encoding_methods utf8_a_scanned
      ∧ (str_append_uchar utf8_a_scanned 0xE9).ascii_only = some true
      ∧ (str_update_flags unused_encoding_methods
          (str_append_uchar utf8_a_scanned 0xE9)).ascii_only = some false
      ∧ ¬ flags_agree_with_scan unused_encoding_methods (str_append_uchar utf8_a_scanned 0xE9))
    ∧ (flags_agree_with_scan unused_encoding_methods lone_lead_surrogate_scanned
      ∧ (rstr_clear lone_lead_surrogate_scanned).length_in_bytes = 0
      ∧ (rstr_clear lone_lead_surrogate_scanned).valid_encoding = some false
      ∧ (rstr_clear lone_lead_surrogate_scanned).ascii_only = some false
      ∧ (str_is_ascii_only unused_encoding_methods (rstr_clear lone_lead_surrogate_scanned)).1
          = false
      ∧ (str_update_flags unused_encoding_methods
          (rstr_clear lone_lead_surrogate_scanned)).valid_encoding = some true
      ∧ (str_update_flags unused_encoding_methods
          (rstr_clear lone_lead_surrogate_scanned)).ascii_only = some true
      ∧ ¬ flags_agree_with_scan unused_encoding_methods
          (rstr_clear lone_lead_surrogate_scanned)) := by
  decide

/-! ## The byte length never exceeds the capacity -/

/-- The three replacements leave `length_in_bytes ≤ capacity_in_bytes` when the
length they are given is not negative. -/
theorem str_replace_with_bytes_length_le_capacity (self : rb_str_t)
    (bytes : Option (List (Fin 256))) (len : Int) (enc : rb_encoding_t) (h : 0 ≤ len) :
    (str_replace_with_bytes self bytes len enc).length_in_bytes
      ≤ (str_replace_with_bytes self bytes len enc).capacity_in_bytes := by
  unfold str_replace_with_bytes
  by_cases h1 : len > 0
  · cases bytes with
    | none => simp [h1, str_clear_flags]; omega
    | some b => simp [h1, str_clear_flags]
  · simp [h1, str_clear_flags]; omega

/-- See `str_replace_with_bytes_length_le_capacity`. -/
theorem str_replace_with_uchars_length_le_capacity (self : rb_str_t)
    (chars : Option (List (Fin 256))) (len : Int) (h : 0 ≤ len) :
    (str_replace_with_uchars self chars len).length_in_bytes
      ≤ (str_replace_with_uchars self chars len).capacity_in_bytes := by
  unfold str_replace_with_uchars UCHARS_TO_BYTES
  by_cases h1 : len * 2 > 0
  · cases chars with
    | none => simp [h1, str_clear_flags, str_set_stored_in_uchars]; omega
    | some b => simp [h1, str_clear_flags, str_set_stored_in_uchars]
  · simp [h1, str_clear_flags]; omega

/-- See `str_replace_with_bytes_length_le_capacity`. -/
theorem str_replace_with_string_length_le_capacity (self source : rb_str_t)
    (h : 0 ≤ source.length_in_bytes) :
    (str_replace_with_string self source).length_in_bytes
      ≤ (str_replace_with_string self source).capacity_in_bytes := by
  have := str_replace_with_bytes_length_le_capacity self (some source.data)
    source.length_in_bytes source.encoding h
  unfold str_replace_with_string
  exact this

/-- The function `str_append_uchar` keeps `length_in_bytes ≤ capacity_in_bytes`:
it grows the buffer by ten units when the new unit would not leave one unit
free. -/
theorem str_append_uchar_length_le_capacity (self : rb_str_t) (c : Nat)
    (h : self.length_in_bytes ≤ self.capacity_in_bytes) :
    (str_append_uchar self c).length_in_bytes ≤ (str_append_uchar self c).capacity_in_bytes := by
  unfold str_append_uchar BYTES_TO_UCHARS UCHARS_TO_BYTES
  by_cases h1 : self.length_in_bytes / 2 + 1 ≥ self.capacity_in_bytes / 2
  · simp only [h1, if_true]
    omega
  · simp only [h1, if_false]
    omega

/-- The function `str_concat_string` keeps `length_in_bytes ≤ capacity_in_bytes`
on its receiver, whatever the conversions of the encoding do: the buffer is
resized to the new length before the bytes are copied. -/
theorem str_concat_string_length_le_capacity (M : encoding_methods_t) (self str : rb_str_t)
    (h : self.length_in_bytes ≤ self.capacity_in_bytes) (hs : 0 ≤ str.length_in_bytes) :
    (str_concat_string M self str).1.1.length_in_bytes
      ≤ (str_concat_string M self str).1.1.capacity_in_bytes := by
  unfold str_concat_string
  by_cases h1 : str.length_in_bytes = 0
  · simp [h1, h]
  · rw [if_neg h1]
    by_cases h2 : self.length_in_bytes = 0
    · rw [if_pos h2]
      exact str_replace_with_string_length_le_capacity self str hs
    · rw [if_neg h2]
      cases hc : (str_must_have_compatible_encoding M self str).1 with
      | error e => simp only [hc]; exact h
      | ok enc =>
        simp only [hc, str_resize_bytes, str_unset_facultative_flags]
        split_ifs with h3
        · simp
        · simp only
          omega

/-- C21: `length_in_bytes ≤ capacity_in_bytes` holds for every string reached
from a freshly allocated string by any sequence of `str_replace_with_bytes`,
`str_replace_with_uchars`, `str_replace_with_string`, `str_append_uchar`,
`str_resize_bytes`, `str_concat_string`, `str_delete` (tail case) and
`str_new_copy_of_part` calls made within their preconditions. -/
theorem str_reachable_length_le_capacity (M : encoding_methods_t) (self : rb_str_t)
    (h : str_reachable M self) : self.length_in_bytes ≤ self.capacity_in_bytes := by
  induction h with
  | alloc => simp [str_alloc]
  | replace_with_bytes self bytes len enc _ hlen _ =>
    exact str_replace_with_bytes_length_le_capacity self bytes len enc hlen
  | replace_with_uchars self chars len _ hlen _ =>
    exact str_replace_with_uchars_length_le_capacity self chars len hlen
  | replace_with_string self source _ hlen _ =>
    exact str_replace_with_string_length_le_capacity self source hlen
  | append_uchar self c _ _ _ ih => exact str_append_uchar_length_le_capacity self c ih
  | resize_bytes self new_capacity _ ih =>
    unfold str_resize_bytes
    split_ifs with h1
    · simp only; omega
    · exact ih
  | concat_string self str _ hlen ih => exact str_concat_string_length_le_capacity M self str ih hlen
  | delete self pos len ucs2_mode deleted _ hpos hlen hdel ih =>
    unfold str_delete at hdel
    simp only [UCHARS_TO_BYTES] at hdel
    split_ifs at hdel with h1 h2
    · cases hdel; simp only; omega
    · cases hdel; simp only; omega
  | new_copy_of_part self offset_in_bytes length_in_bytes =>
    simp [str_new_copy_of_part, str_keep_required_flags]

/-- C21 (witness): the string "ab" built by `str_replace_with_uchars` and
`str_append_uchar` from a fresh string: 4 bytes in a buffer of 22. -/
theorem str_reachable_length_le_capacity_witness :
    str_reachable unused_encoding_methods built_ab
      ∧ built_ab.length_in_bytes = 4 ∧ built_ab.capacity_in_bytes = 22
      ∧ built_ab.length_in_bytes ≤ built_ab.capacity_in_bytes :=
  have h : str_reachable unused_encoding_methods built_ab :=
    str_reachable.append_uchar _ 0x62
      (str_reachable.replace_with_uchars _ _ 1 str_reachable.alloc (by decide))
      (by decide) (by decide)
  ⟨h, by decide, by decide, str_reachable_length_le_capacity unused_encoding_methods built_ab h⟩

/-! ## Deleting the tail of a string -/

/-- In code-unit mode, on a string stored as code units whose byte length is
even, `str_delete` of a tail is a truncation: `pos` units remain, the buffer is
untouched and the byte length, `2 * pos`, is not negative. -/
theorem str_delete_tail_ucs2 (M : encoding_methods_t) (self : rb_str_t) (pos len : Int)
    (hst : str_is_stored_in_uchars self = true) (heven : self.length_in_bytes % 2 = 0)
    (hpos : 0 ≤ pos) (_hlen : 0 < len) (hn : pos + len = str_length M self true) :
    ∃ r, str_delete M self pos len true = some r
      ∧ r.length_in_bytes = 2 * pos ∧ 0 ≤ r.length_in_bytes
      ∧ r.data = self.data ∧ str_length M r true = pos := by
  have hlen2 : str_length M self true = self.length_in_bytes / 2 := by
    unfold str_length ODD_NUMBER BYTES_TO_UCHARS
    by_cases h0 : self.length_in_bytes = 0
    · simp [h0]
    · have hodd : ¬ (self.length_in_bytes % 2 = 1) := by omega
      simp [h0, hst, hodd]
  refine ⟨{ self with length_in_bytes := self.length_in_bytes - UCHARS_TO_BYTES len }, ?_, ?_, ?_,
    rfl, ?_⟩
  · unfold str_delete
    simp [hn, hst]
  · simp only [UCHARS_TO_BYTES]; omega
  · simp only [UCHARS_TO_BYTES]; omega
  · have hl : self.length_in_bytes - UCHARS_TO_BYTES len = 2 * pos := by
      simp only [UCHARS_TO_BYTES]; omega
    unfold str_length ODD_NUMBER BYTES_TO_UCHARS
    simp only [hl]
    by_cases h0 : 2 * pos = 0
    · simp [h0]; omega
    · have hodd : ¬ (2 * pos % 2 = 1) := by omega
      have hst2 : str_is_stored_in_uchars
          { self with length_in_bytes := self.length_in_bytes - UCHARS_TO_BYTES len } = true := hst
      simp only [h0, if_false, hst, str_is_stored_in_uchars] at hst2 ⊢
      simp [hst2, hodd]

/-- On a string of single-byte characters held as raw bytes, `str_delete` of a
tail is a truncation in both indexing modes. -/
theorem str_delete_tail_single_byte (M : encoding_methods_t) (self : rb_str_t) (pos len : Int)
    (ucs2_mode : Bool)
    (hst : str_is_stored_in_uchars self = false)
    (hsb : self.encoding.single_byte_encoding = true)
    (hpos : 0 ≤ pos) (_hlen : 0 < len) (hn : pos + len = str_length M self ucs2_mode) :
    ∃ r, str_delete M self pos len ucs2_mode = some r
      ∧ r.length_in_bytes = pos ∧ 0 ≤ r.length_in_bytes
      ∧ r.data = self.data ∧ str_length M r ucs2_mode = pos := by
  have hlen2 : str_length M self ucs2_mode = self.length_in_bytes := by
    unfold str_length
    by_cases h0 : self.length_in_bytes = 0
    · simp [h0]
    · simp [h0, hst, hsb]
  refine ⟨{ self with length_in_bytes := self.length_in_bytes - len }, ?_, ?_, ?_, rfl, ?_⟩
  · unfold str_delete
    simp [hn, hst]
  · simp only; omega
  · simp only; omega
  · have hl : self.length_in_bytes - len = pos := by omega
    unfold str_length
    simp only [hl]
    by_cases h0 : pos = 0
    · simp [h0]
    · have hst2 : str_is_stored_in_uchars
          { self with length_in_bytes := self.length_in_bytes - len } = false := hst
      simp only [str_is_stored_in_uchars] at hst2
      simp [h0, str_is_stored_in_uchars, hst2, hsb]

/-- C22 (the code at the failing input): "a" followed by U+1F600 holds two code
points in three code units (6 bytes).  Deleting the last code point in
code-point mode (`pos = 1`, `len = 1`) takes the tail branch and subtracts one
unit only: 4 bytes remain, the units 0061 D83D, and `str_length` in code-point
mode is still 2, not `pos = 1`; the bytes kept are not those of the first
character alone (2 bytes).  For a string stored as code units with one
dangling byte, one character in code-unit mode, deleting that character leaves
the byte length -1. -/
theorem str_delete_tail_pair_keeps_lead :
    (str_length unused_encoding_methods utf8_a_U1F600 false = 2
      ∧ str_delete unused_encoding_methods utf8_a_U1F600 1 1 false
          = some { utf8_a_U1F600 with length_in_bytes := 4 }
      ∧ str_length unused_encoding_methods { utf8_a_U1F600 with length_in_bytes := 4 } false = 2
      ∧ str_bytes { utf8_a_U1F600 with length_in_bytes := 4 } = [0x61, 0x00, 0x3D, 0xD8]
      ∧ (str_get_character_boundaries unused_encoding_methods utf8_a_U1F600 1 false)
          = ⟨2, 6⟩)
    ∧ (str_is_stored_in_uchars utf16be_one_byte = true
      ∧ str_length unused_encoding_methods utf16be_one_byte true = 1
      ∧ str_delete unused_encoding_methods utf16be_one_byte 0 1 true
          = some { utf16be_one_byte with length_in_bytes := -1 }) := by
  decide

/-! ## Byte access -/

/-- The function `rstr_getbyte` answers `nil` exactly for an index outside
`[-length, length)`, where `length` is the byte length of the string as the
function leaves it (raw form, except for native UTF-16 code units, which are
read in place); for an index in range it answers the byte at `index`, or at
`index + length` when `index` is negative. -/
theorem rstr_getbyte_spec (M : encoding_methods_t) (self : rb_str_t) (idx : Int) :
    ((rstr_getbyte M self idx).2 = none
      ↔ idx < -(rstr_getbyte M self idx).1.length_in_bytes
        ∨ idx ≥ (rstr_getbyte M self idx).1.length_in_bytes)
    ∧ (-(rstr_getbyte M self idx).1.length_in_bytes ≤ idx
        → idx < (rstr_getbyte M self idx).1.length_in_bytes
        → (rstr_getbyte M self idx).2
          = some (byte_at (rstr_getbyte M self idx).1.data
              (if idx < 0 then idx + (rstr_getbyte M self idx).1.length_in_bytes else idx).toNat))
    ∧ (rstr_getbyte M self idx).1
        = (if str_is_stored_in_uchars self && NATIVE_UTF16_ENC self.encoding then self
           else str_make_data_binary M self) := by
  unfold rstr_getbyte
  by_cases hn : (str_is_stored_in_uchars self && NATIVE_UTF16_ENC self.encoding) = true
  · have hnat : NATIVE_UTF16_ENC self.encoding = true := by
      simp only [Bool.and_eq_true] at hn; exact hn.2
    rw [if_pos hn, if_pos hn]
    simp only [hnat, if_true]
    by_cases h1 : idx < 0
    · simp only [h1, if_true]
      split_ifs <;> simp <;> omega
    · simp only [h1, if_false]
      split_ifs <;> simp <;> omega
  · rw [if_neg hn, if_neg hn]
    by_cases h1 : idx < 0
    · simp only [h1, if_true]
      split_ifs <;> simp <;> omega
    · simp only [h1, if_false]
      split_ifs <;> simp <;> omega

/-- The function `rstr_setbyte` raises `IndexError` for every word it can be
given as `index`, whatever the string (of less than `2 ^ 63` bytes): a word
below `2 ^ 64 - length` is "below `-length`", and every other word is at least
`length`. -/
theorem rstr_setbyte_raises (M : encoding_methods_t) (self : rb_str_t) (index value : Nat)
    (h0 : 0 ≤ (str_make_data_binary M self).length_in_bytes)
    (h1 : (str_make_data_binary M self).length_in_bytes < 2 ^ 63) :
    rstr_setbyte M self index value
      = (str_make_data_binary M self, .error (.IndexError "index %ld out of string")) := by
  unfold rstr_setbyte rstr_modify long_to_VALUE
  have h : index < ((-(str_make_data_binary M self).length_in_bytes) % 2 ^ 64).toNat
      ∨ index ≥ ((str_make_data_binary M self).length_in_bytes % 2 ^ 64).toNat := by
    omega
  simp only [h, if_true]

/-- C29 (the code at the failing input): for the three-byte string "abc",
`rstr_getbyte` finds index 0 in range (the byte 0x61), index -1 in range (the
last byte, 0x63) and index 3 out of range (`nil`).  `rstr_setbyte` raises
`IndexError` for the word 1 as for the words 0, 2, 5 and 2^64 - 1, that is for
the Fixnum 0 however the runtime tags it, and leaves the string as it was. -/
theorem rstr_setbyte_in_range_raises :
    (rstr_getbyte unused_encoding_methods latin1_abc 0).2 = some 0x61
    ∧ (rstr_getbyte unused_encoding_methods latin1_abc (-1)).2 = some 0x63
    ∧ (rstr_getbyte unused_encoding_methods latin1_abc 3).2 = none
    ∧ (rstr_getbyte unused_encoding_methods latin1_abc (-4)).2 = none
    ∧ (∀ index ∈ [0, 1, 2, 5, 2 ^ 64 - 1],
        rstr_setbyte unused_encoding_methods latin1_abc index 0x41
          = (latin1_abc, .error (.IndexError "index %ld out of string"))) := by
  decide

/-! ## Bulk decoding -/

/-- For a string stored as code units, `rb_str_get_uchars` hands back the
string's own buffer with `need_free = false`, and as its length the value of
`str_length` in code-point mode. -/
theorem rb_str_get_uchars_stored (M : encoding_methods_t) (str : rb_str_t)
    (h : str_is_stored_in_uchars str = true) :
    rb_str_get_uchars M str = some (str, .own_buffer, str_length M str false, false) := by
  unfold rb_str_get_uchars str_try_making_data_uchars
  simp [h]

/-- ICU `u_countChar32` counts every unit of a range that holds no lead
surrogate. -/
theorem u_countChar32_no_lead (data : List (Fin 256)) (n pos : Nat)
    (h : ∀ i, pos ≤ i → i < pos + n → U16_IS_LEAD (uchar_at data i) = false) :
    u_countChar32 data pos n = n := by
  induction n using Nat.strong_induction_on generalizing pos with
  | _ n ih =>
    match n with
    | 0 => rfl
    | 1 => rfl
    | k + 2 =>
      have h1 : U16_IS_LEAD (uchar_at data pos) = false := h pos (le_refl _) (by omega)
      unfold u_countChar32
      simp only [h1, Bool.false_and, Bool.false_eq_true, if_false]
      rw [ih (k + 1) (by omega) (pos + 1) (fun i hi1 hi2 => h i (by omega) (by omega))]

/-- For a string stored as code units that holds no lead surrogate and whose
byte length is even, the length handed back by `rb_str_get_uchars` is the
number of code units of the buffer. -/
theorem rb_str_get_uchars_no_lead (M : encoding_methods_t) (str : rb_str_t)
    (h : str_is_stored_in_uchars str = true) (heven : str.length_in_bytes % 2 = 0)
    (h0 : 0 ≤ str.length_in_bytes)
    (hno : ∀ i : Nat, (i : Int) < BYTES_TO_UCHARS str.length_in_bytes →
      U16_IS_LEAD (uchar_at str.data i) = false) :
    rb_str_get_uchars M str
      = some (str, .own_buffer, BYTES_TO_UCHARS str.length_in_bytes, false) := by
  rw [rb_str_get_uchars_stored M str h]
  have hl : str_length M str false = BYTES_TO_UCHARS str.length_in_bytes := by
    unfold str_length ODD_NUMBER
    by_cases hz : str.length_in_bytes = 0
    · simp [hz, BYTES_TO_UCHARS]
    · have hodd : ¬ (str.length_in_bytes % 2 = 1) := by omega
      simp only [hz, if_false, h, if_true, Bool.false_eq_true, beq_iff_eq, hodd]
      rw [u_countChar32_no_lead]
      · simp only [BYTES_TO_UCHARS]; omega
      · intro i _ hi
        apply hno
        simp only [BYTES_TO_UCHARS] at hi ⊢
        omega
  rw [hl]

/-- For a binary string that is not empty, `rb_str_get_uchars` hands back a
freshly allocated array of one unit per byte, with `need_free = true`; for the
empty binary string it hands back `NULL` with `need_free = false`. -/
theorem rb_str_get_uchars_binary (M : encoding_methods_t) (str : rb_str_t)
    (h : str_is_stored_in_uchars str = false) (hb : BINARY_ENC str.encoding = true) :
    rb_str_get_uchars M str
      = if str.length_in_bytes > 0 then
          some (str,
            .allocated ((List.range str.length_in_bytes.toNat).map
              (fun i => char_to_UChar (byte_at str.data i))),
            str.length_in_bytes, true)
        else some (str, .null, str.length_in_bytes, false) := by
  have hnn : NON_NATIVE_UTF16_ENC str.encoding = false := by
    unfold BINARY_ENC at hb
    unfold NON_NATIVE_UTF16_ENC
    simp only [beq_iff_eq] at hb
    simp [hb]
  unfold rb_str_get_uchars str_try_making_data_uchars
  simp [h, hnn, hb]

/-- C30 (the code at the failing input): "a" followed by U+1F600 is stored as
the three code units 0061 D83D DE00 (6 bytes).  `rb_str_get_uchars` hands back
the string's own buffer, which holds 3 units, with `need_free = false`, and the
length 2: the count of code points of `str_length`, not the count of units.
For the binary string "ab" the array is freshly allocated, one unit per byte,
with `need_free = true`. -/
theorem rb_str_get_uchars_counts_code_points :
    rb_str_get_uchars unused_encoding_methods utf8_a_U1F600
      = some (utf8_a_U1F600, uchars_array_t.own_buffer, (2 : Int), false)
    ∧ BYTES_TO_UCHARS utf8_a_U1F600.length_in_bytes = 3
    ∧ utf16_scanned_units utf8_a_U1F600 = [0x61, 0xD83D, 0xDE00]
    ∧ rb_str_get_uchars unused_encoding_methods binary_ab
      = some (binary_ab, uchars_array_t.allocated [0x61, 0x62], (2 : Int), true) := by
  decide

/-! ## `rstr_split` at the examples of its documentation -/

/-- The documented results of `"1,2,,3,4,,".split(',')`, with the limits 4 and
-4 too, come out for binary strings, and for code units whose flags are cached
(no supplementary pair). -/
theorem rstr_split_csv_binary :
    fields_bytes (rstr_split unused_encoding_methods none binary_csv
        (some (.string binary_comma)) none)
      = some (.ok [some [0x31], some [0x32], some [], some [0x33], some [0x34]])
    ∧ fields_bytes (rstr_split unused_encoding_methods none binary_csv
        (some (.string binary_comma)) (some 4))
      = some (.ok [some [0x31], some [0x32], some [], some [0x33, 0x2C, 0x34, 0x2C, 0x2C]])
    ∧ fields_bytes (rstr_split unused_encoding_methods none binary_csv
        (some (.string binary_comma)) (some (-4)))
      = some (.ok [some [0x31], some [0x32], some [], some [0x33], some [0x34], some [],
          some []])
    ∧ fields_bytes (rstr_split unused_encoding_methods none
        (str_update_flags unused_encoding_methods utf8_csv) (some (.string utf8_comma)) none)
      = some (.ok [some [0x31, 0], some [0x32, 0], some [], some [0x33, 0], some [0x34, 0]]) :=
  ⟨by decide, by decide, by decide, by decide⟩

/-- C23 (the code at the failing input): for the source of U+10000, "," and
"a" (code units D800 DC00 002C 0061, flags cached) and the delimiter ",", the
fields are those of U+10000 and of "a"; `rstr_split` returns one field, the
whole source.  `str_index_for_string` reports the delimiter at index 3 instead
of 1, so the first slice takes three characters and the cursor is set past the
end.  For "1,2,,3,4,," as `str_replace_with_uchars` leaves it (ten code units,
nothing cached) the three fields returned are "1,", ",,3" and "4,,". -/
theorem rstr_split_one_char_delimiter_code_units :
    (str_index_for_string unused_encoding_methods utf8_U10000_comma_a utf8_comma 0 false).2
      = .ok (some 3)
    ∧ fields_bytes (rstr_split unused_encoding_methods none utf8_U10000_comma_a
        (some (.string utf8_comma)) none)
      = some (.ok [some [0x00, 0xD8, 0x00, 0xDC, 0x2C, 0x00, 0x61, 0x00]])
    ∧ fields_bytes (rstr_split unused_encoding_methods none utf8_csv
        (some (.string utf8_comma)) none)
      = some (.ok [some [0x31, 0, 0x2C, 0], some [0x2C, 0, 0x2C, 0, 0x33, 0],
          some [0x34, 0, 0x2C, 0, 0x2C, 0]]) :=
  ⟨by decide, by decide, by decide⟩

/-- C24 (the code at the failing input): for the source of U+10000, "," and
"a" (code units D800 DC00 002C 0061, flags cached), the delimiter "," and the
limit 2, the two fields are those of U+10000 and of "a"; `rstr_split` returns
the whole source followed by `nil`.  For "1,2,,3,4,," as
`str_replace_with_uchars` leaves it and the limit 4, it returns the three
fields "1,", ",,3" and "4,,", then `nil`. -/
theorem rstr_split_limit_code_units :
    fields_bytes (rstr_split unused_encoding_methods none utf8_U10000_comma_a
        (some (.string utf8_comma)) (some 2))
      = some (.ok [some [0x00, 0xD8, 0x00, 0xDC, 0x2C, 0x00, 0x61, 0x00], none])
    ∧ fields_bytes (rstr_split unused_encoding_methods none utf8_csv
        (some (.string utf8_comma)) (some 4))
      = some (.ok [some [0x31, 0, 0x2C, 0], some [0x2C, 0, 0x2C, 0, 0x33, 0],
          some [0x34, 0, 0x2C, 0, 0x2C, 0], none]) :=
  ⟨by decide, by decide⟩

/-- C25 (the code at the failing input): `"mellow yellow".split("ello")` is
documented to give "m", "w y", "w"; `rstr_split` returns "m", "llow y", "llow".
After a match at `pos` the cursor is set to `pos + 1` (line 2105), one
character past the start of the delimiter, not past its four characters. -/
theorem rstr_split_long_delimiter_in_fields :
    fields_bytes (rstr_split unused_encoding_methods none binary_mellow_yellow
        (some (.string binary_ello)) none)
      = some (.ok [some [0x6D], some [0x6C, 0x6C, 0x6F, 0x77, 0x20, 0x79],
          some [0x6C, 0x6C, 0x6F, 0x77]]) := by
  decide

/-- The documented result of `" now's  the time".split(' ')`: "now's", "the",
"time". -/
theorem rstr_split_awk_spaces :
    fields_bytes (rstr_split unused_encoding_methods none binary_now_s_the_time
        (some (.string binary_space)) none)
      = some (.ok [some [0x6E, 0x6F, 0x77, 0x27, 0x73], some [0x74, 0x68, 0x65],
          some [0x74, 0x69, 0x6D, 0x65]]) := by
  decide

/-- C26 (the code at the failing input): the source of "a", a tab, "b", a
newline, "c" has three runs of non-whitespace characters; split on " " it
comes back as one field, the whole source: only the space character is
searched for (line 2096), and `str_trim` returns its argument. -/
theorem rstr_split_awk_tab_newline :
    fields_bytes (rstr_split unused_encoding_methods none binary_a_tab_b_newline_c
        (some (.string binary_space)) none)
      = some (.ok [some [0x61, 0x09, 0x62, 0x0A, 0x63]])
    ∧ str_trim (some binary_a_tab_b_newline_c) = some binary_a_tab_b_newline_c :=
  ⟨by decide, rfl⟩

/-- C27 (the code at the failing input): with the pattern `//` the source
"hello" is split into its five characters, and with the limit 5 into "h", "e"
and "llo"; with the limit 3, documented to give "h", "e", "llo", `rstr_split`
returns "h" and "ello".  The `continue` of line 2136 reaches the loop
condition, so the pass that only notes an empty match also decrements
`lim`. -/
theorem rstr_split_empty_regexp_limit :
    fields_bytes (rstr_split unused_encoding_methods none binary_hello
        (some (.regexp (empty_regexp unused_encoding_methods))) none)
      = some (.ok [some [0x68], some [0x65], some [0x6C], some [0x6C], some [0x6F]])
    ∧ fields_bytes (rstr_split unused_encoding_methods none binary_hello
        (some (.regexp (empty_regexp unused_encoding_methods))) (some 3))
      = some (.ok [some [0x68], some [0x65, 0x6C, 0x6C, 0x6F]])
    ∧ fields_bytes (rstr_split unused_encoding_methods none binary_hello
        (some (.regexp (empty_regexp unused_encoding_methods))) (some 5))
      = some (.ok [some [0x68], some [0x65], some [0x6C, 0x6C, 0x6F]]) :=
  ⟨by decide, by decide, by decide⟩

/-- C28: with the limit 1 `rstr_split` does not split: it returns the array
of the source itself when the source has a character, and the empty array when
it has none, whatever the pattern. -/
theorem rstr_split_limit_one (M : encoding_methods_t) (rb_fs : Option split_pattern_t)
    (str : rb_str_t) (spat : Option split_pattern_t) :
    rstr_split M rb_fs str spat (some 1)
      = if str_length M str false = 0 then some (.ok []) else some (.ok [some str]) := by
  unfold rstr_split
  simp

/-- C28 (counterexample): for the empty source and the limit 1 the array
returned is empty, not the array of the source. -/
theorem rstr_split_limit_one_empty_source :
    rstr_split unused_encoding_methods none binary_empty (some (.string binary_comma)) (some 1)
      = some (.ok [])
    ∧ rstr_split unused_encoding_methods none binary_empty (some (.string binary_comma)) (some 1)
      ≠ some (.ok [some binary_empty]) := by
  constructor
  · rfl
  · intro h
    cases h

/-! ## `rstr_split` on binary strings: the primitives -/

/-- The bytes read from a buffer that holds them are its `drop` and `take`. -/
theorem read_bytes_eq_take_drop (data : List (Fin 256)) (offset n : Nat)
    (h : offset + n ≤ data.length) : read_bytes data offset n = (data.drop offset).take n := by
  apply List.ext_getElem
  · simp [read_bytes]; omega
  · intro i h1 h2
    simp only [read_bytes, List.getElem_map, List.getElem_range, List.getElem_take,
      List.getElem_drop]
    simp only [read_bytes, List.length_map, List.length_range] at h1
    rw [List.getD_eq_getElem _ _ (by omega)]

/-- A binary string has one character per byte. -/
theorem str_length_binary_string (M : encoding_methods_t) (s : List (Fin 256))
    (ucs2_mode : Bool) : str_length M (binary_string s) ucs2_mode = s.length := by
  unfold str_length binary_string raw_string rb_encodings_BINARY str_is_stored_in_uchars
  by_cases h : (s.length : Int) = 0
  · simp [h]
  · simp [h]

/-- The bytes of a binary string. -/
theorem str_bytes_binary_string (s : List (Fin 256)) : str_bytes (binary_string s) = s := by
  unfold str_bytes binary_string raw_string
  simp only [Int.toNat_ofNat]
  have := read_bytes_prefix s []
  simpa using this

/-- The search loop of `str_offset_in_bytes_for_string` for a needle of one
byte `d`, stepping by one byte from the end of `before`: the offset of the
first `d` of `rest`, or -1. -/
theorem offset_for_string_loop_one_byte (d : Fin 256) (rest before : List (Fin 256))
    (fuel : Nat) (hfuel : rest.length ≤ fuel) :
    offset_for_string_loop (before ++ rest) [d] 1 1 ((before.length : Int) + rest.length) fuel
        before.length
      = some (if d ∈ rest then ((before.length + rest.indexOf d : Nat) : Int) else -1) := by
  induction rest generalizing before fuel with
  | nil =>
    cases fuel <;> simp [offset_for_string_loop]
  | cons c rest ih =>
    cases fuel with
    | zero => simp at hfuel
    | succ fuel =>
      have hlt : (before.length : Int) < (before.length : Int) + ((c :: rest).length : Nat) := by
        simp only [List.length_cons]; push_cast; omega
      unfold offset_for_string_loop
      rw [if_pos hlt]
      have hm : memcmp_is_zero (before ++ c :: rest) (before.length : Int).toNat [d]
          (1 : Int).toNat = decide (c = d) := by
        unfold memcmp_is_zero read_bytes
        have hget : (before ++ c :: rest)[before.length]? = some c := by
          rw [List.getElem?_append_right (le_refl _)]
          simp
        simp [List.getD_eq_getElem?_getD, hget]
      rw [hm]
      by_cases hcd : c = d
      · subst hcd
        simp
      · have hdc : d ≠ c := fun h => hcd h.symm
        simp only [hcd, decide_False, Bool.false_eq_true, if_false]
        have h := ih (before ++ [c]) fuel (by simp only [List.length_cons] at hfuel; omega)
        simp only [List.append_assoc, List.singleton_append, List.length_append,
          List.length_singleton] at h
        have e1 : ((before.length : Int) + ((c :: rest).length : Nat))
            = ((before.length + 1 : Nat) : Int) + (rest.length : Nat) := by
          simp only [List.length_cons]; push_cast; omega
        have e2 : (before.length : Int) + 1 = ((before.length + 1 : Nat) : Int) := by push_cast; rfl
        rw [e1, e2, h]
        by_cases hmem : d ∈ rest
        · simp only [hmem, if_true, List.mem_cons, hdc, false_or]
          rw [List.indexOf_cons_ne _ (fun h => hcd h)]
          congr 1
          push_cast
          omega
        · simp [hmem, hdc]
/-- The search of `str_offset_in_bytes_for_string` for one byte `d` in a
binary string, from the byte offset `b`: the offset of the first `d` at or
after `b`, or -1; the two strings are left as they were. -/
theorem str_offset_in_bytes_for_string_binary (M : encoding_methods_t) (s : List (Fin 256))
    (d : Fin 256) (b : Nat) (hb : b ≤ s.length) :
    str_offset_in_bytes_for_string M false (binary_string s) (binary_string [d]) b
      = ((binary_string s, binary_string [d]),
          .ok (some (if d ∈ s.drop b then ((b + (s.drop b).indexOf d : Nat) : Int) else -1))) := by
  by_cases hlen : b = s.length
  · have hdrop : s.drop b = [] := by rw [hlen]; simp
    unfold str_offset_in_bytes_for_string
    simp [hdrop, binary_string, raw_string, hlen]
  · have hlt : b < s.length := by omega
    have h1 : ¬ ((b : Int) ≥ (binary_string s).length_in_bytes) := by
      simp only [binary_string, raw_string]; omega
    have hloop := offset_for_string_loop_one_byte d (s.drop b) (s.take b) (s.drop b).length
      (le_refl _)
    rw [List.take_append_drop] at hloop
    have htl : (s.take b).length = b := by simp; omega
    have hdl : (s.drop b).length = s.length - b := by simp
    rw [htl] at hloop
    unfold str_offset_in_bytes_for_string
    rw [if_neg h1]
    simp only [Bool.false_and, Bool.false_eq_true, if_false]
    have h2 : (binary_string [d]).length_in_bytes ≠ 0 := by simp [binary_string, raw_string]
    rw [if_neg h2]
    have hc : str_must_have_compatible_encoding M (binary_string s) (binary_string [d])
        = (.ok rb_encodings_BINARY, binary_string [d]) := by
      simp [str_must_have_compatible_encoding, str_compatible_encoding, binary_string, raw_string]
    have hf : str_make_same_format M (binary_string s) (binary_string [d])
        = (binary_string s, binary_string [d]) := by
      simp [str_make_same_format, binary_string, raw_string, str_is_stored_in_uchars]
    simp only [hc, hf]
    have h3 : ¬ ((binary_string [d]).length_in_bytes > (binary_string s).length_in_bytes) := by
      simp only [binary_string, raw_string, List.length_singleton]; omega
    rw [if_neg h3]
    have e1 : (binary_string s).data = s := rfl
    have e2 : (binary_string [d]).data = [d] := rfl
    have e3 : (binary_string [d]).length_in_bytes = 1 := rfl
    have e4 : (if str_is_stored_in_uchars (binary_string s) = true then (2 : Int)
        else ((binary_string s).encoding.min_char_size : Int)) = 1 := by
      simp [binary_string, raw_string, str_is_stored_in_uchars, rb_encodings_BINARY]
    have e5 : (binary_string s).length_in_bytes - 1 + 1 = (b : Int) + ((s.drop b).length : Nat) := by
      simp only [binary_string, raw_string, hdl]; omega
    have e6 : ((b : Int) + ((s.drop b).length : Nat) - b).toNat = (s.drop b).length := by
      omega
    rw [e1, e2, e3, e4, e5, e6, hloop]

/-- The conversion of a byte offset inside a binary string to an index: the
offset itself. -/
theorem str_offset_in_bytes_to_index_binary (M : encoding_methods_t) (s : List (Fin 256))
    (offset : Nat) (h : offset < s.length) (ucs2_mode : Bool) :
    str_offset_in_bytes_to_index M (binary_string s) offset ucs2_mode = some (offset : Int) := by
  have h1 : ¬ ((offset : Int) ≥ (binary_string s).length_in_bytes ∨ (offset : Int) < 0) := by
    simp only [binary_string, raw_string]; omega
  unfold str_offset_in_bytes_to_index
  rw [if_neg h1]
  by_cases h0 : (offset : Int) = 0
  · simp [h0]
  · simp [h0, binary_string, raw_string, str_is_stored_in_uchars, rb_encodings_BINARY]

/-- The function `str_index_for_string` for one byte `d` in a binary string,
from the index `b`: the index of the first `d` at or after `b`, or -1; the two
strings are left as they were. -/
theorem str_index_for_string_binary (M : encoding_methods_t) (s : List (Fin 256))
    (d : Fin 256) (b : Nat) (hb : b ≤ s.length) :
    str_index_for_string M (binary_string s) (binary_string [d]) b false
      = ((binary_string s, binary_string [d]),
          .ok (some (if d ∈ s.drop b then ((b + (s.drop b).indexOf d : Nat) : Int) else -1))) := by
  have hc : str_must_have_compatible_encoding M (binary_string s) (binary_string [d])
      = (.ok rb_encodings_BINARY, binary_string [d]) := by
    simp [str_must_have_compatible_encoding, str_compatible_encoding, binary_string, raw_string]
  have hf : str_make_same_format M (binary_string s) (binary_string [d])
      = (binary_string s, binary_string [d]) := by
    simp [str_make_same_format, binary_string, raw_string, str_is_stored_in_uchars]
  have hstart : (if (b : Int) = 0 then (Except.ok (some 0) : Except ruby_exception_t (Option Int))
      else
        let boundaries := str_get_character_boundaries M (binary_string s) b false
        if boundaries.start_offset_in_bytes = -1 then
          if boundaries.end_offset_in_bytes = -1 then .ok none
          else .error str_cannot_cut_surrogate
        else .ok (some boundaries.start_offset_in_bytes)) = .ok (some (b : Int)) := by
    by_cases h0 : (b : Int) = 0
    · simp [h0]
    · have hbd : str_get_character_boundaries M (binary_string s) b false = ⟨b, b + 1⟩ := by
        have hneg : ¬ ((b : Int) < 0) := by omega
        unfold str_get_character_boundaries
        simp [binary_string, raw_string, str_is_stored_in_uchars, rb_encodings_BINARY, hneg]
      rw [if_neg h0]
      simp only [hbd]
      have : ¬ ((b : Int) = -1) := by omega
      rw [if_neg this]
  unfold str_index_for_string
  simp only [hc, hf, hstart, str_offset_in_bytes_for_string_binary M s d b hb]
  by_cases hmem : d ∈ s.drop b
  · have hidx : (s.drop b).indexOf d < (s.drop b).length := List.indexOf_lt_length.mpr hmem
    have hdl : (s.drop b).length = s.length - b := by simp
    have hne : ¬ (((b + (s.drop b).indexOf d : Nat) : Int) = -1) := by omega
    simp only [hmem, if_true, hne, if_false]
    rw [str_offset_in_bytes_to_index_binary M s _ (by omega)]
  · simp [hmem]
/-- The function `str_substr` on a binary string, for a range inside the
string: a fresh empty string for the length 0, otherwise the copy of the
bytes of the range. -/
theorem str_substr_binary (M : encoding_methods_t) (s : List (Fin 256)) (b n : Nat)
    (h : b + n ≤ s.length) :
    str_substr M (binary_string s) b n
      = (binary_string s,
          .ok (some (if n = 0 then str_new else str_new_copy_of_part (binary_string s) b n))) := by
  unfold str_substr
  by_cases hn : n = 0
  · subst hn
    simp
  · have h1 : ¬ ((n : Int) < 0) := by omega
    have h2 : ¬ ((n : Int) = 0) := by omega
    have h3 : ¬ ((b : Int) < 0) := by omega
    rw [if_neg h1, if_neg h2]
    simp only [str_length_binary_string, h3, if_false, or_false]
    have h4 : ¬ ((b : Int) > (s.length : Int)) := by omega
    have h5 : ¬ ((b : Int) + n > (s.length : Int)) := by omega
    rw [if_neg h4, if_neg h5, if_neg hn]
    have hg := str_get_characters_single_byte M (binary_string s) b (b + n - 1) false rfl rfl
      (by omega) (by omega) (by simp only [binary_string, raw_string]; omega)
    rw [hg]
    have hmin : min ((b : Int) + n - 1 + 1) (binary_string s).length_in_bytes - b = n := by
      simp only [binary_string, raw_string]; omega
    rw [hmin]

/-- The fields that `str_substr` cuts from a binary string hold the bytes of
the range and are plain fields. -/
theorem str_substr_binary_field (s : List (Fin 256)) (b n : Nat) (h : b + n ≤ s.length) :
    (some (if n = 0 then str_new else str_new_copy_of_part (binary_string s) b n)).map str_bytes
        = some ((s.drop b).take n)
    ∧ plain_field (some (if n = 0 then str_new else str_new_copy_of_part (binary_string s) b n)) := by
  by_cases hn : n = 0
  · subst hn
    refine ⟨by simp [str_new, str_alloc, str_bytes, read_bytes], str_new, ?_⟩
    simp [str_new, str_alloc, rb_encodings_BINARY]
  · rw [if_neg hn]
    obtain ⟨he, hl, hd⟩ := str_new_copy_of_part_spec (binary_string s) b n
    refine ⟨?_, _, rfl, ?_, ?_, ?_⟩
    · simp only [Option.map_some', str_bytes, hl, hd, Int.toNat_ofNat]
      have hidem := read_bytes_prefix (read_bytes (binary_string s).data b n) []
      rw [List.append_nil, read_bytes_length] at hidem
      rw [hidem]
      have : (binary_string s).data = s := rfl
      rw [this, read_bytes_eq_take_drop s b n h]
    · simp [str_new_copy_of_part, str_keep_required_flags, binary_string, raw_string]
    · rw [he]; rfl
    · rw [hl]; omega

/-- The character count of a plain field is zero exactly when the field has no
byte. -/
theorem rb_str_chars_len_plain_field (M : encoding_methods_t) (f : Option rb_str_t)
    (h : plain_field f) :
    ∃ n : Int, rb_str_chars_len M f = some n ∧ 0 ≤ n ∧ (n = 0 ↔ f.map str_bytes = some []) := by
  obtain ⟨g, rfl, hst, hsb, h0⟩ := h
  have hlen : str_length M g false = g.length_in_bytes := by
    unfold str_length str_is_stored_in_uchars
    by_cases hz : g.length_in_bytes = 0
    · simp [hz]
    · simp [hz, hst, hsb]
  refine ⟨str_length M g false, rfl, by rw [hlen]; exact h0, ?_⟩
  rw [hlen]
  simp only [Option.map_some', Option.some.injEq, str_bytes]
  constructor
  · intro hz
    simp [hz, read_bytes]
  · intro hb
    have := congrArg List.length hb
    rw [read_bytes_length] at this
    simp only [List.length_nil] at this
    omega

/-- The unit that `rb_str_get_uchar` reads from a binary string of one byte:
the byte, sign-extended; the string is left as it was. -/
theorem rb_str_get_uchar_binary (M : encoding_methods_t) (d : Fin 256) :
    rb_str_get_uchar M (binary_string [d]) 0 = some (binary_string [d], char_to_UChar d.val) := by
  unfold rb_str_get_uchar str_get_uchar
  rw [str_length_binary_string]
  simp [str_try_making_data_uchars, binary_string, raw_string, str_is_stored_in_uchars,
    rb_encodings_BINARY, NON_NATIVE_UTF16_ENC, BINARY_ENC, byte_at]

/-- A byte read as a `UChar` is the space character exactly when the byte
is. -/
theorem char_to_UChar_eq_space (d : Fin 256) : char_to_UChar d.val = 0x20 ↔ d = 0x20 := by
  unfold char_to_UChar
  constructor
  · intro h
    apply Fin.ext
    split_ifs at h with h1
    · omega
    · simpa using h
  · intro h
    subst h
    decide
/-! ## `rstr_split` on binary strings: the loop over a one-byte delimiter -/

/-- Where the delimiter `d` occurs in `t`, `t` is the run before its first
occurrence, `d`, and the rest. -/
theorem indexOf_decompose (d : Fin 256) (t : List (Fin 256)) (h : d ∈ t) :
    t = t.take (t.indexOf d) ++ d :: t.drop (t.indexOf d + 1) ∧ d ∉ t.take (t.indexOf d) := by
  induction t with
  | nil => simp at h
  | cons c t ih =>
    by_cases hcd : c = d
    · subst hcd
      simp
    · have hdc : d ≠ c := fun h => hcd h.symm
      have hmem : d ∈ t := by
        rcases List.mem_cons.mp h with h1 | h1
        · exact absurd h1 hdc
        · exact h1
      rw [List.indexOf_cons_ne _ (fun h => hcd h)]
      obtain ⟨h1, h2⟩ := ih hmem
      constructor
      · simp only [List.take_succ_cons, List.drop_succ_cons, List.cons_append]
        rw [← h1]
      · simp only [List.take_succ_cons, List.mem_cons, not_or]
        exact ⟨hdc, h2⟩

/-- One pass of the string loop of `rstr_split` over a binary source `s` and a
one-byte pattern `d`, with the cursor at `b`: without a `d` at or after `b` the
loop is left; otherwise the run up to the first `d` is cut (and pushed, unless
the whitespace mode finds it empty), the cursor moves one past the `d`, and the
loop condition decides. -/
theorem split_string_loop_binary_step (M : encoding_methods_t) (s : List (Fin 256))
    (d : Fin 256) (awk_split limit_is_nil : Bool) (fuel b : Nat) (lim : Int)
    (result : List (Option rb_str_t)) (hb : b ≤ s.length) :
    split_string_loop M awk_split limit_is_nil (fuel + 1)
        { str := binary_string s, spat_str := binary_string [d], beg := b, lim := lim,
          result := result }
      = if d ∈ s.drop b then
          let n := (s.drop b).indexOf d
          let field : Option rb_str_t :=
            some (if n = 0 then str_new else str_new_copy_of_part (binary_string s) b n)
          let pushed := if awk_split && decide (n = 0) then result else result ++ [field]
          let c := split_loop_condition limit_is_nil lim
          if c.1 then
            split_string_loop M awk_split limit_is_nil fuel
              { str := binary_string s, spat_str := binary_string [d],
                beg := ((b + n + 1 : Nat) : Int), lim := c.2, result := pushed }
          else
            some (.ok { str := binary_string s, spat_str := binary_string [d],
                        beg := ((b + n + 1 : Nat) : Int), lim := c.2, result := pushed })
        else
          some (.ok { str := binary_string s, spat_str := binary_string [d], beg := b,
                      lim := lim, result := result }) := by
  conv_lhs => rw [split_string_loop]
  simp only [str_index_for_string_binary M s d b hb]
  by_cases hmem : d ∈ s.drop b
  · have hidx : (s.drop b).indexOf d < (s.drop b).length := List.indexOf_lt_length.mpr hmem
    have hdl : (s.drop b).length = s.length - b := by simp
    have hne : ¬ (((b + (s.drop b).indexOf d : Nat) : Int) = -1) := by omega
    have hsub : ((b + (s.drop b).indexOf d : Nat) : Int) - (b : Int)
        = (((s.drop b).indexOf d : Nat) : Int) := by omega
    simp only [hmem, if_true, hne, if_false, hsub,
      str_substr_binary M s b ((s.drop b).indexOf d) (by omega)]
    have hfield := str_substr_binary_field s b ((s.drop b).indexOf d) (by omega)
    obtain ⟨n, hn, hge, hn0⟩ := rb_str_chars_len_plain_field M _ hfield.2
    have hz : (n = 0) ↔ (s.drop b).indexOf d = 0 := by
      rw [hn0, hfield.1]
      simp only [Option.some.injEq, List.take_eq_nil_iff]
      constructor
      · intro h
        rcases h with h | h
        · exact h
        · rw [h] at hidx; simp at hidx
      · intro h
        exact Or.inl h
    have hcast : ((b + (s.drop b).indexOf d : Nat) : Int) + 1
        = ((b + (s.drop b).indexOf d + 1 : Nat) : Int) := by push_cast; rfl
    cases awk_split with
    | false =>
      simp only [Bool.not_false, if_true, Bool.false_and, Bool.false_eq_true, if_false, hcast]
    | true =>
      simp only [Bool.not_true, Bool.false_eq_true, if_false, str_trim, hn, Option.map_some',
        Bool.true_and, hcast]
      by_cases h0 : (s.drop b).indexOf d = 0
      · have hn' : n = 0 := hz.mpr h0
        simp [h0, hn']
      · have hn' : ¬ (n = 0) := fun h => h0 (hz.mp h)
        have hpos : n > 0 := by omega
        simp [h0, hpos]
  · simp [hmem]
/-- The string loop of `rstr_split` without a limit, over a binary source `s`
and a one-byte pattern `d`, entered with the cursor at `b`: it ends, having
pushed the fields that end at each `d` at or after `b` and left the cursor
after the last `d`. -/
theorem split_string_loop_binary_no_limit (M : encoding_methods_t) (s : List (Fin 256))
    (d : Fin 256) (fuel : Nat) :
    ∀ (b : Nat) (lim : Int) (result : List (Option rb_str_t)),
      b ≤ s.length → s.length - b < fuel →
      ∃ (b' : Nat) (pushed : List (Option rb_str_t)) (fields : List (List (Fin 256))),
        split_string_loop M false true fuel
            { str := binary_string s, spat_str := binary_string [d], beg := b, lim := lim,
              result := result }
          = some (.ok { str := binary_string s, spat_str := binary_string [d], beg := b',
                        lim := lim, result := result ++ pushed })
        ∧ b' ≤ s.length ∧ d ∉ s.drop b'
        ∧ pushed.map (Option.map str_bytes) = fields.map some
        ∧ (∀ f ∈ pushed, plain_field f)
        ∧ (s.drop b).splitOn d = fields ++ [s.drop b'] := by
  induction fuel with
  | zero => intro b lim result _ h; omega
  | succ fuel ih =>
    intro b lim result hb hfuel
    rw [split_string_loop_binary_step M s d false true fuel b lim result hb]
    by_cases hmem : d ∈ s.drop b
    · have hidx : (s.drop b).indexOf d < (s.drop b).length := List.indexOf_lt_length.mpr hmem
      have hdl : (s.drop b).length = s.length - b := by simp
      obtain ⟨hdec, hpre⟩ := indexOf_decompose d (s.drop b) hmem
      rw [List.drop_drop] at hdec
      have hfield := str_substr_binary_field s b ((s.drop b).indexOf d) (by omega)
      obtain ⟨b', pushed, fields, hloop, hb', hd', hbytes, hplain, hsplit⟩ :=
        ih (b + (s.drop b).indexOf d + 1) lim
          (result ++ [some (if (s.drop b).indexOf d = 0 then str_new
            else str_new_copy_of_part (binary_string s) b ((s.drop b).indexOf d))])
          (by omega) (by omega)
      refine ⟨b', some (if (s.drop b).indexOf d = 0 then str_new
            else str_new_copy_of_part (binary_string s) b ((s.drop b).indexOf d)) :: pushed,
        (s.drop b).take ((s.drop b).indexOf d) :: fields, ?_, hb', hd', ?_, ?_, ?_⟩
      · simp only [hmem, if_true, split_loop_condition, Bool.false_and, Bool.false_eq_true,
          if_false]
        rw [hloop]
        simp
      · rw [List.map_cons, List.map_cons, hbytes, hfield.1]
      · intro f hf
        rcases List.mem_cons.mp hf with h1 | h1
        · rw [h1]; exact hfield.2
        · exact hplain f h1
      · have hrest : (b + (s.drop b).indexOf d + 1) = (b + ((s.drop b).indexOf d + 1)) := by omega
        rw [hrest] at hsplit
        conv_lhs => rw [hdec]
        unfold List.splitOn at hsplit ⊢
        rw [List.splitOnP_first _ _ (fun x hx => by
          simp only [beq_iff_eq]
          intro hxd
          exact hpre (hxd ▸ hx)) d (by simp), hsplit]
        simp
    · refine ⟨b, [], [], ?_, hb, hmem, rfl, ?_, ?_⟩
      · simp [hmem]
      · intro f hf; simp at hf
      · unfold List.splitOn
        rw [List.splitOnP_eq_single]
        · simp
        · intro x hx
          simp only [beq_iff_eq]
          intro hxd
          exact hmem (hxd ▸ hx)

/-- The loop that pops the trailing empty strings, on an array of plain fields
read backwards: it drops the leading fields that have no byte. -/
theorem split_pop_empty_plain (M : encoding_methods_t) (reversed : List (Option rb_str_t)) :
    ∀ fields : List (List (Fin 256)),
      reversed.map (Option.map str_bytes) = fields.map some →
      (∀ f ∈ reversed, plain_field f) →
      ∃ popped, split_pop_empty M reversed = some popped
        ∧ popped.map (Option.map str_bytes) = (fields.dropWhile (fun f => f.isEmpty)).map some := by
  induction reversed with
  | nil =>
    intro fields h _
    cases fields with
    | nil => exact ⟨[], rfl, rfl⟩
    | cons f fs => simp at h
  | cons last before ih =>
    intro fields h hplain
    cases fields with
    | nil => simp at h
    | cons f fs =>
      simp only [List.map_cons, List.cons.injEq] at h
      obtain ⟨n, hn, _, hn0⟩ := rb_str_chars_len_plain_field M last
        (hplain last (List.mem_cons_self _ _))
      unfold split_pop_empty
      simp only [hn]
      by_cases hz : n = 0
      · have hf : f = [] := by
          have := hn0.mp hz
          rw [h.1] at this
          simpa using this
        obtain ⟨popped, hp, hpb⟩ := ih fs h.2 (fun g hg => hplain g (List.mem_cons_of_mem _ hg))
        refine ⟨popped, by simp [hz, hp], ?_⟩
        rw [hpb, hf]
        simp [List.dropWhile]
      · have hf : f ≠ [] := by
          intro hf
          apply hz
          apply hn0.mpr
          rw [h.1, hf]
        refine ⟨last :: before, by simp [hz], ?_⟩
        have hne : f.isEmpty = false := by
          cases f with
          | nil => exact absurd rfl hf
          | cons _ _ => rfl
        simp only [List.map_cons, h.1, h.2, List.dropWhile, hne]
/-- The end of `rstr_split` without a limit, on a binary source `s`: with the
fields `fields` pushed and the cursor at `b'`, the rest of the source is pushed
unless it is empty and the trailing empty fields are popped, which leaves
`fields` and the rest without the trailing empty ones. -/
theorem split_finish_binary_no_limit (M : encoding_methods_t) (s : List (Fin 256))
    (spat_str : rb_str_t) (b' : Nat) (pushed : List (Option rb_str_t))
    (fields : List (List (Fin 256)))
    (hbytes : pushed.map (Option.map str_bytes) = fields.map some)
    (hplain : ∀ f ∈ pushed, plain_field f) :
    fields_bytes (split_finish M s.length true
        { str := binary_string s, spat_str := spat_str, beg := b', lim := 0, result := pushed })
      = some (.ok (((fields ++ [s.drop b']).rdropWhile (fun f => f.isEmpty)).map some)) := by
  -- the array before the trailing empty strings are popped
  have htail : ∃ ary : List (Option rb_str_t),
      split_finish M s.length true
          { str := binary_string s, spat_str := spat_str, beg := b', lim := 0, result := pushed }
        = (match split_pop_empty M ary.reverse with
           | none => none
           | some popped => some (.ok popped.reverse))
      ∧ (∀ f ∈ ary, plain_field f)
      ∧ ∃ kept : List (List (Fin 256)), ary.map (Option.map str_bytes) = kept.map some
        ∧ kept.rdropWhile (fun f => f.isEmpty)
          = (fields ++ [s.drop b']).rdropWhile (fun f => f.isEmpty) := by
    by_cases hlt : b' < s.length
    · have hcond : (s.length : Int) > 0
          ∧ ((!true) = true ∨ (s.length : Int) > (b' : Int) ∨ (0 : Int) < 0) :=
        ⟨by omega, Or.inr (Or.inl (by omega))⟩
      have hne : ¬ ((s.length : Int) = (b' : Int)) := by omega
      have hsub : (s.length : Int) - (b' : Int) = ((s.length - b' : Nat) : Int) := by omega
      have hcut := str_substr_binary M s b' (s.length - b') (by omega)
      have hn0 : ¬ (s.length - b' = 0) := by omega
      have hfield := str_substr_binary_field s b' (s.length - b') (by omega)
      rw [if_neg hn0] at hcut hfield
      refine ⟨pushed ++ [some (str_new_copy_of_part (binary_string s) b' (s.length - b' : Nat))],
        ?_, ?_, fields ++ [s.drop b'], ?_, rfl⟩
      · unfold split_finish
        simp only []
        rw [if_pos hcond, if_neg hne]
        simp only [rb_str_subseq, hsub, hcut]
        rw [if_pos ⟨trivial, trivial⟩]
      · intro f hf
        rcases List.mem_append.mp hf with h1 | h1
        · exact hplain f h1
        · simp only [List.mem_singleton] at h1
          rw [h1]; exact hfield.2
      · have htake : (s.drop b').take (s.length - b') = s.drop b' := by
          apply List.take_of_length_le
          simp
        simp only [List.map_append, List.map_cons, List.map_nil, hbytes]
        rw [hfield.1, htake]
    · have hcond : ¬ ((s.length : Int) > 0
          ∧ ((!true) = true ∨ (s.length : Int) > (b' : Int) ∨ (0 : Int) < 0)) := by
        intro h
        rcases h.2 with h1 | h1 | h1
        · simp at h1
        · omega
        · omega
      refine ⟨pushed, ?_, hplain, fields, hbytes, ?_⟩
      · unfold split_finish
        simp only []
        rw [if_neg hcond]
        simp only []
        rw [if_pos ⟨trivial, trivial⟩]
      · have hnil : s.drop b' = [] := List.drop_eq_nil_of_le (by omega)
        rw [hnil]
        rw [List.rdropWhile_concat_pos]
        rfl
  obtain ⟨ary, hary, haplain, kept, hkb, hkept⟩ := htail
  obtain ⟨popped, hpop, hpb⟩ := split_pop_empty_plain M ary.reverse kept.reverse
    (by rw [List.map_reverse, hkb, List.map_reverse])
    (fun f hf => haplain f (List.mem_reverse.mp hf))
  rw [hary, hpop]
  unfold fields_bytes
  simp only [Option.map_some', Except.map, List.map_reverse, hpb]
  rw [← hkept]
  unfold List.rdropWhile
  rw [List.map_reverse]

/-- Without a limit, `rstr_split` of a binary string `s` on a one-byte pattern
`d` other than the space returns the fields of `s` between the occurrences of
`d`, embedded empty fields included, without the trailing empty fields. -/
theorem rstr_split_binary_one_byte (M : encoding_methods_t) (rb_fs : Option split_pattern_t)
    (s : List (Fin 256)) (d : Fin 256) (hd : d ≠ 0x20) :
    fields_bytes (rstr_split M rb_fs (binary_string s) (some (.string (binary_string [d]))) none)
      = some (.ok (((s.splitOn d).rdropWhile (fun f => f.isEmpty)).map some)) := by
  obtain ⟨b', pushed, fields, hloop, _, _, hbytes, hplain, hsplit⟩ :=
    split_string_loop_binary_no_limit M s d (s.length + 1) 0 0 [] (Nat.zero_le _) (by omega)
  have hawk : decide (char_to_UChar d.val = 0x20) = false := by
    simp only [decide_eq_false_iff_not]
    exact fun h => hd ((char_to_UChar_eq_space d).mp h)
  simp only [List.drop_zero, List.nil_append, Nat.cast_zero] at hsplit hloop
  have hfin := split_finish_binary_no_limit M s (binary_string [d]) b' pushed fields hbytes
    hplain
  rw [← hsplit] at hfin
  unfold rstr_split
  simp only [Option.getD_none, str_length_binary_string, Option.isNone_some, Bool.false_eq_true,
    if_false, List.length_singleton, Nat.cast_one, if_true, rb_str_get_uchar_binary,
    Option.map_some', hawk]
  have h01 : ¬ ((0 : Int) = 1) := by omega
  have h10 : ¬ ((1 : Int) = 0) := by omega
  simp only [h01, h10, if_false, Int.toNat_ofNat]
  have hdec : decide ((0 : Int) ≤ 0) = true := by decide
  simp only [hdec, hloop]
  exact hfin
/-! ## `rstr_split` on binary strings: a one-byte delimiter and a limit -/

/-- The string loop of `rstr_split` with a limit and `lim ≥ 2`, over a binary
source `s` and a one-byte pattern `d`: it ends, and pushes at most `lim - 1`
fields. -/
theorem split_string_loop_binary_limit_le (M : encoding_methods_t) (s : List (Fin 256))
    (d : Fin 256) (fuel : Nat) :
    ∀ (b : Nat) (lim : Int) (result : List (Option rb_str_t)),
      b ≤ s.length → s.length - b < fuel → 2 ≤ lim →
      ∃ (b' : Nat) (lim' : Int) (pushed : List (Option rb_str_t))
        (fields : List (List (Fin 256))),
        split_string_loop M false false fuel
            { str := binary_string s, spat_str := binary_string [d], beg := b, lim := lim,
              result := result }
          = some (.ok { str := binary_string s, spat_str := binary_string [d], beg := b',
                        lim := lim', result := result ++ pushed })
        ∧ b' ≤ s.length
        ∧ pushed.map (Option.map str_bytes) = fields.map some
        ∧ (fields.length : Int) ≤ lim - 1 := by
  induction fuel with
  | zero => intro b lim result _ h; omega
  | succ fuel ih =>
    intro b lim result hb hfuel hlim
    rw [split_string_loop_binary_step M s d false false fuel b lim result hb]
    by_cases hmem : d ∈ s.drop b
    · have hidx : (s.drop b).indexOf d < (s.drop b).length := List.indexOf_lt_length.mpr hmem
      have hdl : (s.drop b).length = s.length - b := by simp
      have hfield := str_substr_binary_field s b ((s.drop b).indexOf d) (by omega)
      simp only [hmem, if_true, split_loop_condition, Bool.false_and, Bool.false_eq_true,
        if_false, decide_eq_true_eq]
      by_cases hgo : lim - 1 > 1
      · obtain ⟨b', lim', pushed, fields, hloop, hb', hbytes, hlen⟩ :=
          ih (b + (s.drop b).indexOf d + 1) (lim - 1)
            (result ++ [some (if (s.drop b).indexOf d = 0 then str_new
              else str_new_copy_of_part (binary_string s) b ((s.drop b).indexOf d))])
            (by omega) (by omega) (by omega)
        refine ⟨b', lim', some (if (s.drop b).indexOf d = 0 then str_new
              else str_new_copy_of_part (binary_string s) b ((s.drop b).indexOf d)) :: pushed,
          (s.drop b).take ((s.drop b).indexOf d) :: fields, ?_, hb', ?_, ?_⟩
        · rw [if_pos hgo, hloop]
          simp
        · rw [List.map_cons, List.map_cons, hbytes, hfield.1]
        · simp only [List.length_cons]; push_cast; omega
      · refine ⟨b + (s.drop b).indexOf d + 1, lim - 1,
          [some (if (s.drop b).indexOf d = 0 then str_new
              else str_new_copy_of_part (binary_string s) b ((s.drop b).indexOf d))],
          [(s.drop b).take ((s.drop b).indexOf d)], ?_, by omega, ?_, ?_⟩
        · rw [if_neg hgo]
        · rw [List.map_cons, List.map_cons, hfield.1]; rfl
        · simp only [List.length_singleton]; push_cast; omega
    · refine ⟨b, lim, [], [], ?_, hb, rfl, ?_⟩
      · simp [hmem]
      · simp only [List.length_nil]; push_cast; omega

/-- The string loop of `rstr_split` with a limit, over a binary source `s` and
a one-byte pattern `d`, entered with the cursor at `b` and `lim` one more than
the number of fields `fs` that the rest of the source starts with, each
followed by `d`: it pushes these fields and leaves the cursor at what follows
them. -/
theorem split_string_loop_binary_limit_exact (M : encoding_methods_t) (s : List (Fin 256))
    (d : Fin 256) (fs : List (List (Fin 256))) :
    ∀ (rest : List (Fin 256)) (b : Nat) (result : List (Option rb_str_t)) (fuel : Nat),
      fs ≠ [] → (∀ f ∈ fs, d ∉ f) → b ≤ s.length →
      s.drop b = fs.foldr (fun f acc => f ++ d :: acc) rest → fs.length ≤ fuel →
      ∃ pushed : List (Option rb_str_t),
        split_string_loop M false false fuel
            { str := binary_string s, spat_str := binary_string [d], beg := b,
              lim := (fs.length : Int) + 1, result := result }
          = some (.ok { str := binary_string s, spat_str := binary_string [d],
                        beg := ((s.length - rest.length : Nat) : Int), lim := 1,
                        result := result ++ pushed })
        ∧ pushed.map (Option.map str_bytes) = fs.map some
        ∧ s.drop (s.length - rest.length) = rest := by
  induction fs with
  | nil => intro _ _ _ _ h; exact absurd rfl h
  | cons f fs ih =>
    intro rest b result fuel _ hfs hb hdrop hfuel
    cases fuel with
    | zero => simp at hfuel
    | succ fuel =>
      have hdf : d ∉ f := hfs f (List.mem_cons_self _ _)
      simp only [List.foldr_cons] at hdrop
      have hmem : d ∈ s.drop b := by rw [hdrop]; simp
      have hidx : (s.drop b).indexOf d = f.length := by
        rw [hdrop, List.indexOf_append_of_not_mem hdf]
        simp
      have hdl : (s.drop b).length = s.length - b := by simp
      have hlen : s.length - b = f.length + 1
          + (fs.foldr (fun f acc => f ++ d :: acc) rest).length := by
        rw [← hdl, hdrop]; simp; omega
      have htake : (s.drop b).take f.length = f := by rw [hdrop]; simp
      have hnext : s.drop (b + f.length + 1) = fs.foldr (fun f acc => f ++ d :: acc) rest := by
        have : s.drop (b + f.length + 1) = (s.drop b).drop (f.length + 1) := by
          rw [List.drop_drop]; congr 1
        rw [this, hdrop]
        simp
      have hfield := str_substr_binary_field s b f.length (by omega)
      rw [htake] at hfield
      rw [split_string_loop_binary_step M s d false false fuel b _ result hb]
      simp only [hmem, if_true, hidx, split_loop_condition, Bool.false_and, Bool.false_eq_true,
        if_false, decide_eq_true_eq]
      cases fs with
      | nil =>
        simp only [List.foldr_nil] at hnext hlen
        have hgo : ¬ (((([f] : List (List (Fin 256))).length : Nat) : Int) + 1 - 1 > 1) := by
          simp
        rw [if_neg hgo]
        have hb' : b + f.length + 1 = s.length - rest.length := by omega
        refine ⟨[some (if f.length = 0 then str_new
            else str_new_copy_of_part (binary_string s) b f.length)], ?_, ?_, ?_⟩
        · rw [hb']
          simp
        · rw [List.map_cons, hfield.1]; rfl
        · rw [← hb', hnext]
      | cons f2 fs =>
        have hgo : ((((f :: f2 :: fs) : List (List (Fin 256))).length : Nat) : Int) + 1 - 1 > 1 := by
          simp only [List.length_cons]; push_cast; omega
        rw [if_pos hgo]
        obtain ⟨pushed, hloop, hbytes, hrest⟩ := ih rest (b + f.length + 1)
          (result ++ [some (if f.length = 0 then str_new
            else str_new_copy_of_part (binary_string s) b f.length)]) fuel
          (by simp) (fun g hg => hfs g (List.mem_cons_of_mem _ hg)) (by omega) hnext
          (by simp only [List.length_cons] at hfuel ⊢; omega)
        have hlim : ((((f :: f2 :: fs) : List (List (Fin 256))).length : Nat) : Int) + 1 - 1
            = (((f2 :: fs : List (List (Fin 256))).length : Nat) : Int) + 1 := by
          simp only [List.length_cons]; push_cast; omega
        rw [hlim, hloop]
        refine ⟨some (if f.length = 0 then str_new
            else str_new_copy_of_part (binary_string s) b f.length) :: pushed, ?_, ?_, hrest⟩
        · simp
        · rw [List.map_cons, List.map_cons, hbytes, hfield.1]
/-- The end of `rstr_split` with a limit, on a binary source `s`: the rest of
the source after the cursor is pushed as it is, empty or not, unless the source
itself is empty; nothing is popped. -/
theorem split_finish_binary_limit (M : encoding_methods_t) (s : List (Fin 256))
    (spat_str : rb_str_t) (b' : Nat) (lim : Int) (pushed : List (Option rb_str_t))
    (fields : List (List (Fin 256))) (hb' : b' ≤ s.length)
    (hbytes : pushed.map (Option.map str_bytes) = fields.map some) :
    fields_bytes (split_finish M s.length false
        { str := binary_string s, spat_str := spat_str, beg := b', lim := lim, result := pushed })
      = some (.ok ((if s = [] then fields else fields ++ [s.drop b']).map some)) := by
  have hnopop : ¬ (false = true ∧ lim = 0) := by simp
  unfold split_finish
  simp only []
  by_cases hs : s = []
  · subst hs
    have hcond : ¬ ((([] : List (Fin 256)).length : Int) > 0
        ∧ ((!false) = true ∨ (([] : List (Fin 256)).length : Int) > (b' : Int) ∨ lim < 0)) := by
      simp
    rw [if_neg hcond]
    simp only []
    rw [if_neg hnopop]
    simp [fields_bytes, Except.map, hbytes]
  · have hpos : 0 < s.length := List.length_pos.mpr hs
    have hcond : (s.length : Int) > 0
        ∧ ((!false) = true ∨ (s.length : Int) > (b' : Int) ∨ lim < 0) :=
      ⟨by omega, Or.inl rfl⟩
    rw [if_pos hcond, if_neg hs]
    by_cases hbe : (s.length : Int) = (b' : Int)
    · rw [if_pos hbe]
      simp only []
      rw [if_neg hnopop]
      have hnil : s.drop b' = [] := by
        have : b' = s.length := by omega
        rw [this]; simp
      have hnew : str_bytes (rb_str_new none 0) = [] := by
        simp [rb_str_new, rb_enc_str_new, str_replace_with_bytes, str_bytes, read_bytes]
      simp [fields_bytes, Except.map, hbytes, hnil, hnew]
    · rw [if_neg hbe]
      have hsub : (s.length : Int) - (b' : Int) = ((s.length - b' : Nat) : Int) := by omega
      have hcut := str_substr_binary M s b' (s.length - b') (by omega)
      have hn0 : ¬ (s.length - b' = 0) := by omega
      have hfield := str_substr_binary_field s b' (s.length - b') (by omega)
      rw [if_neg hn0] at hcut hfield
      simp only [rb_str_subseq, hsub, hcut]
      rw [if_neg hnopop]
      have htake : (s.drop b').take (s.length - b') = s.drop b' := by
        apply List.take_of_length_le
        simp
      rw [htake] at hfield
      have hf := hfield.1
      simp only [Option.map_some', Option.some.injEq] at hf
      simp [fields_bytes, Except.map, hbytes, hf]

/-- With a limit `L > 1`, `rstr_split` of a binary string `s` on a one-byte
pattern `d` other than the space returns at most `L` fields; when `s` starts
with `L - 1` fields without `d`, each followed by `d`, it returns these fields
followed by the rest of `s` as it is. -/
theorem rstr_split_binary_one_byte_limit (M : encoding_methods_t)
    (rb_fs : Option split_pattern_t) (s : List (Fin 256)) (d : Fin 256) (L : Int)
    (hd : d ≠ 0x20) (hL : 1 < L) :
    (∃ fields : List (List (Fin 256)),
      fields_bytes (rstr_split M rb_fs (binary_string s) (some (.string (binary_string [d])))
          (some L)) = some (.ok (fields.map some))
      ∧ (fields.length : Int) ≤ L)
    ∧ (∀ (fs : List (List (Fin 256))) (rest : List (Fin 256)),
        (fs.length : Int) = L - 1 → (∀ f ∈ fs, d ∉ f) →
        s = fs.foldr (fun f acc => f ++ d :: acc) rest →
        fields_bytes (rstr_split M rb_fs (binary_string s) (some (.string (binary_string [d])))
          (some L)) = some (.ok ((fs ++ [rest]).map some))) := by
  have hawk : decide (char_to_UChar d.val = 0x20) = false := by
    simp only [decide_eq_false_iff_not]
    exact fun h => hd ((char_to_UChar_eq_space d).mp h)
  have hL1 : ¬ (L = 1) := by omega
  have h10 : ¬ ((1 : Int) = 0) := by omega
  have hnil : decide (L ≤ 0) = false := by
    simp only [decide_eq_false_iff_not]; omega
  have hunfold : rstr_split M rb_fs (binary_string s) (some (.string (binary_string [d]))) (some L)
      = match split_string_loop M false false (s.length + 1)
            { str := binary_string s, spat_str := binary_string [d], beg := 0, lim := L,
              result := [] } with
        | none => none
        | some (.error e) => some (.error e)
        | some (.ok st) => split_finish M s.length false st := by
    unfold rstr_split
    simp only [Option.getD_some, str_length_binary_string, Option.isNone_some,
      Bool.false_eq_true, if_false, List.length_singleton, Nat.cast_one, if_true,
      rb_str_get_uchar_binary, Option.map_some', hawk, hL1, h10, hnil, Int.toNat_ofNat]
  rw [hunfold]
  constructor
  · obtain ⟨b', lim', pushed, fields, hloop, hb', hbytes, hlen⟩ :=
      split_string_loop_binary_limit_le M s d (s.length + 1) 0 L [] (Nat.zero_le _) (by omega)
        (by omega)
    simp only [Nat.cast_zero, List.nil_append] at hloop
    rw [hloop]
    simp only []
    rw [split_finish_binary_limit M s _ b' lim' pushed fields hb' hbytes]
    refine ⟨_, rfl, ?_⟩
    split_ifs
    · omega
    · simp only [List.length_append, List.length_singleton]; push_cast; omega
  · intro fs rest hlen hfs hs
    have hne : fs ≠ [] := by
      intro h
      rw [h] at hlen
      simp at hlen
      omega
    obtain ⟨pushed, hloop, hbytes, hrest⟩ :=
      split_string_loop_binary_limit_exact M s d fs rest 0 [] (s.length + 1) hne hfs
        (Nat.zero_le _) (by simpa using hs)
        (by
          have : fs.length ≤ s.length := by
            rw [hs]
            clear hs hlen hne hfs
            induction fs with
            | nil => simp
            | cons f fs ih => simp only [List.foldr_cons, List.length_append, List.length_cons]; omega
          omega)
    have hlim : (fs.length : Int) + 1 = L := by omega
    simp only [Nat.cast_zero, List.nil_append, hlim] at hloop
    rw [hloop]
    simp only []
    rw [split_finish_binary_limit M s _ _ 1 pushed fs (by omega) hbytes, hrest]
    have hsne : s ≠ [] := by
      rw [hs]
      cases fs with
      | nil => exact absurd rfl hne
      | cons f fs => simp
    rw [if_neg hsne]

/-! ## `rstr_split` on binary strings: the whitespace mode -/

/-- The string loop of `rstr_split` in whitespace mode without a limit, over a
binary source `s` and a one-byte pattern `d`: it ends, having pushed the
fields that end at each `d` at or after `b` and are not empty. -/
theorem split_string_loop_binary_awk (M : encoding_methods_t) (s : List (Fin 256))
    (d : Fin 256) (fuel : Nat) :
    ∀ (b : Nat) (lim : Int) (result : List (Option rb_str_t)),
      b ≤ s.length → s.length - b < fuel →
      ∃ (b' : Nat) (pushed : List (Option rb_str_t)) (fields : List (List (Fin 256))),
        split_string_loop M true true fuel
            { str := binary_string s, spat_str := binary_string [d], beg := b, lim := lim,
              result := result }
          = some (.ok { str := binary_string s, spat_str := binary_string [d], beg := b',
                        lim := lim, result := result ++ pushed })
        ∧ b' ≤ s.length
        ∧ pushed.map (Option.map str_bytes) = (fields.filter (fun f => !f.isEmpty)).map some
        ∧ (∀ f ∈ pushed, plain_field f)
        ∧ (s.drop b).splitOn d = fields ++ [s.drop b'] := by
  induction fuel with
  | zero => intro b lim result _ h; omega
  | succ fuel ih =>
    intro b lim result hb hfuel
    rw [split_string_loop_binary_step M s d true true fuel b lim result hb]
    by_cases hmem : d ∈ s.drop b
    · have hidx : (s.drop b).indexOf d < (s.drop b).length := List.indexOf_lt_length.mpr hmem
      have hdl : (s.drop b).length = s.length - b := by simp
      obtain ⟨hdec, hpre⟩ := indexOf_decompose d (s.drop b) hmem
      rw [List.drop_drop] at hdec
      have hfield := str_substr_binary_field s b ((s.drop b).indexOf d) (by omega)
      have hsplit_first : ∀ fields : List (List (Fin 256)), ∀ b' : Nat,
          (s.drop (b + (s.drop b).indexOf d + 1)).splitOn d = fields ++ [s.drop b'] →
          (s.drop b).splitOn d
            = ((s.drop b).take ((s.drop b).indexOf d) :: fields) ++ [s.drop b'] := by
        intro fields b' hsplit
        have hrest : (b + (s.drop b).indexOf d + 1) = (b + ((s.drop b).indexOf d + 1)) := by
          omega
        rw [hrest] at hsplit
        conv_lhs => rw [hdec]
        unfold List.splitOn at hsplit ⊢
        rw [List.splitOnP_first _ _ (fun x hx => by
          simp only [beq_iff_eq]
          intro hxd
          exact hpre (hxd ▸ hx)) d (by simp), hsplit]
        simp
      simp only [hmem, if_true, split_loop_condition, Bool.true_and]
      by_cases h0 : (s.drop b).indexOf d = 0
      · obtain ⟨b', pushed, fields, hloop, hb', hbytes, hplain, hsplit⟩ :=
          ih (b + (s.drop b).indexOf d + 1) lim result (by omega) (by omega)
        refine ⟨b', pushed, (s.drop b).take ((s.drop b).indexOf d) :: fields, ?_, hb', ?_,
          hplain, hsplit_first fields b' hsplit⟩
        · simp only [h0, decide_True, if_true]
          rw [h0] at hloop
          exact hloop
        · rw [hbytes, h0]
          simp
      · obtain ⟨b', pushed, fields, hloop, hb', hbytes, hplain, hsplit⟩ :=
          ih (b + (s.drop b).indexOf d + 1) lim
            (result ++ [some (if (s.drop b).indexOf d = 0 then str_new
              else str_new_copy_of_part (binary_string s) b ((s.drop b).indexOf d))])
            (by omega) (by omega)
        refine ⟨b', some (if (s.drop b).indexOf d = 0 then str_new
              else str_new_copy_of_part (binary_string s) b ((s.drop b).indexOf d)) :: pushed,
          (s.drop b).take ((s.drop b).indexOf d) :: fields, ?_, hb', ?_, ?_,
          hsplit_first fields b' hsplit⟩
        · simp only [h0, decide_False, Bool.false_eq_true, if_false, if_true] at hloop ⊢
          rw [hloop]
          simp
        · have hne : ((s.drop b).take ((s.drop b).indexOf d)).isEmpty = false := by
            cases htk : (s.drop b).take ((s.drop b).indexOf d) with
            | nil =>
              rw [List.take_eq_nil_iff] at htk
              rcases htk with h | h
              · exact absurd h h0
              · rw [h] at hidx; simp at hidx
            | cons _ _ => rfl
          rw [List.map_cons, hbytes, hfield.1, List.filter_cons]
          simp [hne]
        · intro f hf
          rcases List.mem_cons.mp hf with h1 | h1
          · rw [h1]; exact hfield.2
          · exact hplain f h1
    · refine ⟨b, [], [], ?_, hb, rfl, ?_, ?_⟩
      · simp [hmem]
      · intro f hf; simp at hf
      · unfold List.splitOn
        rw [List.splitOnP_eq_single]
        · simp
        · intro x hx
          simp only [beq_iff_eq]
          intro hxd
          exact hmem (hxd ▸ hx)
/-- Trailing empty lists have nothing to drop once the empty lists are
filtered out. -/
theorem rdropWhile_isEmpty_filter (l : List (List (Fin 256))) :
    (l.filter (fun f => !f.isEmpty)).rdropWhile (fun f => f.isEmpty)
      = l.filter (fun f => !f.isEmpty) := by
  rw [List.rdropWhile_eq_self_iff]
  intro hl
  have hmem := List.getLast_mem hl
  rw [List.mem_filter] at hmem
  simpa using hmem.2

/-- Split on " " (the whitespace mode) without a limit, a binary string `s`
comes back as its maximal runs of characters other than the space, in order:
runs of spaces, leading, embedded or trailing, give no empty field.  Only the
space separates: a tab or a newline is a character of a field like any
other. -/
theorem rstr_split_binary_awk (M : encoding_methods_t) (rb_fs : Option split_pattern_t)
    (s : List (Fin 256)) :
    fields_bytes (rstr_split M rb_fs (binary_string s) (some (.string (binary_string [0x20])))
        none)
      = some (.ok (((s.splitOn 0x20).filter (fun f => !f.isEmpty)).map some)) := by
  obtain ⟨b', pushed, fields, hloop, _, hbytes, hplain, hsplit⟩ :=
    split_string_loop_binary_awk M s 0x20 (s.length + 1) 0 0 [] (Nat.zero_le _) (by omega)
  have hawk : decide (char_to_UChar (0x20 : Fin 256).val = 0x20) = true := by decide
  simp only [List.drop_zero, List.nil_append, Nat.cast_zero] at hsplit hloop
  have hfin := split_finish_binary_no_limit M s (binary_string [0x20]) b' pushed
    (fields.filter (fun f => !f.isEmpty)) hbytes hplain
  have hrun : ((fields.filter (fun f => !f.isEmpty)) ++ [s.drop b']).rdropWhile
        (fun f => f.isEmpty)
      = (s.splitOn 0x20).filter (fun f => !f.isEmpty) := by
    rw [hsplit, List.filter_append]
    cases hrest : s.drop b' with
    | nil =>
      rw [List.rdropWhile_concat_pos _ _ _ (by rfl)]
      simp [rdropWhile_isEmpty_filter]
    | cons c rest =>
      rw [List.rdropWhile_concat_neg _ _ _ (by simp)]
      simp
  rw [hrun] at hfin
  unfold rstr_split
  simp only [Option.getD_none, str_length_binary_string, Option.isNone_some, Bool.false_eq_true,
    if_false, List.length_singleton, Nat.cast_one, if_true, rb_str_get_uchar_binary,
    Option.map_some', hawk]
  have h01 : ¬ ((0 : Int) = 1) := by omega
  have h10 : ¬ ((1 : Int) = 0) := by omega
  simp only [h01, h10, if_false, Int.toNat_ofNat]
  have hdec : decide ((0 : Int) ≤ 0) = true := by decide
  simp only [hdec, hloop]
  exact hfin

/-! ## `rstr_split` on binary strings: a pattern that matches the empty string -/

/-- The function `str_substr` on a binary string, for one character asked at
the end of the string: the empty string of the same encoding. -/
theorem str_substr_binary_at_end (M : encoding_methods_t) (s : List (Fin 256)) :
    str_substr M (binary_string s) s.length 1
      = (binary_string s, .ok (some (str_new_similar_empty_string (binary_string s)))) := by
  unfold str_substr
  have h1 : ¬ ((1 : Int) < 0) := by omega
  have h2 : ¬ ((1 : Int) = 0) := by omega
  have h3 : ¬ ((s.length : Int) < 0) := by omega
  rw [if_neg h1, if_neg h2]
  simp only [str_length_binary_string, h3, if_false, or_false]
  have h4 : ¬ ((s.length : Int) > (s.length : Int)) := by omega
  have h5 : (s.length : Int) + 1 > (s.length : Int) := by omega
  rw [if_neg h4, if_pos h5]
  have h6 : (s.length : Int) + ((s.length : Int) - (s.length : Int)) - 1 = (s.length : Int) - 1 := by
    omega
  rw [h6]
  unfold str_get_characters
  by_cases hs : s = []
  · subst hs
    simp [binary_string, raw_string]
  · have hpos : 0 < s.length := List.length_pos.mpr hs
    have hlen : (binary_string s).length_in_bytes = (s.length : Int) := rfl
    have hne : ¬ ((binary_string s).length_in_bytes = 0) := by rw [hlen]; omega
    have hb : ∀ index : Int, 0 ≤ index →
        str_get_character_boundaries M (binary_string s) index false = ⟨index, index + 1⟩ := by
      intro index hindex
      have hneg : ¬ (index < 0) := by omega
      unfold str_get_character_boundaries
      simp [binary_string, raw_string, str_is_stored_in_uchars, rb_encodings_BINARY, hneg]
    rw [if_neg hne]
    have hsb : (binary_string s).encoding.single_byte_encoding = true := rfl
    simp only [hsb, Bool.not_true, Bool.false_and, Bool.false_eq_true, if_false]
    rw [hb _ (by omega), hb _ (by omega)]
    have e1 : ¬ ((s.length : Int) = -1) := by omega
    have e2 : ¬ ((s.length : Int) - 1 + 1 = -1) := by omega
    simp only [e1, e2, if_false, hlen, if_true]

/-- The regular expression loop of `rstr_split` without a limit, over a binary
source `s` and the pattern that matches the empty string everywhere, entered
with the cursor and `start` at `b`: each character from `b` on is pushed as a
field, in two passes, then an empty string, and the cursor ends past the end
of the source. -/
theorem split_regexp_loop_binary_empty (M : encoding_methods_t) (s : List (Fin 256))
    (spat_str : rb_str_t) (k : Nat) :
    ∀ (b : Nat) (lim : Int) (result : List (Option rb_str_t)) (fuel : Nat),
      b + k = s.length → 2 * k + 3 ≤ fuel →
      ∃ pushed : List (Option rb_str_t),
        split_regexp_loop M (empty_regexp M) true fuel
            { str := binary_string s, spat_str := spat_str, beg := b, lim := lim,
              result := result } b false
          = some (.ok { str := binary_string s, spat_str := spat_str,
                        beg := ((s.length + 1 : Nat) : Int), lim := lim,
                        result := result ++ pushed })
        ∧ pushed.map (Option.map str_bytes) = ((s.drop b).map (fun c => [c]) ++ [[]]).map some
        ∧ (∀ f ∈ pushed, plain_field f) := by
  have hsearch : ∀ beg : Nat, beg ≤ s.length →
      (empty_regexp M).search (binary_string s) beg
        = some { pos := beg, match_beg := beg, match_end := beg, groups := [] } := by
    intro beg hbeg
    have : (0 : Int) ≤ (beg : Int) ∧ (beg : Int) ≤ (s.length : Int) := ⟨by omega, by omega⟩
    simp only [empty_regexp, str_length_binary_string]
    rw [if_pos this]
  have hpast : (empty_regexp M).search (binary_string s) ((s.length + 1 : Nat) : Int) = none := by
    have : ¬ ((0 : Int) ≤ ((s.length + 1 : Nat) : Int)
        ∧ ((s.length + 1 : Nat) : Int) ≤ (s.length : Int)) := by
      push_cast; omega
    simp only [empty_regexp, str_length_binary_string]
    rw [if_neg this]
  induction k with
  | zero =>
    intro b lim result fuel hbk hfuel
    have hb : b = s.length := by omega
    subst hb
    obtain ⟨fuel, rfl⟩ : ∃ f, fuel = f + 3 := ⟨fuel - 3, by omega⟩
    refine ⟨[some (str_new_similar_empty_string (binary_string s))], ?_, ?_, ?_⟩
    · rw [split_regexp_loop]
      simp only [hsearch s.length (le_refl _), true_and, Bool.false_eq_true, if_false, if_true,
        split_loop_condition]
      rw [split_regexp_loop]
      simp only [hsearch s.length (le_refl _), true_and, if_true, str_substr_binary_at_end,
        split_loop_condition, List.append_nil]
      rw [split_regexp_loop]
      have hcast : (s.length : Int) + 1 = ((s.length + 1 : Nat) : Int) := by push_cast; rfl
      simp only [hcast, hpast]
    · simp [str_new_similar_empty_string, str_keep_required_flags, str_alloc, str_bytes,
        read_bytes]
    · intro f hf
      simp only [List.mem_singleton] at hf
      rw [hf]
      exact ⟨_, rfl, rfl, rfl, by simp [str_new_similar_empty_string, str_keep_required_flags,
        str_alloc]⟩
  | succ k ih =>
    intro b lim result fuel hbk hfuel
    obtain ⟨fuel, rfl⟩ : ∃ f, fuel = f + 2 := ⟨fuel - 2, by omega⟩
    have hcut := str_substr_binary M s b 1 (by omega)
    have hfield := str_substr_binary_field s b 1 (by omega)
    have h10 : ¬ ((1 : Nat) = 0) := by omega
    rw [if_neg h10] at hcut hfield
    simp only [Nat.cast_one] at hcut hfield
    obtain ⟨pushed, hloop, hbytes, hplain⟩ := ih (b + 1) lim
      (result ++ [some (str_new_copy_of_part (binary_string s) b 1)]) fuel (by omega)
      (by omega)
    refine ⟨some (str_new_copy_of_part (binary_string s) b 1) :: pushed, ?_, ?_, ?_⟩
    · rw [split_regexp_loop]
      simp only [hsearch b (by omega), true_and, Bool.false_eq_true, if_false, if_true,
        split_loop_condition]
      rw [split_regexp_loop]
      simp only [hsearch b (by omega), true_and, if_true, hcut, split_loop_condition,
        List.append_nil]
      have hcast : (b : Int) + 1 = ((b + 1 : Nat) : Int) := by push_cast; rfl
      rw [hcast, hloop]
      simp
    · have hdrop : s.drop b = (s.drop b).take 1 ++ s.drop (b + 1) := by
        rw [← List.drop_drop, List.take_append_drop]
      have htake : ∃ c, (s.drop b).take 1 = [c] := by
        cases hd : s.drop b with
        | nil =>
          have := congrArg List.length hd
          simp at this
          omega
        | cons c rest => exact ⟨c, rfl⟩
      obtain ⟨c, hc⟩ := htake
      rw [List.map_cons, hbytes, hfield.1, hdrop, hc]
      simp
    · intro f hf
      rcases List.mem_cons.mp hf with h1 | h1
      · rw [h1]; exact hfield.2
      · exact hplain f h1

/-- Without a limit, `rstr_split` of a binary string on a pattern that matches
the empty string at every position returns the characters of the string, one
per field. -/
theorem rstr_split_binary_empty_regexp (M : encoding_methods_t)
    (rb_fs : Option split_pattern_t) (s : List (Fin 256)) :
    fields_bytes (rstr_split M rb_fs (binary_string s) (some (.regexp (empty_regexp M))) none)
      = some (.ok ((s.map (fun c => [c])).map some)) := by
  obtain ⟨pushed, hloop, hbytes, hplain⟩ :=
    split_regexp_loop_binary_empty M s str_new s.length 0 0 [] (2 * s.length + 4) (by omega)
      (by omega)
  simp only [List.drop_zero, List.nil_append, Nat.cast_zero] at hbytes hloop
  have hfin := split_finish_binary_no_limit M s str_new (s.length + 1) pushed
    (s.map (fun c => [c]) ++ [[]]) hbytes hplain
  have hdrop : s.drop (s.length + 1) = [] := List.drop_eq_nil_of_le (by omega)
  have hchars : (s.map (fun c => [c]) ++ [[]] ++ [[]]).rdropWhile (fun f => f.isEmpty)
      = s.map (fun c => [c]) := by
    rw [List.rdropWhile_concat_pos _ _ _ (by rfl), List.rdropWhile_concat_pos _ _ _ (by rfl)]
    rw [List.rdropWhile_eq_self_iff]
    intro hl
    have hmem := List.getLast_mem hl
    rw [List.mem_map] at hmem
    obtain ⟨c, _, hc⟩ := hmem
    rw [← hc]
    simp
  rw [hdrop, hchars] at hfin
  unfold rstr_split
  simp only [Option.getD_none, str_length_binary_string, Option.isNone_some, Bool.false_eq_true,
    if_false]
  have h01 : ¬ ((0 : Int) = 1) := by omega
  simp only [h01, if_false, Int.toNat_ofNat]
  have hdec : decide ((0 : Int) ≤ 0) = true := by decide
  simp only [hdec, hloop]
  exact hfin

/-! ## A surrogate pair and the ASCII-only flag -/

/-- C36 (the code at the failing input): the two units D800 DC00, the pair of
U+10000, are scanned as valid with a supplementary character and
`ascii_only = true`, although both units are above 127: the two surrogate
branches of the loop (lines 64-88) never clear `ascii_only`.  The same holds
through `str_update_flags` and for the answer of `str_is_ascii_only`. -/
theorem str_update_flags_utf16_pair_is_ascii_only :
    utf16_scanned_units pair_of_U10000 = [0xD800, 0xDC00]
    ∧ (str_update_flags_utf16 pair_of_U10000).valid_encoding = some true
    ∧ (str_update_flags_utf16 pair_of_U10000).has_supplementary = some true
    ∧ (str_update_flags_utf16 pair_of_U10000).ascii_only = some true
    ∧ ¬ (∀ u ∈ utf16_scanned_units pair_of_U10000, u ≤ 127)
    ∧ (str_update_flags unused_encoding_methods pair_of_U10000).ascii_only = some true
    ∧ (str_is_ascii_only unused_encoding_methods pair_of_U10000).1 = true := by
  decide

/-! ## `str_make_same_format` in its two argument orders -/

/-- C39 (as amended): `str_make_same_format(a, b)` brings `b` to the format of
`a`.  When `a` is stored as code units and `b` is raw, it attempts to promote
`b` and demotes `a` only if that attempt fails; when `a` is raw and `b` is
stored as code units, `a` is left as it is and `b` is demoted to raw bytes,
whether or not `a` could be promoted. -/
theorem str_make_same_format_spec (M : encoding_methods_t) (a b : rb_str_t) :
    (str_is_stored_in_uchars a = true → str_is_stored_in_uchars b = false →
      ((str_try_making_data_uchars M b).1 = true →
        str_make_same_format M a b = (a, (str_try_making_data_uchars M b).2))
      ∧ ((str_try_making_data_uchars M b).1 = false →
        str_make_same_format M a b
          = (str_make_data_binary M a, (str_try_making_data_uchars M b).2)))
    ∧ (str_is_stored_in_uchars a = false → str_is_stored_in_uchars b = true →
      str_make_same_format M a b = (a, str_make_data_binary M b)) := by
  refine ⟨fun ha hb => ⟨fun h => ?_, fun h => ?_⟩, fun ha hb => ?_⟩
  · simp [str_make_same_format, ha, hb, h]
  · simp [str_make_same_format, ha, hb, h]
  · simp [str_make_same_format, ha, hb]

/-- C39 (witness): "ab" in UTF-16BE, once as code units and once as raw bytes,
in the two orders. -/
theorem str_make_same_format_spec_witness :
    (str_is_stored_in_uchars utf16be_ab_uchars = true
      ∧ str_is_stored_in_uchars utf16be_ab_raw = false
      ∧ (str_try_making_data_uchars unused_encoding_methods utf16be_ab_raw).1 = true
      ∧ str_make_same_format unused_encoding_methods utf16be_ab_uchars utf16be_ab_raw
          = (utf16be_ab_uchars,
              (str_try_making_data_uchars unused_encoding_methods utf16be_ab_raw).2))
    ∧ str_make_same_format unused_encoding_methods utf16be_ab_raw utf16be_ab_uchars
        = (utf16be_ab_raw, str_make_data_binary unused_encoding_methods utf16be_ab_uchars) :=
  ⟨⟨by decide, by decide, by decide,
      ((str_make_same_format_spec unused_encoding_methods utf16be_ab_uchars utf16be_ab_raw).1
        (by decide) (by decide)).1 (by decide)⟩,
    (str_make_same_format_spec unused_encoding_methods utf16be_ab_raw utf16be_ab_uchars).2
      (by decide) (by decide)⟩

/-- C39 (counterexample): `a` is "ab" in UTF-16BE held as raw bytes, which
`str_try_making_data_uchars` promotes to code units, and `b` is the same text
stored as code units.  `str_make_same_format(a, b)` does not promote `a`: it
leaves `a` raw and demotes `b`; in the other order the raw string is promoted
and nothing is demoted. -/
theorem str_make_same_format_demotes_second :
    (str_try_making_data_uchars unused_encoding_methods utf16be_ab_raw).1 = true
    ∧ (str_make_same_format unused_encoding_methods utf16be_ab_raw utf16be_ab_uchars).1
        = utf16be_ab_raw
    ∧ str_is_stored_in_uchars
        (str_make_same_format unused_encoding_methods utf16be_ab_raw utf16be_ab_uchars).2 = false
    ∧ str_is_stored_in_uchars
        (str_make_same_format unused_encoding_methods utf16be_ab_uchars utf16be_ab_raw).1 = true
    ∧ str_is_stored_in_uchars
        (str_make_same_format unused_encoding_methods utf16be_ab_uchars utf16be_ab_raw).2 = true := by
  decide

/-! ## `str_invert_byte_order` -/

/-- Swapping the byte pairs twice gives back the buffer. -/
theorem swap_byte_pairs_involutive (pairs : Nat) (data : List (Fin 256)) :
    swap_byte_pairs pairs (swap_byte_pairs pairs data) = data := by
  induction pairs generalizing data with
  | zero => simp [swap_byte_pairs]
  | succ n ih =>
    match data with
    | [] => simp [swap_byte_pairs]
    | [a] => simp [swap_byte_pairs]
    | a :: b :: rest => simp [swap_byte_pairs, ih]

/-- The bytes of a buffer after the swap of its first `pairs` pairs, when the
buffer holds them: the two bytes of each of these pairs are exchanged, every
byte after them is untouched. -/
theorem swap_byte_pairs_getD (pairs : Nat) (data : List (Fin 256))
    (h : 2 * pairs ≤ data.length) :
    (∀ j, j < pairs →
      (swap_byte_pairs pairs data).getD (2 * j) 0 = data.getD (2 * j + 1) 0
      ∧ (swap_byte_pairs pairs data).getD (2 * j + 1) 0 = data.getD (2 * j) 0)
    ∧ (∀ i, 2 * pairs ≤ i → (swap_byte_pairs pairs data).getD i 0 = data.getD i 0) := by
  induction pairs generalizing data with
  | zero =>
    refine ⟨fun j hj => by omega, fun i _ => by simp [swap_byte_pairs]⟩
  | succ n ih =>
    match data, h with
    | [], h => simp at h
    | [a], h => simp at h; omega
    | a :: b :: rest, h =>
      have hrest : 2 * n ≤ rest.length := by simp only [List.length_cons] at h; omega
      obtain ⟨ih1, ih2⟩ := ih rest hrest
      constructor
      · intro j hj
        cases j with
        | zero => simp [swap_byte_pairs]
        | succ j =>
          have e1 : 2 * (j + 1) = (2 * j) + 1 + 1 := by omega
          have e2 : 2 * (j + 1) + 1 = (2 * j + 1) + 1 + 1 := by omega
          have := ih1 j (by omega)
          simp only [swap_byte_pairs, e1, e2, List.getD_cons_succ]
          exact this
      · intro i hi
        obtain ⟨i, rfl⟩ : ∃ k, i = k + 1 + 1 := ⟨i - 2, by omega⟩
        simp only [swap_byte_pairs, List.getD_cons_succ]
        exact ih2 i (by omega)

/-- The number of byte pairs that `str_invert_byte_order` exchanges. -/
theorem str_invert_byte_order_pairs (len : Int) (h0 : 0 ≤ len) :
    ((if ODD_NUMBER len = true then len - 1 else len) / 2).toNat = len.toNat / 2 := by
  unfold ODD_NUMBER
  split_ifs with h
  · simp at h; omega
  · omega

/-- Applying `str_invert_byte_order` twice gives back the string. -/
theorem str_invert_byte_order_twice (self : rb_str_t) :
    str_invert_byte_order (str_invert_byte_order self) = self := by
  unfold str_invert_byte_order str_negate_stored_in_uchars
  simp [swap_byte_pairs_involutive]

/-- C40: `str_invert_byte_order`, on a string whose buffer holds its
`length_in_bytes` bytes, exchanges the two bytes of every adjacent pair (bytes
`2j` and `2j + 1`), leaves the last byte untouched when the byte length is odd
(as every byte from `length_in_bytes` on), keeps `length_in_bytes` and the
encoding, and toggles the storage flag; applied twice it restores the string.
So, for a UTF-16 string of non-native byte order, `str_try_making_data_uchars`
followed by `str_make_data_binary` is the identity on a raw string, and
`str_make_data_binary` followed by `str_try_making_data_uchars` is the identity
on a string stored as code units. -/
theorem str_invert_byte_order_spec (M : encoding_methods_t) (self : rb_str_t)
    (h0 : 0 ≤ self.length_in_bytes) (hbuf : self.length_in_bytes ≤ (self.data.length : Int)) :
    (∀ j : Nat, ((2 * j + 1 : Nat) : Int) < self.length_in_bytes →
      byte_at (str_invert_byte_order self).data (2 * j) = byte_at self.data (2 * j + 1)
      ∧ byte_at (str_invert_byte_order self).data (2 * j + 1) = byte_at self.data (2 * j))
    ∧ (ODD_NUMBER self.length_in_bytes = true →
        byte_at (str_invert_byte_order self).data (self.length_in_bytes - 1).toNat
          = byte_at self.data (self.length_in_bytes - 1).toNat)
    ∧ (∀ i : Nat, self.length_in_bytes ≤ (i : Int) →
        byte_at (str_invert_byte_order self).data i = byte_at self.data i)
    ∧ (str_invert_byte_order self).length_in_bytes = self.length_in_bytes
    ∧ (str_invert_byte_order self).encoding = self.encoding
    ∧ (str_invert_byte_order self).stored_in_uchars = !self.stored_in_uchars
    ∧ str_invert_byte_order (str_invert_byte_order self) = self
    ∧ (NON_NATIVE_UTF16_ENC self.encoding = true → str_is_stored_in_uchars self = false →
        (str_try_making_data_uchars M self).1 = true
        ∧ str_make_data_binary M (str_try_making_data_uchars M self).2 = self)
    ∧ (NON_NATIVE_UTF16_ENC self.encoding = true → str_is_stored_in_uchars self = true →
        str_try_making_data_uchars M (str_make_data_binary M self) = (true, self)) := by
  have hp := str_invert_byte_order_pairs self.length_in_bytes h0
  have hdata : (str_invert_byte_order self).data
      = swap_byte_pairs (self.length_in_bytes.toNat / 2) self.data := by
    simp [str_invert_byte_order, str_negate_stored_in_uchars, hp]
  obtain ⟨hs1, hs2⟩ := swap_byte_pairs_getD (self.length_in_bytes.toNat / 2) self.data (by omega)
  have hnn : ∀ enc : rb_encoding_t, NON_NATIVE_UTF16_ENC enc = true →
      NATIVE_UTF16_ENC enc = false := by
    intro enc h
    unfold NON_NATIVE_UTF16_ENC at h
    unfold NATIVE_UTF16_ENC
    simp only [beq_iff_eq] at h
    simp [h]
  refine ⟨?_, ?_, ?_, rfl, rfl, rfl, str_invert_byte_order_twice self, ?_, ?_⟩
  · intro j hj
    rw [hdata]
    unfold byte_at
    obtain ⟨h1, h2⟩ := hs1 j (by omega)
    rw [h1, h2]
    exact ⟨rfl, rfl⟩
  · intro hodd
    rw [hdata]
    unfold byte_at
    rw [hs2 _ (by unfold ODD_NUMBER at hodd; simp at hodd; omega)]
  · intro i hi
    rw [hdata]
    unfold byte_at
    rw [hs2 i (by omega)]
  · intro he hraw
    have hst : (str_invert_byte_order self).stored_in_uchars = true := by
      unfold str_is_stored_in_uchars at hraw
      simp [str_invert_byte_order, str_negate_stored_in_uchars, hraw]
    have htry : str_try_making_data_uchars M self = (true, str_invert_byte_order self) := by
      simp [str_try_making_data_uchars, hraw, he]
    rw [htry]
    refine ⟨rfl, ?_⟩
    have he2 : NON_NATIVE_UTF16_ENC (str_invert_byte_order self).encoding = true := he
    simp only [str_make_data_binary, str_is_stored_in_uchars, hst, hnn _ he2, he2,
      Bool.not_true, Bool.or_false, Bool.false_eq_true, if_false, if_true]
    exact str_invert_byte_order_twice self
  · intro he hst
    have hbin : str_make_data_binary M self = str_invert_byte_order self := by
      simp [str_make_data_binary, hst, hnn _ he, he]
    have hraw : str_is_stored_in_uchars (str_invert_byte_order self) = false := by
      unfold str_is_stored_in_uchars at hst ⊢
      simp [str_invert_byte_order, str_negate_stored_in_uchars, hst]
    have he2 : NON_NATIVE_UTF16_ENC (str_invert_byte_order self).encoding = true := he
    rw [hbin]
    simp only [str_try_making_data_uchars, hraw, he2, Bool.false_eq_true, if_false, if_true]
    rw [str_invert_byte_order_twice]

/-- C40 (witness): the three UTF-16BE bytes 00 61 62 held as raw bytes; its
byte order inverted, the buffer holds 61 00 62. -/
theorem str_invert_byte_order_spec_witness :
    (0 ≤ utf16be_odd_raw.length_in_bytes
      ∧ utf16be_odd_raw.length_in_bytes ≤ (utf16be_odd_raw.data.length : Int)
      ∧ (str_invert_byte_order utf16be_odd_raw).data = [0x61, 0x00, 0x62])
    ∧ str_invert_byte_order (str_invert_byte_order utf16be_odd_raw) = utf16be_odd_raw
    ∧ str_make_data_binary unused_encoding_methods
        (str_try_making_data_uchars unused_encoding_methods utf16be_odd_raw).2 = utf16be_odd_raw :=
  ⟨⟨by decide, by decide, by decide⟩,
    (str_invert_byte_order_spec unused_encoding_methods utf16be_odd_raw (by decide)
      (by decide)).2.2.2.2.2.2.1,
    ((str_invert_byte_order_spec unused_encoding_methods utf16be_odd_raw (by decide)
      (by decide)).2.2.2.2.2.2.2.1 (by decide) (by decide)).2⟩

/-! ## Code-unit mode in the UTF-16 encodings -/

/-- Substrings of UTF-16 strings stored as code units, in code-unit mode: for
`0 <= first <= last` and `first` inside the string, `str_get_characters`
leaves the source as it was and returns the copy of the bytes from `2 * first`
up to `2 * last + 2`, clamped to `length_in_bytes`, whatever the units are. -/
theorem str_get_characters_utf16_ucs2 (M : encoding_methods_t) (self : rb_str_t)
    (first last : Int) (hu : str_is_stored_in_uchars self = true)
    (he : UTF16_ENC self.encoding = true)
    (h0 : 0 ≤ first) (hfl : first ≤ last) (hlt : 2 * first < self.length_in_bytes) :
    str_get_characters M self first last true
      = (self, .ok (some (str_new_copy_of_part self (2 * first)
          (min (2 * last + 2) self.length_in_bytes - 2 * first)))) := by
  have hb : ∀ index : Int, 0 ≤ index →
      str_get_character_boundaries M self index true = ⟨2 * index, 2 * index + 2⟩ := by
    intro index hindex
    have h1 : ¬ (index < 0) := by omega
    have h2 : UCHARS_TO_BYTES index = 2 * index := by unfold UCHARS_TO_BYTES; omega
    unfold str_get_character_boundaries
    simp [hu, h1, h2, he]
  have hlen : self.length_in_bytes ≠ 0 := by omega
  have h1 : 2 * first ≠ -1 := by omega
  have h2 : 2 * last + 2 ≠ -1 := by omega
  have h3 : 2 * first ≠ self.length_in_bytes := by omega
  have h4 : ¬ (2 * first > self.length_in_bytes) := by omega
  unfold str_get_characters
  simp only [hlen, if_false, hu, Bool.not_true, Bool.and_false, Bool.false_eq_true]
  rw [hb first h0, hb last (by omega)]
  simp only [h1, h2, h3, h4, if_false]
  congr 4
  by_cases h5 : 2 * last + 2 ≥ self.length_in_bytes
  · simp only [h5, if_true]; omega
  · simp only [h5, if_false]; omega

/-- C31 (as amended): for a string in a UTF-16 encoding stored as code units
and a code-unit index `k` followed by at least one more unit (as is the index
of the lead of a supplementary pair), `str_get_characters(self, k, k)` in
code-unit mode returns without error a slice of one code unit (2 bytes), the
unit at `k`, and `str_get_characters(self, k, k + 1)` returns the slice of two
code units (4 bytes) that holds the whole pair. -/
theorem str_get_characters_utf16_pair (M : encoding_methods_t) (self : rb_str_t) (k : Int)
    (hu : str_is_stored_in_uchars self = true) (he : UTF16_ENC self.encoding = true)
    (h0 : 0 ≤ k) (hk : 2 * k + 4 ≤ self.length_in_bytes) :
    str_get_characters M self k k true
      = (self, .ok (some (str_new_copy_of_part self (2 * k) 2)))
    ∧ str_get_characters M self k (k + 1) true
      = (self, .ok (some (str_new_copy_of_part self (2 * k) 4)))
    ∧ (str_new_copy_of_part self (2 * k) 2).length_in_bytes = 2
    ∧ (str_new_copy_of_part self (2 * k) 4).length_in_bytes = 4
    ∧ (str_new_copy_of_part self (2 * k) 4).data = read_bytes self.data (2 * k).toNat 4 := by
  have h1 := str_get_characters_utf16_ucs2 M self k k hu he h0 (le_refl _) (by omega)
  have h2 := str_get_characters_utf16_ucs2 M self k (k + 1) hu he h0 (by omega) (by omega)
  have e1 : min (2 * k + 2) self.length_in_bytes - 2 * k = 2 := by omega
  have e2 : min (2 * (k + 1) + 2) self.length_in_bytes - 2 * k = 4 := by omega
  rw [e1] at h1
  rw [e2] at h2
  obtain ⟨_, hl2, _⟩ := str_new_copy_of_part_spec self (2 * k) 2
  obtain ⟨_, hl4, hd4⟩ := str_new_copy_of_part_spec self (2 * k) 4
  exact ⟨h1, h2, hl2, hl4, hd4⟩

/-- C31 (witness): "a" followed by U+1F600 in UTF-16LE, the pair at code-unit
index 1: the slice of the units 1 to 2 is the pair, the bytes 3D D8 00 DE. -/
theorem str_get_characters_utf16_pair_witness :
    (str_is_stored_in_uchars utf16le_a_U1F600 = true
      ∧ UTF16_ENC utf16le_a_U1F600.encoding = true
      ∧ (0 : Int) ≤ 1 ∧ (2 * 1 + 4 : Int) ≤ utf16le_a_U1F600.length_in_bytes
      ∧ read_bytes utf16le_a_U1F600.data 2 4 = [0x3D, 0xD8, 0x00, 0xDE])
    ∧ str_get_characters unused_encoding_methods utf16le_a_U1F600 1 (1 + 1) true
      = (utf16le_a_U1F600, .ok (some (str_new_copy_of_part utf16le_a_U1F600 (2 * 1) 4))) :=
  ⟨⟨by decide, by decide, by decide, by decide, by decide⟩,
    (str_get_characters_utf16_pair unused_encoding_methods utf16le_a_U1F600 1 (by decide)
      (by decide) (by decide) (by decide)).2.1⟩

/-- C31 (counterexample): "a" followed by U+1F600 in UTF-16LE holds its
supplementary pair at code-unit index 1 (the units D83D DE00).  In code-unit
mode `str_get_characters(self, 1, 1)` returns without error a slice of 2
bytes, not 4: the lead D83D alone. -/
theorem str_get_characters_utf16_pair_is_cut :
    utf16_scanned_units utf16le_a_U1F600 = [0x61, 0xD83D, 0xDE00]
    ∧ (str_get_characters unused_encoding_methods utf16le_a_U1F600 1 1 true).2
        = .ok (some (str_new_copy_of_part utf16le_a_U1F600 2 2))
    ∧ (str_new_copy_of_part utf16le_a_U1F600 2 2).length_in_bytes = 2
    ∧ str_bytes (str_new_copy_of_part utf16le_a_U1F600 2 2) = [0x3D, 0xD8]
    ∧ (str_new_copy_of_part utf16le_a_U1F600 2 2).length_in_bytes ≠ 4 := by
  decide

/-! ## The flags of a slice -/

/-- C32 (as amended): every string that `str_get_characters` returns, empty or
not, has its three cached flags unknown; for an empty one the first query
computes them: valid and ASCII-only. -/
theorem str_get_characters_flags_unknown (M : encoding_methods_t) (self : rb_str_t)
    (first last : Int) (ucs2_mode : Bool) (r : rb_str_t)
    (h : (str_get_characters M self first last ucs2_mode).2 = .ok (some r)) :
    r.valid_encoding = none ∧ r.ascii_only = none ∧ r.has_supplementary = none
    ∧ (r.length_in_bytes = 0 →
        (str_update_flags M r).valid_encoding = some true
        ∧ (str_is_ascii_only M r).1 = true) := by
  have hflags : r.valid_encoding = none ∧ r.ascii_only = none ∧ r.has_supplementary = none := by
    unfold str_get_characters at h
    simp only [] at h
    split_ifs at h <;>
      first
      | (simp only [Except.ok.injEq, Option.some.injEq] at h
         subst h
         simp [str_new_similar_empty_string, str_new_copy_of_part, str_keep_required_flags])
      | (simp at h)
  refine ⟨hflags.1, hflags.2.1, hflags.2.2, ?_⟩
  intro h0
  simp [str_update_flags, str_is_ascii_only, h0, hflags.2.1, str_set_valid_encoding,
    str_set_ascii_only, str_set_has_supplementary]

/-- C32 (witness): the empty slice of the empty binary string. -/
theorem str_get_characters_flags_unknown_witness :
    (str_get_characters unused_encoding_methods binary_empty 0 0 false).2
      = .ok (some (str_new_similar_empty_string binary_empty))
    ∧ (str_new_similar_empty_string binary_empty).valid_encoding = none :=
  ⟨by decide,
    (str_get_characters_flags_unknown unused_encoding_methods binary_empty 0 0 false
      (str_new_similar_empty_string binary_empty) (by decide)).1⟩

/-- C32 (counterexample): the empty string sliced from the empty binary string
with `first = 0`, and the one sliced from "abc" with `first` at the end of the
string, are returned with `valid_encoding` and `ascii_only` unknown, not set to
true. -/
theorem str_get_characters_empty_slice_flags_unknown :
    (∃ r, (str_get_characters unused_encoding_methods binary_empty 0 0 false).2 = .ok (some r)
      ∧ r.length_in_bytes = 0 ∧ r.valid_encoding ≠ some true ∧ r.ascii_only ≠ some true)
    ∧ (∃ r, (str_get_characters unused_encoding_methods latin1_abc 3 3 false).2 = .ok (some r)
      ∧ r.length_in_bytes = 0 ∧ r.valid_encoding ≠ some true ∧ r.ascii_only ≠ some true) :=
  ⟨⟨str_new_similar_empty_string binary_empty, by decide, by decide, by decide, by decide⟩,
    ⟨str_new_similar_empty_string latin1_abc, by decide, by decide, by decide, by decide⟩⟩

/-! ## The range that `str_get_characters` copies -/

/-- The start offset that `str_get_character_boundaries` returns is -1 or not
negative, when that of the per-encoding operation is. -/
theorem str_get_character_boundaries_start_nonneg (M : encoding_methods_t)
    (hM : ∀ s i m, (M.get_character_boundaries s i m).start_offset_in_bytes = -1
      ∨ 0 ≤ (M.get_character_boundaries s i m).start_offset_in_bytes)
    (self : rb_str_t) (index : Int) (ucs2_mode : Bool) :
    (str_get_character_boundaries M self index ucs2_mode).start_offset_in_bytes = -1
    ∨ 0 ≤ (str_get_character_boundaries M self index ucs2_mode).start_offset_in_bytes := by
  unfold str_get_character_boundaries
  simp only [UCHARS_TO_BYTES]
  split_ifs <;> first
    | (left; rfl)
    | (right; simp only []; omega)
    | exact hM _ _ _

/-- The boundaries of a character of a string of single bytes held as bytes. -/
theorem str_get_character_boundaries_single_byte (M : encoding_methods_t) (self : rb_str_t)
    (index : Int) (ucs2_mode : Bool) (hs : self.encoding.single_byte_encoding = true)
    (hu : str_is_stored_in_uchars self = false) :
    str_get_character_boundaries M self index ucs2_mode
      = if (if index < 0 then index + self.length_in_bytes else index) < 0 then ⟨-1, -1⟩
        else ⟨if index < 0 then index + self.length_in_bytes else index,
              (if index < 0 then index + self.length_in_bytes else index) + 1⟩ := by
  unfold str_get_character_boundaries
  simp [hs, hu]

/-- The string that `str_get_characters` leaves and cuts from: `self`,
converted to code units if it is neither empty, nor of single bytes, nor held
as code units. -/
theorem str_get_characters_source (M : encoding_methods_t) (self : rb_str_t)
    (first last : Int) (ucs2_mode : Bool) :
    (str_get_characters M self first last ucs2_mode).1
      = if self.length_in_bytes = 0 then self
        else if !self.encoding.single_byte_encoding && !str_is_stored_in_uchars self then
          (str_try_making_data_uchars M self).2
        else self := by
  unfold str_get_characters
  simp only []
  split_ifs <;> rfl

/-- The outcome of `str_get_characters` on a string that is not empty, in terms
of the string it cuts from. -/
theorem str_get_characters_outcome (M : encoding_methods_t) (self : rb_str_t)
    (first last : Int) (ucs2_mode : Bool) (hne : self.length_in_bytes ≠ 0) (s : rb_str_t)
    (hs : s = (str_get_characters M self first last ucs2_mode).1) :
    (str_get_characters M self first last ucs2_mode).2
      = if (str_get_character_boundaries M s first ucs2_mode).start_offset_in_bytes = -1 then
          if (str_get_character_boundaries M s last ucs2_mode).end_offset_in_bytes = -1 then
            .error str_cannot_cut_surrogate
          else .ok none
        else if (str_get_character_boundaries M s last ucs2_mode).end_offset_in_bytes = -1 then
          .error str_cannot_cut_surrogate
        else if (str_get_character_boundaries M s first ucs2_mode).start_offset_in_bytes
            = s.length_in_bytes then
          .ok (some (str_new_similar_empty_string s))
        else if (str_get_character_boundaries M s first ucs2_mode).start_offset_in_bytes
            > s.length_in_bytes then
          .ok none
        else
          .ok (some (str_new_copy_of_part s
            (str_get_character_boundaries M s first ucs2_mode).start_offset_in_bytes
            ((if (str_get_character_boundaries M s last ucs2_mode).end_offset_in_bytes
                ≥ s.length_in_bytes then s.length_in_bytes
              else (str_get_character_boundaries M s last ucs2_mode).end_offset_in_bytes)
              - (str_get_character_boundaries M s first ucs2_mode).start_offset_in_bytes))) := by
  rw [str_get_characters_source, if_neg hne] at hs
  subst hs
  unfold str_get_characters
  rw [if_neg hne]
  simp only []
  split_ifs <;> rfl

/-! ## The units read by the walk of `str_offset_in_bytes_to_index` -/

/-- The traced loop returns what the loop returns. -/
theorem offset_to_index_loop_traced_fst (data : List (Fin 256)) (length offset_in_bytes : Int)
    (fuel : Nat) (index : Int) (i : Nat) :
    (offset_to_index_loop_traced data length offset_in_bytes fuel index i).1
      = offset_to_index_loop data length offset_in_bytes fuel index i := by
  induction fuel generalizing index i with
  | zero => rfl
  | succ n ih =>
    unfold offset_to_index_loop_traced offset_to_index_loop
    simp only []
    split_ifs <;> first | rfl | exact ih _ _

/-- C37: "abc" stored as the three code units 0061 0062 0063 (six bytes,
nothing cached) and the byte offset 4: the walk returns, after it has read the
units 0, 1, 2 and 3, the last of which is beyond the three units of the
buffer. -/
theorem str_offset_in_bytes_to_index_reads_past_the_end :
    str_is_stored_in_uchars utf8_abc = true
    ∧ str_known_not_to_have_any_supplementary utf8_abc = false
    ∧ utf8_abc.length_in_bytes = 6
    ∧ BYTES_TO_UCHARS utf8_abc.length_in_bytes = 3
    ∧ str_offset_in_bytes_to_index unused_encoding_methods utf8_abc 4 false = some 4
    ∧ offset_to_index_loop_traced utf8_abc.data (BYTES_TO_UCHARS utf8_abc.length_in_bytes) 4
        4 0 0 = (some 4, [0, 1, 2, 3])
    ∧ ¬ ∀ r ∈ (offset_to_index_loop_traced utf8_abc.data
          (BYTES_TO_UCHARS utf8_abc.length_in_bytes) 4 4 0 0).2,
        (r : Int) < utf8_abc.length_in_bytes / 2 :=
  ⟨by decide, by decide, by decide, by decide, by decide, by decide, by decide⟩

/-! ## `rstr_chomp` -/

/-- The examples of the documentation of `String#chomp`, on binary strings,
with the default separator. -/
theorem rstr_chomp_documented_examples :
    chomp_bytes (rstr_chomp unused_encoding_methods binary_hello (some binary_newline) true)
      = some (.ok [0x68, 0x65, 0x6C, 0x6C, 0x6F])
    ∧ chomp_bytes (rstr_chomp unused_encoding_methods
        (binary_string [0x68, 0x65, 0x6C, 0x6C, 0x6F, 0x0A]) (some binary_newline) true)
      = some (.ok [0x68, 0x65, 0x6C, 0x6C, 0x6F])
    ∧ chomp_bytes (rstr_chomp unused_encoding_methods
        (binary_string [0x68, 0x65, 0x6C, 0x6C, 0x6F, 0x0D, 0x0A]) (some binary_newline) true)
      = some (.ok [0x68, 0x65, 0x6C, 0x6C, 0x6F])
    ∧ chomp_bytes (rstr_chomp unused_encoding_methods
        (binary_string [0x68, 0x65, 0x6C, 0x6C, 0x6F, 0x0A, 0x0D]) (some binary_newline) true)
      = some (.ok [0x68, 0x65, 0x6C, 0x6C, 0x6F, 0x0A])
    ∧ chomp_bytes (rstr_chomp unused_encoding_methods
        (binary_string [0x68, 0x65, 0x6C, 0x6C, 0x6F, 0x0D]) (some binary_newline) true)
      = some (.ok [0x68, 0x65, 0x6C, 0x6C, 0x6F])
    ∧ chomp_bytes (rstr_chomp unused_encoding_methods binary_hello (some binary_llo) false)
      = some (.ok [0x68, 0x65])
    ∧ chomp_bytes (rstr_chomp unused_encoding_methods binary_empty (some binary_newline) true)
      = some (.ok []) :=
  ⟨by decide, by decide, by decide, by decide, by decide, by decide, by decide⟩

/-- C34: the binary string "\n" (the empty string followed by "\n") with the
default separator: `rstr_chomp` does not return, the assertion of
`str_get_uchar` fails at the position -1; so with "\n" given as the separator.
And U+1F600 followed by "\n", stored as code units, is returned with its
"\n". -/
theorem rstr_chomp_lone_newline_fails :
    str_length unused_encoding_methods binary_newline false = 1
    ∧ str_get_uchar unused_encoding_methods binary_newline 0 false = some (binary_newline, 0x0A)
    ∧ str_get_uchar unused_encoding_methods binary_newline (1 - 2) false = none
    ∧ rstr_chomp unused_encoding_methods binary_newline (some binary_newline) true = none
    ∧ rstr_chomp unused_encoding_methods binary_newline (some binary_newline) false = none
    ∧ str_length unused_encoding_methods utf8_U1F600_newline false = 2
    ∧ chomp_bytes (rstr_chomp unused_encoding_methods utf8_U1F600_newline
        (some binary_newline) true)
      = some (.ok [0x3D, 0xD8, 0x00, 0xDE, 0x0A, 0x00]) :=
  ⟨by decide, by decide, by decide, by decide, by decide, by decide, by decide⟩
/-- The copy of a binary string made by `rb_str_new3`. -/
theorem rb_str_new3_binary (t : List (Fin 256)) :
    rb_str_new3 (binary_string t) = binary_string t := by
  unfold rb_str_new3 str_replace_with_string str_replace_with_bytes
  by_cases h : (t.length : Int) > 0
  · have hm : memcpy [] 0 t 0 t.length = t := by
      simp only [memcpy, read_bytes, List.range_zero, List.map_nil, List.nil_append,
        List.drop_nil, List.append_nil]
      have := read_bytes_prefix t []
      simpa [read_bytes] using this
    simp [binary_string, raw_string, h, str_clear_flags, str_alloc, hm]
  · have h0 : t = [] := by
      cases t with
      | nil => rfl
      | cons a l => simp at h
    subst h0
    simp [binary_string, raw_string, str_clear_flags, str_alloc]

/-- The function `str_get_uchar` on a binary string, at a position inside
it. -/
theorem str_get_uchar_binary (M : encoding_methods_t) (t : List (Fin 256)) (pos : Nat)
    (h : pos < t.length) :
    str_get_uchar M (binary_string t) pos false
      = some (binary_string t, char_to_UChar (byte_at t pos)) := by
  unfold str_get_uchar
  rw [str_length_binary_string]
  have h1 : ((pos : Int) ≥ 0 ∧ (pos : Int) < (t.length : Int)) := by omega
  simp [h1, str_try_making_data_uchars, binary_string, raw_string, str_is_stored_in_uchars,
    rb_encodings_BINARY, NON_NATIVE_UTF16_ENC, BINARY_ENC]

/-- A byte read as a `UChar` is an ASCII character exactly when the byte is. -/
theorem char_to_UChar_eq_ascii (b c : Nat) (hc : c ≤ 127) : char_to_UChar b = c ↔ b = c := by
  unfold char_to_UChar
  split_ifs with h1
  · omega
  · rfl

/-- The end of `rstr_chomp_bang` on a binary string: its last `to_del` bytes
are dropped. -/
theorem chomp_bang_delete_binary (M : encoding_methods_t) (u v : List (Fin 256))
    (hv : v ≠ []) :
    (chomp_bang_delete M (binary_string (u ++ v)) ((u ++ v).length : Nat) (v.length : Nat)).map
      (fun r => r.map (fun p => str_bytes p.1)) = some (.ok u) := by
  have hv0 : ¬ ((v.length : Int) = 0) := by
    cases v with
    | nil => exact absurd rfl hv
    | cons a l => simp; omega
  unfold chomp_bang_delete str_delete
  rw [if_neg hv0, str_length_binary_string]
  have h1 : ((u ++ v).length : Int) - (v.length : Int) + (v.length : Int) = ((u ++ v).length : Int) := by
    omega
  rw [if_pos h1]
  simp only [binary_string, raw_string, str_is_stored_in_uchars, Bool.false_eq_true, if_false,
    Option.map_some', Except.map, str_bytes]
  have hlen : (((u ++ v).length : Int) - (v.length : Int)).toNat = u.length := by
    simp
  rw [hlen]
  have := read_bytes_prefix u v
  simpa using this

/-- The byte that follows the bytes `u`. -/
theorem byte_at_append_zero (u : List (Fin 256)) (x : Fin 256) (rest : List (Fin 256)) :
    byte_at (u ++ x :: rest) u.length = x.val := by
  unfold byte_at
  rw [List.getD_eq_getElem _ _ (by simp), List.getElem_append_right (Nat.le_refl _)]
  simp

/-- The second byte after the bytes `u`. -/
theorem byte_at_append_one (u : List (Fin 256)) (x y : Fin 256) (rest : List (Fin 256)) :
    byte_at (u ++ x :: y :: rest) (u.length + 1) = y.val := by
  have h : u ++ x :: y :: rest = (u ++ [x]) ++ y :: rest := by simp
  have h2 : u.length + 1 = (u ++ [x]).length := by simp
  rw [h, h2, byte_at_append_zero]

/-- The bytes of the string that `rstr_chomp` returns for a binary string, in
terms of `rstr_chomp_bang` on that string. -/
theorem chomp_bytes_rstr_chomp_binary (M : encoding_methods_t) (t : List (Fin 256))
    (rs : Option rb_str_t) (rs_is_default : Bool) :
    chomp_bytes (rstr_chomp M (binary_string t) rs rs_is_default)
      = (rstr_chomp_bang M (binary_string t) rs rs_is_default).map
          (fun r => r.map (fun p => str_bytes p.1)) := by
  unfold chomp_bytes rstr_chomp
  rw [rb_str_new3_binary]
  cases rstr_chomp_bang M (binary_string t) rs rs_is_default with
  | none => rfl
  | some r =>
    cases r with
    | error e => rfl
    | ok p => rfl

/-- The function `rstr_chomp` on binary strings with the default separator
"\n": it removes one trailing "\n" that follows a byte other than "\r", one
trailing "\r\n", or one trailing "\r", and leaves every other string as it
is. -/
theorem rstr_chomp_binary_default (M : encoding_methods_t) (u : List (Fin 256)) (a : Fin 256) :
    (a ≠ 0x0D →
      chomp_bytes (rstr_chomp M (binary_string (u ++ [a, 0x0A])) (some binary_newline) true)
        = some (.ok (u ++ [a])))
    ∧ chomp_bytes (rstr_chomp M (binary_string (u ++ [0x0D, 0x0A])) (some binary_newline) true)
        = some (.ok u)
    ∧ chomp_bytes (rstr_chomp M (binary_string (u ++ [0x0D])) (some binary_newline) true)
        = some (.ok u)
    ∧ (a ≠ 0x0A → a ≠ 0x0D →
      chomp_bytes (rstr_chomp M (binary_string (u ++ [a])) (some binary_newline) true)
        = some (.ok (u ++ [a])))
    ∧ chomp_bytes (rstr_chomp M (binary_string []) (some binary_newline) true) = some (.ok []) := by
  have hrs : rb_str_chars_len M (some binary_newline) = some 1 := by
    simp [rb_str_chars_len, binary_newline, str_length_binary_string]
  have key : ∀ t : List (Fin 256), t ≠ [] →
      rstr_chomp_bang M (binary_string t) (some binary_newline) true
        = (match str_get_uchar M (binary_string t) ((t.length : Int) - 1) false with
          | none => none
          | some (str, c) =>
            match (if c = 0x0A then
                (str_get_uchar M str ((t.length : Int) - 2) false).map (fun r => (r.1, r.2, (1 : Int)))
              else some (str, c, 0)) with
            | none => none
            | some (str, c, to_del) =>
              chomp_bang_delete M str t.length
                (if c = 0x0D ∧ ((1 : Int) > 0 ∨ to_del ≠ 0) then to_del + 1 else to_del)) := by
    intro t ht
    have hl : ¬ ((t.length : Int) = 0) := by
      cases t with
      | nil => exact absurd rfl ht
      | cons x l => simp; omega
    unfold rstr_chomp_bang
    simp only [rstr_modify, str_length_binary_string, hl, if_false, hrs, Bool.true_or, if_true]
  have hn : ((0x0A : Fin 256).val = 0x0A) := rfl
  have hr : ((0x0D : Fin 256).val = 0x0D) := rfl
  refine ⟨?_, ?_, ?_, ?_, ?_⟩
  · intro ha
    have hne : u ++ [a, 0x0A] ≠ [] := by simp
    have hav : ¬ (a.val = 0x0D) := fun h => ha (Fin.ext h)
    have e1 : (((u ++ [a, 0x0A]).length : Nat) : Int) - 1 = ((u.length + 1 : Nat) : Int) := by
      simp; omega
    have e2 : (((u ++ [a, 0x0A]).length : Nat) : Int) - 2 = ((u.length : Nat) : Int) := by
      simp
    rw [chomp_bytes_rstr_chomp_binary, key _ hne, e1, e2,
      str_get_uchar_binary M _ _ (by simp), byte_at_append_one]
    simp only [hn, char_to_UChar, if_true, Nat.reduceLT, if_false, gt_iff_lt, Nat.reduceGT]
    rw [str_get_uchar_binary M _ _ (by simp), byte_at_append_zero]
    simp only [Option.map_some']
    have hc : ¬ (char_to_UChar a.val = 0x0D ∧ ((1 : Int) > 0 ∨ (1 : Int) ≠ 0)) := by
      rw [char_to_UChar_eq_ascii _ _ (by decide)]
      exact fun h => hav h.1
    rw [if_neg hc]
    have := chomp_bang_delete_binary M (u ++ [a]) [0x0A] (by simp)
    simpa using this
  · have hne : u ++ [0x0D, 0x0A] ≠ [] := by simp
    have e1 : (((u ++ [0x0D, 0x0A]).length : Nat) : Int) - 1 = ((u.length + 1 : Nat) : Int) := by
      simp; omega
    have e2 : (((u ++ [0x0D, 0x0A]).length : Nat) : Int) - 2 = ((u.length : Nat) : Int) := by
      simp
    rw [chomp_bytes_rstr_chomp_binary, key _ hne, e1, e2,
      str_get_uchar_binary M _ _ (by simp), byte_at_append_one]
    simp only [hn, char_to_UChar, if_true, Nat.reduceLT, if_false, gt_iff_lt, Nat.reduceGT]
    rw [str_get_uchar_binary M _ _ (by simp), byte_at_append_zero]
    simp only [Option.map_some', hr, char_to_UChar, Nat.reduceLT, Nat.reduceGT, if_false]
    have hc : (True ∧ ((0 : Int) < 1 ∨ (1 : Int) ≠ 0)) := by decide
    rw [if_pos hc]
    have := chomp_bang_delete_binary M u [0x0D, 0x0A] (by simp)
    simpa using this
  · have hne : u ++ [0x0D] ≠ [] := by simp
    have e1 : (((u ++ [0x0D]).length : Nat) : Int) - 1 = ((u.length : Nat) : Int) := by
      simp
    rw [chomp_bytes_rstr_chomp_binary, key _ hne, e1,
      str_get_uchar_binary M _ _ (by simp), byte_at_append_zero]
    simp only [hr, char_to_UChar, Nat.reduceLT, Nat.reduceGT, if_false, Nat.reduceEqDiff]
    have hc : (True ∧ ((1 : Int) > 0 ∨ (0 : Int) ≠ 0)) := by decide
    rw [if_pos hc]
    have := chomp_bang_delete_binary M u [0x0D] (by simp)
    simpa using this
  · intro ha1 ha2
    have hne : u ++ [a] ≠ [] := by simp
    have hav1 : ¬ (a.val = 0x0A) := fun h => ha1 (Fin.ext h)
    have hav2 : ¬ (a.val = 0x0D) := fun h => ha2 (Fin.ext h)
    have e1 : (((u ++ [a]).length : Nat) : Int) - 1 = ((u.length : Nat) : Int) := by
      simp
    rw [chomp_bytes_rstr_chomp_binary, key _ hne, e1,
      str_get_uchar_binary M _ _ (by simp), byte_at_append_zero]
    have hc1 : ¬ (char_to_UChar a.val = 0x0A) := by
      rw [char_to_UChar_eq_ascii _ _ (by decide)]; exact hav1
    have hc2 : ¬ (char_to_UChar a.val = 0x0D ∧ ((1 : Int) > 0 ∨ (0 : Int) ≠ 0)) := by
      rw [char_to_UChar_eq_ascii _ _ (by decide)]; exact fun h => hav2 h.1
    simp only [hc1, if_false]
    rw [if_neg hc2]
    simp [chomp_bang_delete, Except.map, str_bytes_binary_string]
  · rw [chomp_bytes_rstr_chomp_binary]
    simp [rstr_chomp_bang, rstr_modify, str_length_binary_string, Except.map,
      str_bytes_binary_string]

/-- The function `rstr_chomp` on a binary string that ends with the one-byte
separator `d`, other than "\n": the byte is removed. -/
theorem rstr_chomp_binary_one_byte_separator (M : encoding_methods_t) (u : List (Fin 256))
    (d : Fin 256) (hd : d ≠ 0x0A) :
    chomp_bytes (rstr_chomp M (binary_string (u ++ [d])) (some (binary_string [d])) false)
      = some (.ok u) := by
  have hdv : ¬ (d.val = 0x0A) := fun h => hd (Fin.ext h)
  have hrs : rb_str_chars_len M (some (binary_string [d])) = some 1 := by
    simp [rb_str_chars_len, str_length_binary_string]
  have hl : ¬ (((u ++ [d]).length : Int) = 0) := by simp; omega
  have hc : (char_to_UChar d.val == 0x0A) = false := by
    rw [beq_eq_false_iff_ne, Ne, char_to_UChar_eq_ascii _ _ (by decide)]
    exact hdv
  have hle : (1 : Int) ≤ ((u ++ [d]).length : Int) := by simp
  have e1 : (((u ++ [d]).length : Nat) : Int) - 1 = ((u.length : Nat) : Int) := by simp
  have hfound := str_index_for_string_binary M (u ++ [d]) d u.length (by simp)
  have hmem : d ∈ (u ++ [d]).drop u.length := by simp
  rw [if_pos hmem] at hfound
  rw [chomp_bytes_rstr_chomp_binary]
  unfold rstr_chomp_bang
  simp only [rstr_modify, str_length_binary_string, hl, if_false, hrs, Bool.false_or,
    rb_str_get_uchar_binary, Option.map_some', hc, hle, if_true, e1, hfound,
    decide_eq_true_eq, one_ne_zero, decide_False, Bool.false_eq_true]
  have hi : ((u.length + List.indexOf d (List.drop u.length (u ++ [d])) : Nat) : Int) ≥ 0 := by
    omega
  rw [if_pos hi]
  have := chomp_bang_delete_binary M u [d] (by simp)
  simpa using this

/-! ## `rstr_aref` -/

/-- The examples of the documentation of `String#[]` that `rstr_aref` answers
as documented, on the binary string a = "hello there": a[1], a[1,3], a[1..3],
a[-3,2], a[-4..-2], a[12..-1], a["lo"], a["bye"]. -/
theorem rstr_aref_documented_examples :
    aref_bytes (rstr_aref unused_encoding_methods binary_hello_there (.number 1))
      = some (.ok (some [0x65]))
    ∧ aref_bytes (rstr_aref unused_encoding_methods binary_hello_there (.index_and_length 1 3))
      = some (.ok (some [0x65, 0x6C, 0x6C]))
    ∧ aref_bytes (rstr_aref unused_encoding_methods binary_hello_there (.range 1 3 false))
      = some (.ok (some [0x65, 0x6C, 0x6C]))
    ∧ aref_bytes (rstr_aref unused_encoding_methods binary_hello_there (.index_and_length (-3) 2))
      = some (.ok (some [0x65, 0x72]))
    ∧ aref_bytes (rstr_aref unused_encoding_methods binary_hello_there (.range (-4) (-2) false))
      = some (.ok (some [0x68, 0x65, 0x72]))
    ∧ aref_bytes (rstr_aref unused_encoding_methods binary_hello_there (.range 12 (-1) false))
      = some (.ok none)
    ∧ aref_bytes (rstr_aref unused_encoding_methods binary_hello_there (.string binary_lo false))
      = some (.ok (some [0x6C, 0x6F]))
    ∧ aref_bytes (rstr_aref unused_encoding_methods binary_hello_there (.string binary_bye false))
      = some (.ok none) :=
  ⟨by decide, by decide, by decide, by decide, by decide, by decide, by decide, by decide⟩

/-- C33: on the binary string a = "hello there" `rstr_aref` returns `nil` for
a[-2..-4] and for a[1..-1], where the documentation and the claim have the
empty string and "ello there"; and `str_substr(a, 12, 0)` returns an empty
string, although 12 is outside the string. -/
theorem rstr_aref_range_negative_end :
    str_length unused_encoding_methods binary_hello_there false = 11
    ∧ rstr_aref unused_encoding_methods binary_hello_there (.range (-2) (-4) false)
      = some (.ok none)
    ∧ rstr_aref unused_encoding_methods binary_hello_there (.range 1 (-1) false)
      = some (.ok none)
    ∧ (str_substr unused_encoding_methods binary_hello_there 12 0).2 = .ok (some str_new)
    ∧ str_new.length_in_bytes = 0
    ∧ (str_substr unused_encoding_methods binary_hello_there 12 1).2 = .ok none :=
  ⟨by decide, by decide, by decide, by decide, by decide, by decide⟩

/-- The function `rstr_aref` for a range `start..end` on a binary string, with
`0 ≤ start ≤ end` and `end` inside the string: the bytes from `start` to
`end`. -/
theorem rstr_aref_range_binary (M : encoding_methods_t) (s : List (Fin 256)) (b e : Nat)
    (hbe : b ≤ e) (he : e < s.length) :
    aref_bytes (rstr_aref M (binary_string s) (.range b e false))
      = some (.ok (some ((s.drop b).take (e - b + 1)))) := by
  have hlen : ((e : Int) - (b : Int) + 1) = ((e - b + 1 : Nat) : Int) := by omega
  unfold rstr_aref aref_bytes
  simp only [Bool.false_eq_true, if_false, hlen]
  rw [str_substr_binary M s b (e - b + 1) (by omega)]
  have h := (str_substr_binary_field s b (e - b + 1) (by omega)).1
  simp only [Option.map_some', Except.map] at h ⊢
  rw [Option.some.injEq] at h
  rw [h]

/-! ## The surrogate walk and the code points of the specification -/

/-- The forward walk visits the code points of the specification: the `i`-th
range of `code_point_ranges` starts where `U16_FWD_N` stops after `i` code
points and ends one `U16_FWD_1` further, and there are as many ranges as
`u_countChar32` counts. -/
theorem code_point_ranges_walk (data : List (Fin 256)) (length : Nat) :
    ∀ len pos, pos + len = length →
      (code_point_ranges (uchars_from data pos len) pos).length = u_countChar32 data pos len
      ∧ ∀ i r, (code_point_ranges (uchars_from data pos len) pos)[i]? = some r →
          r = (U16_FWD_N data length pos i, U16_FWD_1 data (U16_FWD_N data length pos i) length)
          ∧ U16_FWD_N data length pos i < length := by
  intro len
  induction len using Nat.strong_induction_on with
  | _ len ih =>
    intro pos hpos
    match len, ih, hpos with
    | 0, _, hpos =>
      simp [uchars_from, code_point_ranges, u_countChar32]
    | 1, _, hpos =>
      have h1 : pos < length := by omega
      have h2 : U16_FWD_1 data pos length = pos + 1 := by
        unfold U16_FWD_1
        have : ¬ (pos + 1 ≠ length) := by omega
        simp [this]
      refine ⟨by simp [uchars_from, code_point_ranges, u_countChar32], ?_⟩
      intro i r hr
      cases i with
      | zero =>
        simp [uchars_from, code_point_ranges] at hr
        subst hr
        simp [U16_FWD_N, h2, h1]
      | succ j => simp [uchars_from, code_point_ranges] at hr
    | n + 2, ih, hpos =>
      have h1 : pos < length := by omega
      have hu : uchars_from data pos (n + 2)
          = uchar_at data pos :: uchar_at data (pos + 1) :: uchars_from data (pos + 2) n := by
        simp [uchars_from, List.range'_succ]
      have hu1 : uchars_from data (pos + 1) (n + 1)
          = uchar_at data (pos + 1) :: uchars_from data (pos + 2) n := by
        simp [uchars_from, List.range'_succ]
      by_cases hp : (U16_IS_LEAD (uchar_at data pos) && U16_IS_TRAIL (uchar_at data (pos + 1)))
          = true
      · have hf : U16_FWD_1 data pos length = pos + 2 := by
          unfold U16_FWD_1
          simp only [Bool.and_eq_true] at hp
          have : pos + 1 ≠ length := by omega
          simp [hp.1, hp.2, this]
        have hrec := ih n (by omega) (pos + 2) (by omega)
        have hc : code_point_ranges (uchars_from data pos (n + 2)) pos
            = (pos, pos + 2) :: code_point_ranges (uchars_from data (pos + 2) n) (pos + 2) := by
          rw [hu, code_point_ranges, if_pos hp]
        rw [hc]
        refine ⟨by simp [u_countChar32, hp, hrec.1], ?_⟩
        intro i r hr
        cases i with
        | zero =>
          simp at hr
          subst hr
          simp [U16_FWD_N, hf, h1]
        | succ j =>
          simp only [List.getElem?_cons_succ] at hr
          have := hrec.2 j r hr
          simpa [U16_FWD_N, h1, hf] using this
      · have hf : U16_FWD_1 data pos length = pos + 1 := by
          unfold U16_FWD_1
          have hp2 : ¬ ((U16_IS_LEAD (uchar_at data pos) && decide (pos + 1 ≠ length)
              && U16_IS_TRAIL (uchar_at data (pos + 1))) = true) := by
            intro hc
            apply hp
            simp only [Bool.and_eq_true, decide_eq_true_eq] at hc ⊢
            exact ⟨hc.1.1, hc.2⟩
          rw [if_neg hp2]
        have hrec := ih (n + 1) (by omega) (pos + 1) (by omega)
        have hc : code_point_ranges (uchars_from data pos (n + 2)) pos
            = (pos, pos + 1) :: code_point_ranges (uchars_from data (pos + 1) (n + 1)) (pos + 1) := by
          rw [hu, code_point_ranges, if_neg hp, hu1]
        rw [hc]
        refine ⟨by simp [u_countChar32, hp, hrec.1], ?_⟩
        intro i r hr
        cases i with
        | zero =>
          simp at hr
          subst hr
          simp [U16_FWD_N, hf, h1]
        | succ j =>
          simp only [List.getElem?_cons_succ] at hr
          have := hrec.2 j r hr
          simpa [U16_FWD_N, h1, hf] using this

/-- Once the forward walk has reached the end of the units it stays there. -/
theorem U16_FWD_N_at_end (data : List (Fin 256)) (length c : Nat)
    (hc : U16_FWD_N data length 0 c = length) (d : Nat) :
    U16_FWD_N data length 0 (c + d) = length := by
  induction d with
  | zero => exact hc
  | succ n ih =>
    have e : c + (n + 1) = (c + n) + 1 := by omega
    rw [e, U16_FWD_N_succ, ih]
    simp

/-- The number of code points of a string stored as code units with an even
byte length, as `str_length` counts them in code-point mode, is the number of
code points of the specification. -/
theorem str_length_eq_code_point_ranges (M : encoding_methods_t) (self : rb_str_t)
    (hu : str_is_stored_in_uchars self = true)
    (heven : ODD_NUMBER self.length_in_bytes = false) :
    str_length M self false = ((code_point_ranges (str_uchars self) 0).length : Nat) := by
  have h := (code_point_ranges_walk self.data (BYTES_TO_UCHARS self.length_in_bytes).toNat
    (BYTES_TO_UCHARS self.length_in_bytes).toNat 0 (by omega)).1
  unfold str_uchars
  rw [h]
  unfold str_length
  by_cases h0 : self.length_in_bytes = 0
  · simp [h0, BYTES_TO_UCHARS, u_countChar32]
  · simp [h0, hu, heven]

/-- C35: on a string stored as code units with an even byte length, in
code-point mode with the surrogate walk, `str_get_character_boundaries` returns
for the index `i` of a code point of the specification (a lead immediately
followed by a trail grouped into one, every other unit of its own) the byte
range of that code point, which is a pair of four bytes or one unit of two
bytes, does not start on the trail of a pair and does not end between a lead
and its trail; for an index from the number `c` of code points on it returns
out-of-range; and the index `-k` gives what the index `c - k` gives. -/
theorem str_get_character_boundaries_code_points (M : encoding_methods_t) (self : rb_str_t)
    (hu : str_is_stored_in_uchars self = true)
    (hwalk : str_known_not_to_have_any_supplementary self = false)
    (heven : ODD_NUMBER self.length_in_bytes = false) :
    (∀ (i : Nat) (r : Nat × Nat), (code_point_ranges (str_uchars self) 0)[i]? = some r →
      str_get_character_boundaries M self i false
        = ⟨UCHARS_TO_BYTES r.1, UCHARS_TO_BYTES r.2⟩
      ∧ ((r.2 = r.1 + 2 ∧ U16_IS_LEAD (uchar_at self.data r.1) = true
            ∧ U16_IS_TRAIL (uchar_at self.data (r.1 + 1)) = true)
          ∨ r.2 = r.1 + 1)
      ∧ (r.2 : Int) ≤ BYTES_TO_UCHARS self.length_in_bytes
      ∧ (0 < r.1 → ¬ (U16_IS_LEAD (uchar_at self.data (r.1 - 1)) = true
            ∧ U16_IS_TRAIL (uchar_at self.data r.1) = true))
      ∧ ((r.2 : Int) < BYTES_TO_UCHARS self.length_in_bytes →
          ¬ (U16_IS_LEAD (uchar_at self.data (r.2 - 1)) = true
            ∧ U16_IS_TRAIL (uchar_at self.data r.2) = true)))
    ∧ (∀ i : Int, ((code_point_ranges (str_uchars self) 0).length : Int) ≤ i →
        str_get_character_boundaries M self i false = ⟨-1, -1⟩)
    ∧ (∀ k : Int, 1 ≤ k → k ≤ ((code_point_ranges (str_uchars self) 0).length : Int) →
        str_get_character_boundaries M self (-k) false
          = str_get_character_boundaries M self
              (((code_point_ranges (str_uchars self) 0).length : Int) - k) false) := by
  have hlen := str_length_eq_code_point_ranges M self hu heven
  generalize hN : (BYTES_TO_UCHARS self.length_in_bytes).toNat = N
  have hwalkN := code_point_ranges_walk self.data N N 0 (by omega)
  have hspec := u_countChar32_spec self.data N N 0 (by omega)
  have hR : str_uchars self = uchars_from self.data 0 N := by
    unfold str_uchars; rw [hN]
  rw [hR] at hlen ⊢
  rw [← hwalkN.1] at hspec
  generalize code_point_ranges (uchars_from self.data 0 N) 0 = R at hlen hwalkN hspec ⊢
  refine ⟨?_, ?_, ?_⟩
  · intro i r hr
    obtain ⟨hreq, hlt⟩ := hwalkN.2 i r hr
    have hiR : i < R.length := by
      rcases Nat.lt_or_ge i R.length with h | h
      · exact h
      · rw [List.getElem?_eq_none h] at hr
        exact absurd hr (by simp)
    have hge := U16_FWD_N_ge self.data N i (fun j hj => hspec.2 j (by omega))
    have hNpos : (N : Int) = BYTES_TO_UCHARS self.length_in_bytes := by omega
    have hb := U16_FWD_1_bounds self.data _ N hlt
    have hns1 := U16_FWD_N_no_straddle self.data N i
    have hns2 := U16_FWD_N_no_straddle self.data N (i + 1)
    rw [U16_FWD_N_succ, if_pos hlt] at hns2
    rw [str_get_character_boundaries_walk_pos M self hu hwalk i (by omega), hN]
    generalize U16_FWD_N self.data N 0 i = off at hreq hlt hge hb hns1 hns2
    have h1 : ¬ (((off : Nat) : Int) ≥ BYTES_TO_UCHARS self.length_in_bytes) := by omega
    rw [if_neg h1]
    simp only []
    have hcond : (U16_IS_LEAD (uchar_at self.data off)
          && decide ((off : Int) < BYTES_TO_UCHARS self.length_in_bytes - 1)
          && U16_IS_TRAIL (uchar_at self.data (off + 1)))
        = (U16_IS_LEAD (uchar_at self.data off) && decide (off + 1 ≠ N)
          && U16_IS_TRAIL (uchar_at self.data (off + 1))) := by
      have : decide ((off : Int) < BYTES_TO_UCHARS self.length_in_bytes - 1)
          = decide (off + 1 ≠ N) := by
        apply decide_eq_decide.mpr
        omega
      rw [this]
    rw [hcond]
    obtain ⟨r1, r2⟩ := r
    by_cases hp : (U16_IS_LEAD (uchar_at self.data off) && decide (off + 1 ≠ N)
          && U16_IS_TRAIL (uchar_at self.data (off + 1))) = true
    · have hf : U16_FWD_1 self.data off N = off + 2 := by
        unfold U16_FWD_1; rw [if_pos hp]
      rw [hf] at hreq hb hns2
      simp only [Prod.mk.injEq] at hreq
      obtain ⟨e1, e2⟩ := hreq
      subst e1
      subst e2
      rw [if_pos hp]
      simp only [Bool.and_eq_true, decide_eq_true_eq] at hp
      refine ⟨?_, Or.inl ⟨rfl, hp.1.1, hp.2⟩, ?_, fun h => hns1 h hlt, ?_⟩
      · simp only [UCHARS_TO_BYTES]; congr 1; push_cast; omega
      · simp only []; omega
      · intro h; exact hns2 (by omega) (by simp only [] at h; omega)
    · have hf : U16_FWD_1 self.data off N = off + 1 := by
        unfold U16_FWD_1; rw [if_neg hp]
      rw [hf] at hreq hb hns2
      simp only [Prod.mk.injEq] at hreq
      obtain ⟨e1, e2⟩ := hreq
      subst e1
      subst e2
      rw [if_neg hp]
      refine ⟨?_, Or.inr rfl, ?_, fun h => hns1 h hlt, ?_⟩
      · simp only [UCHARS_TO_BYTES]; congr 1; push_cast; omega
      · simp only []; omega
      · intro h; exact hns2 (by omega) (by simp only [] at h; omega)
  · intro i hi
    by_cases hout : i < -BYTES_TO_UCHARS self.length_in_bytes
        ∨ i ≥ BYTES_TO_UCHARS self.length_in_bytes
    · unfold str_get_character_boundaries
      simp only [hu, hwalk, if_true, Bool.false_or, Bool.false_eq_true, if_false, hout]
    · obtain ⟨n, rfl⟩ : ∃ n : Nat, i = n := ⟨i.toNat, by omega⟩
      rw [str_get_character_boundaries_walk_pos M self hu hwalk n (by omega), hN]
      obtain ⟨d, rfl⟩ : ∃ d, n = R.length + d := ⟨n - R.length, by omega⟩
      rw [U16_FWD_N_at_end self.data N R.length hspec.1 d]
      have : ((N : Nat) : Int) ≥ BYTES_TO_UCHARS self.length_in_bytes := by omega
      rw [if_pos this]
  · intro k hk1 hk2
    have hn : 1 ≤ str_length M self false := by rw [hlen]; omega
    have := (str_get_character_boundaries_negative_walk M self hu hwalk heven hn).1 k hk1
      (by rw [hlen]; exact hk2)
    rw [hlen] at this
    exact this

/-- C35 (witness): U+10000, "a", "b" stored as the code units D800 DC00 0061
0062: three code points; the first one is the four bytes 0 to 4. -/
theorem str_get_character_boundaries_code_points_witness :
    code_point_ranges (str_uchars utf8_pair_a_b) 0 = [(0, 2), (2, 3), (3, 4)]
    ∧ str_get_character_boundaries unused_encoding_methods utf8_pair_a_b (0 : Nat) false
        = ⟨UCHARS_TO_BYTES (0 : Nat), UCHARS_TO_BYTES (2 : Nat)⟩ :=
  ⟨by decide,
    ((str_get_character_boundaries_code_points unused_encoding_methods utf8_pair_a_b
      (by decide) (by decide) (by decide)).1 0 (0, 2) (by decide)).1⟩

/-! ## The decision table and the content of the second string -/

/-- Where the ASCII-only query on `b` answers what the content of `b` is,
`str_compatible_encoding(a, b)` is the decision table of the specification. -/
theorem str_compatible_encoding_eq_table_of_content (M : encoding_methods_t) (a b : rb_str_t)
    (h : (str_is_ascii_only M b).1 = ascii_only_content b) :
    (str_compatible_encoding M a b).1 = compatible_encoding_table a b := by
  unfold str_compatible_encoding compatible_encoding_table str_is_ruby_ascii_only
  rw [← h]
  by_cases h1 : a.encoding = b.encoding
  · simp [h1]
  · by_cases h2 : b.length_in_bytes = 0
    · simp [h1, h2]
    · by_cases h3 : a.length_in_bytes = 0
      · simp [h1, h2, h3]
      · cases ha : a.encoding.ascii_compatible <;> cases hb : b.encoding.ascii_compatible <;>
          cases hc : (str_is_ascii_only M b).1 <;> simp [h1, h2, h3, ha, hb, hc]

/-- The first three rows of the decision table do not depend on the ASCII-only
property: for two strings of the same encoding, or one of which is empty,
`str_compatible_encoding(a, b)` is the decision table of the specification. -/
theorem str_compatible_encoding_eq_table_of_empty (M : encoding_methods_t) (a b : rb_str_t)
    (h : a.encoding = b.encoding ∨ b.length_in_bytes = 0 ∨ a.length_in_bytes = 0) :
    (str_compatible_encoding M a b).1 = compatible_encoding_table a b := by
  unfold str_compatible_encoding compatible_encoding_table
  by_cases h1 : a.encoding = b.encoding
  · simp [h1]
  · by_cases h2 : b.length_in_bytes = 0
    · simp [h1, h2]
    · by_cases h3 : a.length_in_bytes = 0
      · simp [h1, h2, h3]
      · rcases h with h | h | h
        · exact absurd h h1
        · exact absurd h h2
        · exact absurd h h3

/-- C1: `str_compatible_encoding(a, b)` is not the decision table of the
specification at two pairs of non-empty strings of different ASCII-compatible
encodings, `a` being "A" in ISO-8859-1.  For `b` the pair D800 DC00 stored as
code units, which is not ASCII-only, the code gives ISO-8859-1 where the table
gives none; for `b` the string "a" that `str_delete` leaves of "aé" with its
flags cached, which is ASCII-only, the code gives none where the table gives
ISO-8859-1. -/
theorem str_compatible_encoding_differs_from_table :
    (ascii_only_content pair_of_U10000 = false
      ∧ compatible_encoding_table latin1_A pair_of_U10000 = none
      ∧ (str_compatible_encoding unused_encoding_methods latin1_A pair_of_U10000).1
          = some rb_encodings_ISO8859_1)
    ∧ (str_delete unused_encoding_methods utf8_a_e_acute_scanned 1 1 false
          = some utf8_a_after_delete
      ∧ str_bytes utf8_a_after_delete = [0x61, 0x00]
      ∧ ascii_only_content utf8_a_after_delete = true
      ∧ compatible_encoding_table latin1_A utf8_a_after_delete = some rb_encodings_ISO8859_1
      ∧ (str_compatible_encoding unused_encoding_methods latin1_A utf8_a_after_delete).1
          = none) :=
  ⟨⟨by decide, by decide, by decide⟩, by decide, by decide, by decide, by decide, by decide⟩

/-- A value inside the range of `long` is the result of its own arithmetic. -/
theorem long_wrap_of_fits (x : Int) (h1 : -(2 ^ 63) ≤ x) (h2 : x < 2 ^ 63) :
    long_wrap x = x := by
  unfold long_wrap
  omega

/-- The sums and products of `str_get_character_boundaries` on an index far
inside the range of `long` are exact. -/
theorem long_wrap_of_index (idx : Int) (h1 : -(2 ^ 60) ≤ idx) (h2 : idx ≤ 2 ^ 60) :
    long_wrap (UCHARS_TO_BYTES idx) = UCHARS_TO_BYTES idx
    ∧ long_wrap (UCHARS_TO_BYTES idx + 2) = UCHARS_TO_BYTES idx + 2
    ∧ long_wrap (idx + 1) = idx + 1
    ∧ long_wrap (idx * 4) = idx * 4
    ∧ long_wrap (idx * 4 + 4) = idx * 4 + 4 := by
  unfold UCHARS_TO_BYTES
  exact ⟨long_wrap_of_fits _ (by omega) (by omega), long_wrap_of_fits _ (by omega) (by omega),
    long_wrap_of_fits _ (by omega) (by omega), long_wrap_of_fits _ (by omega) (by omega),
    long_wrap_of_fits _ (by omega) (by omega)⟩

/-- For an index and a byte length far inside the range of `long`, the
arithmetic of `long` is exact: the boundaries are those of
`str_get_character_boundaries`. -/
theorem str_get_character_boundaries_long_eq (M : encoding_methods_t) (self : rb_str_t)
    (index : Int) (ucs2_mode : Bool)
    (hi1 : -(2 ^ 59) ≤ index) (hi2 : index ≤ 2 ^ 59)
    (hl1 : 0 ≤ self.length_in_bytes) (hl2 : self.length_in_bytes ≤ 2 ^ 59) :
    str_get_character_boundaries_long M self index ucs2_mode
      = str_get_character_boundaries M self index ucs2_mode := by
  have hd2 : 0 ≤ div_round_up self.length_in_bytes 2
      ∧ div_round_up self.length_in_bytes 2 ≤ 2 ^ 59 := by
    unfold div_round_up; omega
  have hd4 : 0 ≤ div_round_up self.length_in_bytes 4
      ∧ div_round_up self.length_in_bytes 4 ≤ 2 ^ 59 := by
    unfold div_round_up; omega
  have e2 : long_wrap (index + div_round_up self.length_in_bytes 2)
      = index + div_round_up self.length_in_bytes 2 :=
    long_wrap_of_fits _ (by omega) (by omega)
  have e4 : long_wrap (index + div_round_up self.length_in_bytes 4)
      = index + div_round_up self.length_in_bytes 4 :=
    long_wrap_of_fits _ (by omega) (by omega)
  have e1 : long_wrap (index + self.length_in_bytes) = index + self.length_in_bytes :=
    long_wrap_of_fits _ (by omega) (by omega)
  obtain ⟨a1, a2, a3, a4, a5⟩ := long_wrap_of_index index (by omega) (by omega)
  obtain ⟨b1, b2, _, _, _⟩ :=
    long_wrap_of_index (index + div_round_up self.length_in_bytes 2) (by omega) (by omega)
  obtain ⟨_, _, _, c4, c5⟩ :=
    long_wrap_of_index (index + div_round_up self.length_in_bytes 4) (by omega) (by omega)
  obtain ⟨_, _, d3, _, _⟩ :=
    long_wrap_of_index (index + self.length_in_bytes) (by omega) (by omega)
  unfold str_get_character_boundaries_long str_get_character_boundaries
  by_cases hneg : index < 0
  · simp only [hneg, if_true, e2, e4, e1, b1, b2, c4, c5, d3]
  · simp only [hneg, if_false, a1, a2, a3, a4, a5]

/-- The end offset that `str_get_character_boundaries` returns is at least -1,
when that of the per-encoding operation is. -/
theorem str_get_character_boundaries_end_ge (M : encoding_methods_t)
    (hM : ∀ s i m, -1 ≤ (M.get_character_boundaries s i m).end_offset_in_bytes)
    (self : rb_str_t) (index : Int) (ucs2_mode : Bool) :
    -1 ≤ (str_get_character_boundaries M self index ucs2_mode).end_offset_in_bytes := by
  unfold str_get_character_boundaries
  simp only [UCHARS_TO_BYTES]
  split_ifs <;> first
    | exact hM _ _ _
    | (simp only []; omega)

/-- C38 (as amended): when `str_get_characters` reaches `str_new_copy_of_part`
with indices `first`, `last` and a source of a byte length far inside the range
of `long` (at most `2 ^ 59` in absolute value), the copied range starts inside
the source and does not end after it; it is well formed exactly when the
character at `first` does not start after the end of the character at `last`,
as is the case for a string of single bytes and indices `first ≤ last` of the
same sign. -/
theorem str_get_characters_copy_call_range (M : encoding_methods_t)
    (hM : ∀ s i m, ((M.get_character_boundaries s i m).start_offset_in_bytes = -1
        ∨ 0 ≤ (M.get_character_boundaries s i m).start_offset_in_bytes)
      ∧ -1 ≤ (M.get_character_boundaries s i m).end_offset_in_bytes)
    (self : rb_str_t) (first last : Int) (ucs2_mode : Bool)
    (s : rb_str_t) (offset length : Int)
    (hcall : str_get_characters_copy_call M self first last ucs2_mode = some (s, offset, length))
    (hf1 : -(2 ^ 59) ≤ first) (hf2 : first ≤ 2 ^ 59)
    (hl1 : -(2 ^ 59) ≤ last) (hl2 : last ≤ 2 ^ 59)
    (hs1 : 0 ≤ s.length_in_bytes) (hs2 : s.length_in_bytes ≤ 2 ^ 59) :
    0 ≤ offset ∧ offset < s.length_in_bytes ∧ offset + length ≤ s.length_in_bytes
    ∧ (copied_range_well_formed s offset length = true ↔
        (str_get_character_boundaries_long M s first ucs2_mode).start_offset_in_bytes
          ≤ (str_get_character_boundaries_long M s last ucs2_mode).end_offset_in_bytes)
    ∧ (self.encoding.single_byte_encoding = true → str_is_stored_in_uchars self = false →
        first ≤ last → (0 ≤ first ∨ last < 0) →
        copied_range_well_formed s offset length = true) := by
  unfold str_get_characters_copy_call at hcall
  by_cases h0 : self.length_in_bytes = 0
  · rw [if_pos h0] at hcall
    exact absurd hcall (by simp)
  rw [if_neg h0] at hcall
  simp only [] at hcall
  generalize hs' : (if (!self.encoding.single_byte_encoding && !str_is_stored_in_uchars self) = true
    then (str_try_making_data_uchars M self).2 else self) = s' at hcall
  split_ifs at hcall with c1 c2 c3 c4 c5
  all_goals simp only [Option.some.injEq, Prod.mk.injEq] at hcall
  all_goals obtain ⟨e1, e2, e3⟩ := hcall
  all_goals subst e1
  all_goals
    have qf := str_get_character_boundaries_long_eq M s' first ucs2_mode hf1 hf2 hs1 hs2
    have ql := str_get_character_boundaries_long_eq M s' last ucs2_mode hl1 hl2 hs1 hs2
    simp only [qf, ql] at *
    have hstart := str_get_character_boundaries_start_nonneg M (fun a b c => (hM a b c).1)
      s' first ucs2_mode
    have hend := str_get_character_boundaries_end_ge M (fun a b c => (hM a b c).2)
      s' last ucs2_mode
    have hsingle : self.encoding.single_byte_encoding = true →
        str_is_stored_in_uchars self = false →
        str_get_character_boundaries M s' first ucs2_mode
          = (if (if first < 0 then first + s'.length_in_bytes else first) < 0 then ⟨-1, -1⟩
            else ⟨if first < 0 then first + s'.length_in_bytes else first,
                  (if first < 0 then first + s'.length_in_bytes else first) + 1⟩)
        ∧ str_get_character_boundaries M s' last ucs2_mode
          = (if (if last < 0 then last + s'.length_in_bytes else last) < 0 then ⟨-1, -1⟩
            else ⟨if last < 0 then last + s'.length_in_bytes else last,
                  (if last < 0 then last + s'.length_in_bytes else last) + 1⟩) := by
      intro h1 h2
      have : s' = self := by rw [← hs']; simp [h1]
      subst this
      exact ⟨str_get_character_boundaries_single_byte M s' first ucs2_mode h1 h2,
        str_get_character_boundaries_single_byte M s' last ucs2_mode h1 h2⟩
    generalize str_get_character_boundaries M s' first ucs2_mode = fb at *
    generalize str_get_character_boundaries M s' last ucs2_mode = lb at *
    subst e2
    rw [long_wrap_of_fits _ (by omega) (by omega)] at e3
    subst e3
    unfold copied_range_well_formed
    simp only [Bool.and_eq_true, decide_eq_true_eq]
    refine ⟨by omega, by omega, by omega, by omega, ?_⟩
    intro a b hfl hsign
    obtain ⟨q1, q2⟩ := hsingle a b
    subst q1
    subst q2
    split_ifs at * <;> simp only [] at * <;> first | omega | exact absurd trivial c1

/-- C38 (witness): "abc" in ISO-8859-1, from index 0 to index 1: the call
copies the two bytes from offset 0. -/
theorem str_get_characters_copy_call_range_witness :
    str_get_characters_copy_call unused_encoding_methods latin1_abc 0 1 false
      = some (latin1_abc, 0, 2)
    ∧ copied_range_well_formed latin1_abc 0 2 = true :=
  ⟨by decide,
    (str_get_characters_copy_call_range unused_encoding_methods
      (fun _ _ _ => ⟨Or.inl rfl, le_refl (-1 : Int)⟩) latin1_abc 0 1 false latin1_abc 0 2 (by decide)
      (by decide) (by decide) (by decide) (by decide) (by decide) (by decide)).2.2.2.2
      (by decide) (by decide) (by decide) (by decide)⟩

/-- C38 (counterexample): "abc" in ISO-8859-1 with `first = 2` and `last = 0`:
the boundaries are {2, 3} and {0, 1}, and `str_new_copy_of_part` is called
with the offset 2 and the length -1.  "abc" stored as three code units with
`first = last = LONG_MAX` in code-unit mode: `UCHARS_TO_BYTES(index)` is -2 in
`long`, and `str_new_copy_of_part` is called with the offset -2 and the
length 2. -/
theorem str_get_characters_copy_call_ill_formed :
    (latin1_abc.length_in_bytes = 3
      ∧ str_get_character_boundaries_long unused_encoding_methods latin1_abc 2 false = ⟨2, 3⟩
      ∧ str_get_character_boundaries_long unused_encoding_methods latin1_abc 0 false = ⟨0, 1⟩
      ∧ str_get_characters_copy_call unused_encoding_methods latin1_abc 2 0 false
          = some (latin1_abc, 2, -1)
      ∧ copied_range_well_formed latin1_abc 2 (-1) = false)
    ∧ (utf8_abc.length_in_bytes = 6
      ∧ str_get_character_boundaries_long unused_encoding_methods utf8_abc LONG_MAX true
          = ⟨-2, 0⟩
      ∧ str_get_characters_copy_call unused_encoding_methods utf8_abc LONG_MAX LONG_MAX true
          = some (utf8_abc, -2, 2)
      ∧ copied_range_well_formed utf8_abc (-2) 2 = false) :=
  ⟨⟨by decide, by decide, by decide, by decide, by decide⟩,
    by decide, by decide, by decide, by decide⟩

/-- Where the range of the call is well formed and the arithmetic of `long` is
exact, `str_get_characters` returns the copy that the call makes, a string of
`length` bytes, not more than the source has. -/
theorem str_get_characters_of_copy_call (M : encoding_methods_t)
    (hM : ∀ s i m, -1 ≤ (M.get_character_boundaries s i m).end_offset_in_bytes)
    (self : rb_str_t)
    (first last : Int) (ucs2_mode : Bool) (s : rb_str_t) (offset length : Int)
    (hcall : str_get_characters_copy_call M self first last ucs2_mode = some (s, offset, length))
    (hf1 : -(2 ^ 59) ≤ first) (hf2 : first ≤ 2 ^ 59)
    (hl1 : -(2 ^ 59) ≤ last) (hl2 : last ≤ 2 ^ 59)
    (hs1 : 0 ≤ s.length_in_bytes) (hs2 : s.length_in_bytes ≤ 2 ^ 59)
    (hwf : copied_range_well_formed s offset length = true) :
    str_get_characters M self first last ucs2_mode
      = (s, .ok (some (str_new_copy_of_part s offset length)))
    ∧ (str_new_copy_of_part s offset length).length_in_bytes = length
    ∧ 0 ≤ length ∧ length ≤ s.length_in_bytes := by
  unfold copied_range_well_formed at hwf
  simp only [Bool.and_eq_true, decide_eq_true_eq] at hwf
  refine ⟨?_, (str_new_copy_of_part_spec s offset length).2.1, by omega, by omega⟩
  unfold str_get_characters_copy_call at hcall
  by_cases h0 : self.length_in_bytes = 0
  · rw [if_pos h0] at hcall
    exact absurd hcall (by simp)
  rw [if_neg h0] at hcall
  simp only [] at hcall
  have hsrc := str_get_characters_source M self first last ucs2_mode
  rw [if_neg h0] at hsrc
  generalize hs' : (if (!self.encoding.single_byte_encoding && !str_is_stored_in_uchars self) = true
    then (str_try_making_data_uchars M self).2 else self) = s' at hcall hsrc
  have hout := str_get_characters_outcome M self first last ucs2_mode h0 s' hsrc.symm
  split_ifs at hcall with c1 c2 c3 c4 c5
  all_goals simp only [Option.some.injEq, Prod.mk.injEq] at hcall
  all_goals obtain ⟨e1, e2, e3⟩ := hcall
  all_goals subst e1
  all_goals
    have qf := str_get_character_boundaries_long_eq M s' first ucs2_mode hf1 hf2 hs1 hs2
    have ql := str_get_character_boundaries_long_eq M s' last ucs2_mode hl1 hl2 hs1 hs2
    simp only [qf, ql] at *
    have hend := str_get_character_boundaries_end_ge M hM s' last ucs2_mode
    subst e2
    rw [long_wrap_of_fits _ (by omega) (by omega)] at e3
    subst e3
  · rw [if_neg c1, if_neg c2, if_neg c3, if_neg c4, if_pos c5] at hout
    rw [← hout, ← hsrc]
  · rw [if_neg c1, if_neg c2, if_neg c3, if_neg c4, if_neg c5] at hout
    rw [← hout, ← hsrc]

end MacRuby
